import Mathlib

/-!
Verification of the PlanarAllyPlus building generator
(`server/src/api/http/extensions/building_generator.py`).

The Python module is shallowly embedded below.  Python `int` is modelled as
`Int`; Python `//` (floor division, always used here with a positive divisor)
is modelled as `Int`'s `/` (`Int.ediv`, which agrees with floor division for
positive divisors); Python `%` on naturals is `Nat` `%`.  Python lists are
Lean lists, Python sets of ints are duplicate-free lists used only through
membership and a sorting step, mirroring the source's `sorted(...)` calls.

The generator draws randomness from `random.Random(seed)`.  All pipeline
functions are parameterised by an abstract `RandomSource` (its only primitive
is `_randbelow`, exactly as in CPython, where `randint`/`shuffle` are derived
from `_randbelow`).  Universal theorems quantify over every source, hence
over every seed; concrete counterexamples instantiate the source with a
bit-exact embedding of CPython's Mersenne Twister (`mt_source` below), so
each counterexample is an actual run of the program at an explicit seed.
-/

namespace BuildingGen

/-- 2^32, the word modulus of the Mersenne Twister. -/
def W32 : Nat := 4294967296

-- ---------------------------------------------------------------------------
-- Public enums (building_generator.py, class definitions)
-- ---------------------------------------------------------------------------

inductive BuildingArchetype
  | house | shop | tavern | inn
deriving DecidableEq, Repr

inductive FootprintShape
  | rectangle | l_shape | cross | offset
deriving DecidableEq, Repr

inductive LayoutPlan
  | open_plan | corridor
deriving DecidableEq, Repr

inductive BuildingSize
  | small | medium | large | xlarge
deriving DecidableEq, Repr

inductive CellKind
  | empty | floor
deriving DecidableEq, Repr

structure BuildingParams where
  archetype : BuildingArchetype
  footprint : FootprintShape
  layout    : LayoutPlan
  size      : BuildingSize
  seed      : Int
deriving DecidableEq, Repr

/-- A `(x, y, w, h)` rectangle in grid cells (Python uses 4-tuples). -/
structure Rect where
  x : Int
  y : Int
  w : Int
  h : Int
deriving DecidableEq, Repr, Inhabited

structure Room where
  id   : Nat
  x    : Int
  y    : Int
  w    : Int
  h    : Int
  kind : String
deriving DecidableEq, Repr, Inhabited

def Room.x2 (r : Room) : Int := r.x + r.w
def Room.y2 (r : Room) : Int := r.y + r.h

structure Door where
  x         : Int
  y         : Int
  direction : String
  door_type : String := "normal"
deriving DecidableEq, Repr, Inhabited

structure BuildingResult where
  grid   : List (List CellKind)
  width  : Int
  height : Int
  rooms  : List Room
  doors  : List Door
  seed   : Int
deriving DecidableEq, Repr

-- ---------------------------------------------------------------------------
-- Constants
-- ---------------------------------------------------------------------------

def MIN_ROOM : Int := 3
def GAP : Int := 1
def MAX_CANVAS_CELLS : Int := 62

-- ---------------------------------------------------------------------------
-- Python arithmetic helpers
-- ---------------------------------------------------------------------------

/-- `_clamp(v, lo, hi) = max(lo, min(hi, v))`. -/
def pyclamp (v lo hi : Int) : Int := max lo (min hi v)

/-- Round-half-to-even of the rational `a / b` for `b > 0`.  This models
Python's `round(a / b)`: the float quotient is correctly rounded, and the
true quotient is either exactly representable or at distance `≥ 1/(2b)`
from the nearest half-integer (with `b ≤ 62·15` here), far beyond the
double-precision rounding error, so float rounding and exact rational
rounding agree at every call site. -/
def pyRoundDiv (a b : Int) : Int :=
  let q := a / b
  let r := a % b
  if 2 * r < b then q
  else if 2 * r > b then q + 1
  else if q % 2 = 0 then q else q + 1

/-- `_min_block_size(n)`: minimum cells on one axis for `n` rooms plus gaps. -/
def min_block_size (n : Int) : Int := n * MIN_ROOM + (n - 1) * GAP

/-- `[lo, lo+1, ..., hi-1]` (Python `range(lo, hi)` over ints). -/
def intRange (lo hi : Int) : List Int :=
  (List.range (hi - lo).toNat).map (fun k : Nat => lo + (k : Int))

-- ---------------------------------------------------------------------------
-- Random source abstraction
--
-- CPython derives `randint`/`shuffle` from `Random._randbelow`.  A
-- `RandomSource` provides exactly that primitive together with the one fact
-- every proof needs: the result is `< n` when `n > 0`.
-- ---------------------------------------------------------------------------

structure RandomSource (σ : Type) where
  randbelow : Nat → σ → Nat × σ
  randbelow_lt : ∀ n s, 0 < n → (randbelow n s).1 < n

variable {σ : Type}

/-- `rng.randint(lo, hi) = lo + _randbelow(hi - lo + 1)` (CPython `randrange`
for a nonempty range; every call site has `lo ≤ hi`). -/
def randint (src : RandomSource σ) (lo hi : Int) (s : σ) : Int × σ :=
  let p := src.randbelow (hi - lo + 1).toNat s
  (lo + (p.1 : Int), p.2)

/-- One element swap `x[i], x[j] = x[j], x[i]`. -/
def swapNth (l : List α) (i j : Nat) : List α :=
  match l.get? i, l.get? j with
  | some a, some b => (l.set i b).set j a
  | _, _ => l

/-- Fisher–Yates tail: `for i in reversed(range(1, len(x)))`. -/
def shuffleGo (src : RandomSource σ) : Nat → List α → σ → List α × σ
  | 0, l, s => (l, s)
  | k + 1, l, s =>
      let i := k + 1
      let p := src.randbelow (i + 1) s
      shuffleGo src k (swapNth l i p.1) p.2

/-- `rng.shuffle(x)` (CPython `Random.shuffle`). -/
def pyshuffle (src : RandomSource σ) (l : List α) (s : σ) : List α × σ :=
  shuffleGo src (l.length - 1) l s

-- ---------------------------------------------------------------------------
-- CPython's Mersenne Twister (_randommodule.c), bit-exact.
-- Used only to instantiate counterexamples at real seeds.
-- ---------------------------------------------------------------------------

/-- The 624-word twister state is packed, little-endian 32 bits per word,
into one `Nat` (the kernel evaluates arithmetic on such numbers natively,
which keeps evaluation of concrete runs feasible). -/
structure MTState where
  mt  : Nat
  idx : Nat
deriving Repr

/-- Forces a `Nat` to a literal before continuing: evaluation of the match
reduces the scrutinee, so chained state updates evaluate iteratively instead
of building deep thunks. -/
def natCase {α : Type u} (n : Nat) (k : Nat → α) : α :=
  match n with
  | 0 => k 0
  | y + 1 => k (y + 1)

/-- Word `i` of a packed state. -/
def mtw (mt i : Nat) : Nat := (mt >>> (32 * i)) &&& 4294967295

/-- Set word `i` of a packed state to `v` (callers keep `v < 2^32`). -/
def mtset (mt i v : Nat) : Nat :=
  (mt % (1 <<< (32 * i))) + (v <<< (32 * i)) + ((mt >>> (32 * i + 32)) <<< (32 * i + 32))

/-- `init_genrand` tail:
`mt[i] = (1812433253 * (mt[i-1] ^ (mt[i-1] >> 30)) + i) mod 2^32`,
accumulating words upward from `i = 1`. -/
def mtSeedGo : Nat → Nat → Nat → Nat
  | 0, _, acc => acc
  | fuel + 1, i, acc =>
      let prev := mtw acc (i - 1)
      let v := (1812433253 * (prev ^^^ (prev >>> 30)) + i) % W32
      natCase (acc + (v <<< (32 * i))) fun acc2 => mtSeedGo fuel (i + 1) acc2

def init_genrand (s : Nat) : Nat := mtSeedGo 623 1 (s % W32)

/-- First mixing loop of `init_by_array`; returns the packed state and the
running index `i` (which carries over into the second loop, as in C). -/
def ibaLoop1 (key : List Nat) : Nat → Nat → Nat → Nat → Nat × Nat
  | 0, mt, i, _ => (mt, i)
  | fuel + 1, mt, i, j =>
      let prev := mtw mt (i - 1)
      let cur := mtw mt i
      let v := ((cur ^^^ ((prev ^^^ (prev >>> 30)) * 1664525 % W32)) + key.getD j 0 + j) % W32
      let mt1 := mtset mt i v
      let i1 := i + 1
      let mt2 := if i1 ≥ 624 then mtset mt1 0 (mtw mt1 623) else mt1
      let i2 := if i1 ≥ 624 then 1 else i1
      let j1 := j + 1
      let j2 := if j1 ≥ key.length then 0 else j1
      natCase mt2 fun m => natCase i2 fun ii => natCase j2 fun jj =>
        ibaLoop1 key fuel m ii jj

/-- Second mixing loop of `init_by_array`. -/
def ibaLoop2 : Nat → Nat → Nat → Nat
  | 0, mt, _ => mt
  | fuel + 1, mt, i =>
      let prev := mtw mt (i - 1)
      let cur := mtw mt i
      let v := ((cur ^^^ ((prev ^^^ (prev >>> 30)) * 1566083941 % W32)) + W32 - i) % W32
      let mt1 := mtset mt i v
      let i1 := i + 1
      let mt2 := if i1 ≥ 624 then mtset mt1 0 (mtw mt1 623) else mt1
      let i2 := if i1 ≥ 624 then 1 else i1
      natCase mt2 fun m => natCase i2 fun ii => ibaLoop2 fuel m ii

def init_by_array (key : List Nat) : Nat :=
  let mt := init_genrand 19650218
  let p := ibaLoop1 key (max 624 key.length) mt 1 0
  let mt2 := ibaLoop2 623 p.1 p.2
  mtset mt2 0 2147483648

/-- One step of the in-place twist at position `i`. -/
def mtTwistStep (m i : Nat) : Nat :=
  let y := ((mtw m i) &&& 2147483648) ||| ((mtw m ((i + 1) % 624)) &&& 2147483647)
  let v := (mtw m ((i + 397) % 624)) ^^^ (y >>> 1) ^^^ (if y % 2 = 1 then 2567483615 else 0)
  mtset m i v

/-- One full state twist (generate the next 624 words in place). -/
def mtTwistGo : Nat → Nat → Nat → Nat
  | 0, _, m => m
  | fuel + 1, i, m => natCase (mtTwistStep m i) fun m2 => mtTwistGo fuel (i + 1) m2

def mtTwist (mt : Nat) : Nat := mtTwistGo 624 0 mt

/-- `genrand_uint32` with tempering. -/
def genrand (st : MTState) : Nat × MTState :=
  let st1 := if st.idx ≥ 624 then MTState.mk (mtTwist st.mt) 0 else st
  let y0 := mtw st1.mt st1.idx
  let y1 := y0 ^^^ (y0 >>> 11)
  let y2 := y1 ^^^ ((y1 <<< 7) &&& 2636928640)
  let y3 := y2 ^^^ ((y2 <<< 15) &&& 4022730752)
  let y4 := y3 ^^^ (y3 >>> 18)
  natCase y4 fun y => natCase st1.mt fun m => natCase st1.idx fun ii =>
    (y, MTState.mk m (ii + 1))

/-- `getrandbits(k)` for `1 ≤ k ≤ 32`. -/
def getrandbits (k : Nat) (st : MTState) : Nat × MTState :=
  let p := genrand st
  (p.1 >>> (32 - k), p.2)

/-- Rejection loop of `_randbelow_with_getrandbits`.  CPython's loop is
unbounded; the probability that 64 draws all miss is `< 2^-64`, and on every
concrete seed used below the loop ends far earlier (checked by evaluation),
so the fuel never runs out on the runs we reason about. -/
def mtRandbelowGo (n k : Nat) : Nat → MTState → Nat × MTState
  | 0, st => (0, st)
  | fuel + 1, st =>
      let p := getrandbits k st
      if p.1 < n then p else mtRandbelowGo n k fuel p.2

/-- `n.bit_length()` (structural, with fuel 64: every `n` passed to
`_randbelow` here is `≤ 2^32`). -/
def bitLenGo : Nat → Nat → Nat
  | 0, _ => 0
  | fuel + 1, n => if n = 0 then 0 else bitLenGo fuel (n / 2) + 1

def bit_length (n : Nat) : Nat := bitLenGo 64 n

def mt_randbelow (n : Nat) (st : MTState) : Nat × MTState :=
  if n = 0 then (0, st)
  else mtRandbelowGo n (bit_length n) 64 st

theorem mtRandbelowGo_lt (n k : Nat) (hn : 0 < n) :
    ∀ fuel st, (mtRandbelowGo n k fuel st).1 < n := by
  intro fuel
  induction fuel with
  | zero => intro st; simpa [mtRandbelowGo] using hn
  | succ m ih =>
      intro st
      simp only [mtRandbelowGo]
      split
      · assumption
      · exact ih _

theorem mt_randbelow_lt : ∀ n s, 0 < n → (mt_randbelow n s).1 < n := by
  intro n s hn
  rw [mt_randbelow, if_neg (Nat.pos_iff_ne_zero.mp hn)]
  exact mtRandbelowGo_lt n _ hn _ _

def mt_source : RandomSource MTState := RandomSource.mk mt_randbelow mt_randbelow_lt

/-- `random.Random(seed)` for `0 ≤ seed < 2^32` (CPython seeds the twister
with `init_by_array` over the 32-bit words of `|seed|`; one word here). -/
def mt_init (seed : Int) : MTState :=
  MTState.mk (init_by_array [seed.toNat % W32]) 624

/-- An arbitrary-stream source (used for witnesses): draw `k`-th value from
`f`, reduced into range. -/
theorem stream_randbelow_lt (f : Nat → Nat) :
    ∀ n s, 0 < n → ((fun (n : Nat) (s : Nat) => (if n = 0 then 0 else f s % n, s + 1)) n s).1 < n := by
  intro n s hn
  simp only
  rw [if_neg (Nat.pos_iff_ne_zero.mp hn)]
  exact Nat.mod_lt _ hn

def stream_source (f : Nat → Nat) : RandomSource Nat :=
  RandomSource.mk (fun n s => (if n = 0 then 0 else f s % n, s + 1)) (stream_randbelow_lt f)

-- ---------------------------------------------------------------------------
-- Archetype configuration tables
-- ---------------------------------------------------------------------------

/-- `ARCHETYPE_CFG[...]["canvas"]`. -/
def archetype_cfg : BuildingArchetype → Int × Int
  | .house => (14, 11)
  | .shop => (15, 11)
  | .tavern => (18, 13)
  | .inn => (20, 15)

/-- `ARCHETYPE_KINDS`. -/
def archetype_kinds : BuildingArchetype → List String
  | .house => ["primary", "secondary", "secondary", "secondary"]
  | .shop => ["primary", "secondary", "secondary", "storage"]
  | .tavern => ["primary", "secondary", "secondary", "secondary", "kitchen"]
  | .inn => ["primary", "secondary", "bedroom", "bedroom", "bedroom", "bedroom"]

/-- `_SIZE_ROOMS`. -/
def size_rooms : BuildingSize → Int × Int
  | .small => (1, 3)
  | .medium => (3, 5)
  | .large => (5, 10)
  | .xlarge => (10, 15)

/-- `round(base_w * scale), round(base_h * scale)` per archetype and size:
these are compile-time constants in the source (`_SIZE_SCALE` holds the
floats 0.70 / 1.00 / 1.35 / 1.70); the table below lists the value CPython's
float multiply-and-`round` produces for each of the 16 combinations. -/
def scaled_canvas : BuildingArchetype → BuildingSize → Int × Int
  | .house, .small => (10, 8)
  | .house, .medium => (14, 11)
  | .house, .large => (19, 15)
  | .house, .xlarge => (24, 19)
  | .shop, .small => (10, 8)
  | .shop, .medium => (15, 11)
  | .shop, .large => (20, 15)
  | .shop, .xlarge => (26, 19)
  | .tavern, .small => (13, 9)
  | .tavern, .medium => (18, 13)
  | .tavern, .large => (24, 18)
  | .tavern, .xlarge => (31, 22)
  | .inn, .small => (14, 10)
  | .inn, .medium => (20, 15)
  | .inn, .large => (27, 20)
  | .inn, .xlarge => (34, 26)

/-- `_build_kinds`. -/
def build_kinds (archetype : BuildingArchetype) (n_rooms : Int) : List String :=
  let pool := archetype_kinds archetype
  (List.range n_rooms.toNat).map (fun i => pool.getD (min i (pool.length - 1)) "")

-- ---------------------------------------------------------------------------
-- Footprint blocks (`make_blocks`)
-- ---------------------------------------------------------------------------

def make_blocks (src : RandomSource σ) (shape : FootprintShape) (W H : Int) (s : σ) :
    List Rect × σ :=
  match shape with
  | .rectangle => ([Rect.mk 0 0 W H], s)
  | .l_shape =>
      let min_top := min_block_size 1
      let min_bot := MIN_ROOM + GAP
      let p1 := randint src (H * 55 / 100) (H * 70 / 100) s
      let split_h := pyclamp p1.1 min_top (H - min_bot)
      let min_lw := min_block_size 1
      let p2 := randint src (W * 40 / 100) (W * 60 / 100) p1.2
      let split_w := pyclamp p2.1 min_lw (W - min_lw)
      ([Rect.mk 0 0 W split_h, Rect.mk 0 split_h split_w (H - split_h)], p2.2)
  | .cross =>
      let min_bar_h := MIN_ROOM + GAP
      let min_arm_h := MIN_ROOM + GAP
      let p1 := randint src (H * 30 / 100) (H * 45 / 100) s
      let bar_h := pyclamp p1.1 min_bar_h (H - 2 * min_arm_h)
      let cy := pyclamp ((H - bar_h) / 2) min_arm_h (H - bar_h - min_arm_h)
      let min_arm_w := min_block_size 1
      let p2 := randint src (W * 30 / 100) (W * 50 / 100) p1.2
      let bar_w := pyclamp p2.1 min_arm_w (W - 2 * min_arm_w)
      let cx := pyclamp ((W - bar_w) / 2) 0 (W - bar_w)
      let blocks := [Rect.mk 0 cy W bar_h]
        ++ (if cy ≥ min_arm_h then [Rect.mk cx 0 bar_w cy] else [])
        ++ (if H - cy - bar_h ≥ min_arm_h then [Rect.mk cx (cy + bar_h) bar_w (H - cy - bar_h)] else [])
      (blocks, p2.2)
  | .offset =>
      let min_w := MIN_ROOM + GAP
      let half_w := pyclamp (W / 2) min_w (W - min_w)
      let right_w := W - half_w
      let min_h := min_block_size 1
      let p1 := randint src (H / 6) (H / 3) s
      let stagger := pyclamp p1.1 1 (H - min_h * 2)
      let left_h := max (H - stagger) min_h
      let right_h := max (H - stagger) min_h
      ([Rect.mk 0 0 half_w left_h, Rect.mk half_w stagger right_w right_h], p1.2)

/-- `cell_in_blocks`. -/
def cell_in_blocks (cx cy : Int) (blocks : List Rect) : Bool :=
  blocks.any (fun b => decide (b.x ≤ cx ∧ cx < b.x + b.w ∧ b.y ≤ cy ∧ cy < b.y + b.h))

-- ---------------------------------------------------------------------------
-- Guillotine partitioning (`_guillotine`)
-- ---------------------------------------------------------------------------

/-- `_guillotine`, with a structural fuel so that the kernel can evaluate it.
The wrapper `guillotine` passes `fuel = n.toNat`; every recursive call has
`n1, n2 ≤ n - 1` (for `n ≥ 2`), so `fuel ≥ n.toNat` holds at every call and
the fuel-0 branch is reached only when `n ≤ 0`, where it returns the whole
block exactly as the `n ≤ 1` branch does — the fuel never changes the
result. -/
def guillotineF (src : RandomSource σ) :
    Nat → Int → Int → Int → Int → Int → σ → List Rect × σ
  | 0, x0, y0, bw, bh, _, s => ([Rect.mk x0 y0 bw bh], s)
  | fuel + 1, x0, y0, bw, bh, n, s =>
  if n ≤ 1 then ([Rect.mk x0 y0 bw bh], s)
  else
    let can_h := bh ≥ min_block_size 2
    let can_v := bw ≥ min_block_size 2
    if ¬can_h ∧ ¬can_v then ([Rect.mk x0 y0 bw bh], s)
    else
      let use_h := if can_h ∧ can_v then bh ≥ bw else can_h
      let n1 := max 1 (n / 2)
      let n2 := n - n1
      if use_h then
        let min_c := min_block_size n1
        let max_c := bh - GAP - min_block_size n2
        if min_c > max_c then ([Rect.mk x0 y0 bw bh], s)
        else
          let ideal := pyclamp (pyRoundDiv (bh * n1) n) min_c max_c
          let lo := pyclamp (ideal - max 1 (bh / 6)) min_c max_c
          let hi := pyclamp (ideal + max 1 (bh / 6)) min_c max_c
          let pc := randint src lo hi s
          let cut := pc.1
          let pa := guillotineF src fuel x0 y0 bw cut n1 pc.2
          let pb := guillotineF src fuel x0 (y0 + cut + GAP) bw (bh - cut - GAP) n2 pa.2
          (pa.1 ++ pb.1, pb.2)
      else
        let min_c := min_block_size n1
        let max_c := bw - GAP - min_block_size n2
        if min_c > max_c then ([Rect.mk x0 y0 bw bh], s)
        else
          let ideal := pyclamp (pyRoundDiv (bw * n1) n) min_c max_c
          let lo := pyclamp (ideal - max 1 (bw / 6)) min_c max_c
          let hi := pyclamp (ideal + max 1 (bw / 6)) min_c max_c
          let pc := randint src lo hi s
          let cut := pc.1
          let pa := guillotineF src fuel x0 y0 cut bh n1 pc.2
          let pb := guillotineF src fuel (x0 + cut + GAP) y0 (bw - cut - GAP) bh n2 pa.2
          (pa.1 ++ pb.1, pb.2)

def guillotine (src : RandomSource σ) (x0 y0 bw bh : Int) (n : Int) (s : σ) :
    List Rect × σ :=
  guillotineF src n.toNat x0 y0 bw bh n s

-- ---------------------------------------------------------------------------
-- Room partitioning (`partition_rooms`)
-- ---------------------------------------------------------------------------

def rectArea (r : Rect) : Int := r.w * r.h

/-- `_shrink_block` inside `partition_rooms`: shrink the partitioning rect by
one gap cell on any west/north side shared with another block (the block with
the larger coordinate shrinks). -/
def shrink_block (b : Rect) (all_blocks : List Rect) : Rect :=
  all_blocks.foldl
    (fun acc ob =>
      if ob = b then acc
      else
        let acc1 :=
          if ob.x + ob.w = b.x ∧ max b.y ob.y < min (b.y + b.h) (ob.y + ob.h) then
            Rect.mk (acc.x + GAP) acc.y (acc.w - GAP) acc.h
          else acc
        if ob.y + ob.h = b.y ∧ max b.x ob.x < min (b.x + b.w) (ob.x + ob.w) then
          Rect.mk acc1.x (acc1.y + GAP) acc1.w (acc1.h - GAP)
        else acc1)
    b

/-- The per-block loop of `partition_rooms`: distribute `n_rooms` over the
blocks (proportionally to area via `fround`, which models the float
expression `round(n_rooms * (bw*bh) / total_area)`), shrink each block, and
guillotine it.  `i == len(blocks)-1` is `rest = []` and
`len(blocks)-i-1` is `rest.length`. -/
def partition_blocks_go (src : RandomSource σ) (blocks : List Rect)
    (fround : Int → Int → Int → Int) (n_rooms total_area : Int) :
    List Rect → Int → σ → List Rect × σ
  | [], _, s => ([], s)
  | b :: rest, remaining, s =>
      let n := if rest.isEmpty then remaining
               else max 1 (min (fround n_rooms (b.w * b.h) total_area)
                               (remaining - (rest.length : Int)))
      let sb := shrink_block b blocks
      let pa := guillotine src sb.x sb.y sb.w sb.h n s
      let pb := partition_blocks_go src blocks fround n_rooms total_area rest (remaining - n) pa.2
      (pa.1 ++ pb.1, pb.2)

/-- `has_exterior_side` inside `partition_rooms`. -/
def has_exterior_side (r : Rect) (blocks : List Rect) : Bool :=
  let mid_x := r.x + r.w / 2
  let mid_y := r.y + r.h / 2
  !cell_in_blocks mid_x (r.y + r.h) blocks ||
  !cell_in_blocks mid_x (r.y - 1) blocks ||
  !cell_in_blocks (r.x - 1) mid_y blocks ||
  !cell_in_blocks (r.x + r.w) mid_y blocks

/-- Index (into `all_raw`) of `max(pool, key=area)` where
`pool = exterior if exterior else all_raw`.  Python's `max` returns the
first element attaining the maximal key; the source then distinguishes that
element by object identity (`is`), which we model by its list position. -/
def primary_idx (all_raw : List Rect) (blocks : List Rect) : Nat :=
  let ext := (List.range all_raw.length).filter
    (fun i => has_exterior_side (all_raw.getD i default) blocks)
  let idxs := if ext.isEmpty then List.range all_raw.length else ext
  match idxs with
  | [] => 0
  | i0 :: rest =>
      rest.foldl
        (fun best i =>
          if rectArea (all_raw.getD i default) > rectArea (all_raw.getD best default) then i
          else best)
        i0

/-- `_trim_rooms_horizontal`. -/
def trim_rooms_horizontal (rooms_raw : List Rect) (primary_raw : Rect) (corr_y : Int) :
    List Rect :=
  let excl_top := corr_y - GAP
  let excl_bot := corr_y + MIN_ROOM + GAP
  rooms_raw.foldr
    (fun r acc =>
      (if r = primary_raw then [r]
       else if r.y + r.h ≤ excl_top ∨ r.y ≥ excl_bot then [r]
       else
         (if r.y < excl_top ∧ excl_top - r.y ≥ MIN_ROOM then
            [Rect.mk r.x r.y r.w (excl_top - r.y)] else []) ++
         (if r.y + r.h > excl_bot ∧ (r.y + r.h) - excl_bot ≥ MIN_ROOM then
            [Rect.mk r.x excl_bot r.w ((r.y + r.h) - excl_bot)] else [])) ++ acc)
    []

/-- `_trim_rooms_vertical`. -/
def trim_rooms_vertical (rooms_raw : List Rect) (primary_raw : Rect) (corr_x : Int) :
    List Rect :=
  let excl_left := corr_x - GAP
  let excl_right := corr_x + MIN_ROOM + GAP
  rooms_raw.foldr
    (fun r acc =>
      (if r = primary_raw then [r]
       else if r.x + r.w ≤ excl_left ∨ r.x ≥ excl_right then [r]
       else
         (if r.x < excl_left ∧ excl_left - r.x ≥ MIN_ROOM then
            [Rect.mk r.x r.y (excl_left - r.x) r.h] else []) ++
         (if r.x + r.w > excl_right ∧ (r.x + r.w) - excl_right ≥ MIN_ROOM then
            [Rect.mk excl_right r.y ((r.x + r.w) - excl_right) r.h] else [])) ++ acc)
    []

/-- `_insert_corridor`. -/
def insert_corridor (src : RandomSource σ) (rooms_raw : List Rect) (W H : Int)
    (primary_raw : Rect) (s : σ) : List Rect × σ :=
  let px := primary_raw.x
  let py := primary_raw.y
  let pw := primary_raw.w
  let ph := primary_raw.h
  let cands : List (String × Rect) :=
    (if py - GAP - MIN_ROOM ≥ 0 then [("north", Rect.mk 0 (py - GAP - MIN_ROOM) W MIN_ROOM)] else []) ++
    (if py + ph + GAP + MIN_ROOM ≤ H then [("south", Rect.mk 0 (py + ph + GAP) W MIN_ROOM)] else []) ++
    (if px - GAP - MIN_ROOM ≥ 0 then [("west", Rect.mk (px - GAP - MIN_ROOM) 0 MIN_ROOM H)] else []) ++
    (if px + pw + GAP + MIN_ROOM ≤ W then [("east", Rect.mk (px + pw + GAP) 0 MIN_ROOM H)] else [])
  if cands.isEmpty then (rooms_raw, s)
  else
    let ps := pyshuffle src cands s
    match ps.1 with
    | [] => (rooms_raw, ps.2)
    | (side, corr) :: _ =>
        if side = "north" ∨ side = "south" then
          (trim_rooms_horizontal rooms_raw primary_raw corr.y ++ [corr], ps.2)
        else
          (trim_rooms_vertical rooms_raw primary_raw corr.x ++ [corr], ps.2)

/-- Stable insertion into a list sorted by area descending (Python's `sorted`
is stable; a stable insertion sort produces the same list). -/
def insertAreaDesc (r : Rect) : List Rect → List Rect
  | [] => [r]
  | a :: t => if rectArea a > rectArea r then a :: insertAreaDesc r t else r :: a :: t

def sortAreaDesc : List Rect → List Rect
  | [] => []
  | a :: t => insertAreaDesc a (sortAreaDesc t)

/-- `enumerate`-and-build: room `i` from the `i`-th (rect, kind) pair. -/
def mk_rooms (i : Nat) : List (Rect × String) → List Room
  | [] => []
  | p :: rest => Room.mk i p.1.x p.1.y p.1.w p.1.h p.2 :: mk_rooms (i + 1) rest

/-- The corridor entry of the ordered (rect, kind) list, when a corridor
slot was found. -/
def corrPairs : Option Rect → List (Rect × String)
  | some c => [(c, "corridor")]
  | none => []

/-- The final assembly of `partition_rooms`: primary first, then the
corridor slot if one was found, then the remaining rects sorted by area
descending with kinds drawn from `kinds` (falling back to `"secondary"`
past its end), enumerated into `Room` ids. -/
def assemble_rooms (primary : Rect) (corridorOpt : Option Rect)
    (others_sorted : List Rect) (kinds : List String) : List Room :=
  let ordered : List (Rect × String) :=
    [(primary, "primary")] ++ corrPairs corridorOpt ++
    others_sorted.enum.map
      (fun p => (p.2, if 1 + p.1 < kinds.length then kinds.getD (1 + p.1) "" else "secondary"))
  mk_rooms 0 ordered

/-- `partition_rooms`. -/
def partition_rooms (src : RandomSource σ) (blocks : List Rect) (W H : Int)
    (kinds : List String) (layout : LayoutPlan)
    (fround : Int → Int → Int → Int) (s : σ) : List Room × σ :=
  let n_rooms : Int := kinds.length
  let total_area := blocks.foldl (fun a b => a + b.w * b.h) 0
  let pr := partition_blocks_go src blocks fround n_rooms total_area blocks n_rooms s
  let all_raw := pr.1
  let pidx := primary_idx all_raw blocks
  let step2 : List Rect × Nat × σ :=
    if layout = .corridor then
      let pi := insert_corridor src all_raw W H (all_raw.getD pidx default) pr.2
      (pi.1, primary_idx pi.1 blocks, pi.2)
    else (all_raw, pidx, pr.2)
  let all_raw2 := step2.1
  let pidx2 := step2.2.1
  let cidx : Option Nat :=
    if layout = .corridor then
      ((List.range all_raw2.length).filter
        (fun i => i ≠ pidx2 ∧
          ((all_raw2.getD i default).w = MIN_ROOM ∨ (all_raw2.getD i default).h = MIN_ROOM))).head?
    else none
  let others := ((List.range all_raw2.length).filter
      (fun i => i ≠ pidx2 ∧ cidx ≠ some i)).map (fun i => all_raw2.getD i default)
  (assemble_rooms (all_raw2.getD pidx2 default)
      (cidx.map (fun c => all_raw2.getD c default)) (sortAreaDesc others) kinds,
   step2.2.2)

-- ---------------------------------------------------------------------------
-- Door placement (`_gap_between`, `_find_entrance`, `place_doors`)
-- ---------------------------------------------------------------------------

/-- `_gap_between`: each positional test falls through to the next one when
its overlap is too small, exactly as the chain of `if`s in the source. -/
def gap_between (a b : Room) : Option (Int × Int × String) :=
  if a.x2 + GAP = b.x ∧ min a.y2 b.y2 - max a.y b.y ≥ MIN_ROOM then
    some (a.x2, (max a.y b.y + min a.y2 b.y2) / 2, "east")
  else if b.x2 + GAP = a.x ∧ min a.y2 b.y2 - max a.y b.y ≥ MIN_ROOM then
    some (b.x2, (max a.y b.y + min a.y2 b.y2) / 2, "west")
  else if a.y2 + GAP = b.y ∧ min a.x2 b.x2 - max a.x b.x ≥ MIN_ROOM then
    some ((max a.x b.x + min a.x2 b.x2) / 2, a.y2, "south")
  else if b.y2 + GAP = a.y ∧ min a.x2 b.x2 - max a.x b.x ≥ MIN_ROOM then
    some ((max a.x b.x + min a.x2 b.x2) / 2, b.y2, "north")
  else none

/-- `_side_faces_room` inside `_find_entrance`. -/
def side_faces_room (r other : Room) (side : String) : Bool :=
  if side = "south" then
    decide (other.y = r.y2 + GAP ∧ max r.x other.x < min r.x2 other.x2)
  else if side = "north" then
    decide (other.y2 + GAP = r.y ∧ max r.x other.x < min r.x2 other.x2)
  else if side = "west" then
    decide (other.x2 + GAP = r.x ∧ max r.y other.y < min r.y2 other.y2)
  else if side = "east" then
    decide (other.x = r.x2 + GAP ∧ max r.y other.y < min r.y2 other.y2)
  else false

/-- `gap_is_free_exterior` inside `_find_entrance`. -/
def gap_is_free_exterior (blocks : List Rect) (W H cx cy : Int) : Bool :=
  if 0 ≤ cx ∧ cx < W ∧ 0 ≤ cy ∧ cy < H ∧ cell_in_blocks cx cy blocks then false
  else if cx < -1 ∨ cy < -1 ∨ cx > W ∨ cy > H then false
  else true

/-- Stable insertion into a list sorted ascending by distance from `c`
(models `sorted(range(lo,hi), key=lambda v: abs(v-center))`, stable). -/
def insertByDist (c : Int) (v : Int) : List Int → List Int
  | [] => [v]
  | a :: t => if |v - c| < |a - c| then v :: a :: t else a :: insertByDist c v t

def sorted_by_center (lo hi center : Int) : List Int :=
  (intRange lo hi).foldl (fun acc v => insertByDist center v acc) []

/-- `_find_entrance`. -/
def find_entrance (src : RandomSource σ) (r : Room) (blocks : List Rect) (W H : Int)
    (avoid_room : Option Room) (s : σ) : Option Door × σ :=
  let mid_x := r.x + r.w / 2
  let mid_y := r.y + r.h / 2
  let sides := ["south", "north", "west", "east"]
  let preferred := sides.filter
    (fun sd => match avoid_room with
      | none => true
      | some o => !side_faces_room r o sd)
  let fallb := sides.filter (fun sd => !preferred.contains sd)
  let q1 := pyshuffle src preferred s
  let q2 := pyshuffle src fallb q1.2
  let order := q1.1 ++ q2.1
  let d := order.findSome? (fun side =>
    if side = "south" then
      (sorted_by_center r.x r.x2 mid_x).findSome? (fun x =>
        if gap_is_free_exterior blocks W H x r.y2 then some (Door.mk x r.y2 "south" "normal") else none)
    else if side = "north" then
      (sorted_by_center r.x r.x2 mid_x).findSome? (fun x =>
        if gap_is_free_exterior blocks W H x (r.y - 1) then some (Door.mk x (r.y - 1) "north" "normal") else none)
    else if side = "west" then
      (sorted_by_center r.y r.y2 mid_y).findSome? (fun y =>
        if gap_is_free_exterior blocks W H (r.x - 1) y then some (Door.mk (r.x - 1) y "west" "normal") else none)
    else
      (sorted_by_center r.y r.y2 mid_y).findSome? (fun y =>
        if gap_is_free_exterior blocks W H r.x2 y then some (Door.mk r.x2 y "east" "normal") else none))
  (d, q2.2)

/-- `add_door` inside `place_doors`: returns the new door list and whether the
two rooms are connected (an existing door at the same position counts). -/
def add_door (doors : List Door) (a b : Room) : List Door × Bool :=
  match gap_between a b with
  | none => (doors, false)
  | some g =>
      if doors.any (fun ex => decide (ex.x = g.1 ∧ ex.y = g.2.1)) then (doors, true)
      else (doors ++ [Door.mk g.1 g.2.1 g.2.2 "normal"], true)

/-- Ascending insertion sort (models Python `sorted` on a set of ints). -/
def insertAsc (v : Nat) : List Nat → List Nat
  | [] => [v]
  | a :: t => if v < a then v :: a :: t else a :: insertAsc v t

def sortAsc (l : List Nat) : List Nat := l.foldl (fun acc v => insertAsc v acc) []

/-- Python `set.add` on our duplicate-free list model. -/
def setAdd (l : List Nat) (v : Nat) : List Nat := if v ∈ l then l else v :: l

/-- Inner loop of `_bfs_connect`: try to connect `room` to each accessible
room id in ascending order. -/
def try_connect (rooms : List Room) (room : Room) :
    List Door → List Nat → List Door × Bool
  | doors, [] => (doors, false)
  | doors, aid :: rest =>
      if (add_door doors (rooms.getD aid default) room).2 then
        ((add_door doors (rooms.getD aid default) room).1, true)
      else try_connect rooms room (add_door doors (rooms.getD aid default) room).1 rest

/-- One pass of `_bfs_connect` over `pending`. -/
def bfs_pass (rooms : List Room) :
    List Room → List Nat → List Door → List Nat × List Door × List Room
  | [], acc, doors => (acc, doors, [])
  | room :: rest, acc, doors =>
      let p := try_connect rooms room doors (sortAsc acc)
      let acc1 := if p.2 then setAdd acc room.id else acc
      let q := bfs_pass rooms rest acc1 p.1
      (q.1, q.2.1, (if p.2 then [] else [room]) ++ q.2.2)

/-- `_bfs_connect`: at most `len(pending)+1` passes, stopping early when all
pending rooms are connected. -/
def bfs_connect (rooms : List Room) :
    Nat → List Nat → List Room → List Door → List Nat × List Door × List Room
  | 0, acc, pending, doors => (acc, doors, pending)
  | fuel + 1, acc, pending, doors =>
      let p := bfs_pass rooms pending acc doors
      if p.2.2.isEmpty then (p.1, p.2.1, [])
      else bfs_connect rooms fuel p.1 p.2.2 p.2.1

/-- `place_doors`.  Rooms produced by `partition_rooms` have pairwise
distinct ids, so the source's identity test `r is not primary` coincides
with value inequality, which is how we model it. -/
def place_doors (src : RandomSource σ) (rooms : List Room) (blocks : List Rect)
    (layout : LayoutPlan) (W H : Int) (s : σ) : List Door × σ :=
  let primary := rooms.headD default
  let corridor_room :=
    if layout = .corridor then rooms.find? (fun r => r.kind = "corridor") else none
  let pe := find_entrance src primary blocks W H corridor_room s
  let doors0 : List Door :=
    match pe.1 with
    | some e => [e]
    | none => []
  if layout = .open_plan then
    let pending := (rooms.drop 1).filter (fun r => r.kind ≠ "corridor")
    let q := bfs_connect rooms (pending.length + 1) [primary.id] pending doors0
    (q.2.1, pe.2)
  else
    match rooms.find? (fun r => r.kind = "corridor") with
    | some corridor =>
        let p1 := add_door doors0 primary corridor
        let pending := rooms.filter (fun r => r ≠ primary ∧ r.kind ≠ "corridor")
        let q := bfs_connect rooms (pending.length + 1)
          (setAdd [primary.id] corridor.id) pending p1.1
        (q.2.1, pe.2)
    | none =>
        let pending := rooms.drop 1
        let q := bfs_connect rooms (pending.length + 1) [primary.id] pending doors0
        (q.2.1, pe.2)

-- ---------------------------------------------------------------------------
-- Connectivity validator (`_all_rooms_connected`)
-- ---------------------------------------------------------------------------

/-- Scan `rooms` for the two sides of a door, keeping the last match on each
side (Python overwrites `a_id`/`b_id` while looping). -/
def door_rooms_lr (rooms : List Room) (d : Door) : Option Nat × Option Nat :=
  rooms.foldl
    (fun acc r =>
      if d.direction = "east" ∨ d.direction = "west" then
        if r.x2 = d.x ∧ r.y ≤ d.y ∧ d.y < r.y2 then (some r.id, acc.2)
        else if r.x = d.x + GAP ∧ r.y ≤ d.y ∧ d.y < r.y2 then (acc.1, some r.id)
        else acc
      else
        if r.y2 = d.y ∧ r.x ≤ d.x ∧ d.x < r.x2 then (some r.id, acc.2)
        else if r.y = d.y + GAP ∧ r.x ≤ d.x ∧ d.x < r.x2 then (acc.1, some r.id)
        else acc)
    (none, none)

/-- The adjacency, as a symmetric edge list. -/
def build_edges (rooms : List Room) (interior : List Door) : List (Nat × Nat) :=
  interior.foldl
    (fun es d =>
      match door_rooms_lr rooms d with
      | (some a, some b) => es ++ [(a, b), (b, a)]
      | _ => es)
    []

/-- The BFS of `_all_rooms_connected`.  Python pops from the end of the queue
list; our queue keeps the most recently pushed element at the head.  Each of
the at most `len(rooms)` reachable ids enters the queue once, so
`len(rooms)` iterations always empty the queue and the fuel is never the
reason the loop stops.  Iterating the neighbour set in edge-list order is
immaterial: the final visited set is closure of the start under the edges
either way. -/
def bfs_visited (edges : List (Nat × Nat)) :
    Nat → List Nat → List Nat → List Nat
  | 0, visited, _ => visited
  | _ + 1, visited, [] => visited
  | fuel + 1, visited, cur :: qrest =>
      let nbrs := edges.filterMap (fun p => if p.1 = cur then some p.2 else none)
      let step := nbrs.foldl
        (fun vq nid => if nid ∈ vq.1 then vq else (vq.1 ++ [nid], nid :: vq.2))
        (visited, ([] : List Nat))
      bfs_visited edges fuel step.1 (step.2 ++ qrest)

/-- `_all_rooms_connected`. -/
def all_rooms_connected (rooms : List Room) (doors : List Door) : Bool :=
  if rooms.length ≤ 1 then true
  else
    let interior := doors.drop 1
    let edges := build_edges rooms interior
    let start := (rooms.headD default).id
    let visited := bfs_visited edges rooms.length [start] [start]
    visited.length = rooms.length

-- ---------------------------------------------------------------------------
-- Occupancy grid (`make_grid`, `stamp_rooms`)
-- ---------------------------------------------------------------------------

def make_grid (W H : Int) : List (List CellKind) :=
  List.replicate H.toNat (List.replicate W.toNat CellKind.empty)

def setCell (g : List (List CellKind)) (row col : Nat) : List (List CellKind) :=
  g.set row ((g.getD row []).set col CellKind.floor)

def stamp_room (g : List (List CellKind)) (r : Room) : List (List CellKind) :=
  let H : Int := g.length
  let W : Int := (g.headD []).length
  (intRange r.y r.y2).foldl
    (fun g1 row =>
      (intRange r.x r.x2).foldl
        (fun g2 col =>
          if 0 ≤ row ∧ row < H ∧ 0 ≤ col ∧ col < W then setCell g2 row.toNat col.toNat
          else g2)
        g1)
    g

def stamp_rooms (g : List (List CellKind)) (rooms : List Room) : List (List CellKind) :=
  rooms.foldl stamp_room g

-- ---------------------------------------------------------------------------
-- Orchestrator (`_try_generate`, `generate_building`)
-- ---------------------------------------------------------------------------

def n_blocks_est : FootprintShape → Int
  | .rectangle => 1
  | .l_shape => 2
  | .offset => 2
  | .cross => 3

/-- The pre-clamp canvas width of an attempt (exposed for the theorems about
the canvas cap; `_try_generate` computes `W = min(_MAX_CANVAS_CELLS, this)`). -/
def raw_canvas_w (min_w scaled_w jitter : Int) : Int := max min_w (scaled_w + jitter)

/-- The canvas-size computation of `_try_generate` (two jitter draws,
minima from the room count, clamp to the cap). -/
def attempt_canvas (src : RandomSource σ) (params : BuildingParams) (n_rooms : Int) (s : σ) :
    (Int × Int) × σ :=
  let base := archetype_cfg params.archetype
  let sc := scaled_canvas params.archetype params.size
  let scaled_w := max 8 sc.1
  let scaled_h := max 7 sc.2
  let nbe := n_blocks_est params.footprint
  let rooms_per_block := max 1 ((n_rooms + nbe - 1) / nbe)
  let min_long := min_block_size rooms_per_block + 4
  let min_short := MIN_ROOM + 4
  let mins := if base.1 ≥ base.2 then (min_long, min_short) else (min_short, min_long)
  let pj1 := randint src (-1) 2 s
  let W := min MAX_CANVAS_CELLS (raw_canvas_w mins.1 scaled_w pj1.1)
  let pj2 := randint src (-1) 2 pj1.2
  let H := min MAX_CANVAS_CELLS (raw_canvas_w mins.2 scaled_h pj2.1)
  ((W, H), pj2.2)

/-- The blocks → rooms → doors tail shared verbatim by `_try_generate` and
the fallback branch of `generate_building`. -/
def build_layout (src : RandomSource σ) (fround : Int → Int → Int → Int)
    (params : BuildingParams) (kinds : List String) (W H : Int) (s : σ) :
    (List Room × List Door × List Rect × Int × Int) × σ :=
  let pbl := make_blocks src params.footprint W H s
  let prm := partition_rooms src pbl.1 W H kinds params.layout fround pbl.2
  let pdo := place_doors src prm.1 pbl.1 params.layout W H prm.2
  ((prm.1, pdo.1, pbl.1, W, H), pdo.2)

/-- `_try_generate`. -/
def try_generate (src : RandomSource σ) (fround : Int → Int → Int → Int)
    (params : BuildingParams) (s : σ) :
    Option (List Room × List Door × List Rect × Int × Int) × σ :=
  let pn := randint src (size_rooms params.size).1 (size_rooms params.size).2 s
  let kinds := build_kinds params.archetype pn.1
  let pc := attempt_canvas src params pn.1 pn.2
  let pl := build_layout src fround params kinds pc.1.1 pc.1.2 pc.2
  if all_rooms_connected pl.1.1 pl.1.2.1 then (some pl.1, pl.2)
  else (none, pl.2)

/-- The fallback branch of `generate_building` (all attempts failed):
rebuild from the base seed with an unjittered canvas. -/
def fallback_layout (src : RandomSource σ) (fround : Int → Int → Int → Int)
    (init : Int → σ) (params : BuildingParams) :
    List Room × List Door × List Rect × Int × Int :=
  let s := init params.seed
  let pn := randint src (size_rooms params.size).1 (size_rooms params.size).2 s
  let kinds := build_kinds params.archetype pn.1
  let sc := scaled_canvas params.archetype params.size
  let scaled_w := max 8 sc.1
  let scaled_h := max 7 sc.2
  let W := min MAX_CANVAS_CELLS (max (MIN_ROOM + 4) scaled_w)
  let H := min MAX_CANVAS_CELLS (max (MIN_ROOM + 4) scaled_h)
  (build_layout src fround params kinds W H pn.2).1

/-- Assemble the `BuildingResult` from a layout (the tail of
`generate_building`; rendering and wall extraction are external to the
result and omitted). -/
def finalize (params : BuildingParams)
    (layout : List Room × List Door × List Rect × Int × Int) : BuildingResult :=
  let rooms := layout.1
  let doors := layout.2.1
  let W := layout.2.2.2.1
  let H := layout.2.2.2.2
  let grid := stamp_rooms (make_grid W H) rooms
  BuildingResult.mk grid W H rooms doors params.seed

/-- Attempt `i` of the orchestrator: `_try_generate(params, seed + i)`. -/
def attempt (src : RandomSource σ) (fround : Int → Int → Int → Int)
    (init : Int → σ) (params : BuildingParams) (i : Nat) :
    Option (List Room × List Door × List Rect × Int × Int) :=
  (try_generate src fround params (init (params.seed + (i : Int)))).1

/-- `generate_building`: up to `MAX_ATTEMPTS = 20` attempts with seeds
`seed + attempt`, first validated attempt wins, else the fallback. -/
def generate_building (src : RandomSource σ) (fround : Int → Int → Int → Int)
    (init : Int → σ) (params : BuildingParams) : BuildingResult :=
  match (List.range 20).findSome? (attempt src fround init params) with
  | some layout => finalize params layout
  | none => finalize params (fallback_layout src fround init params)

/-- The `fround` used when running the model at a concrete seed: exact
rational round-half-even of `n_rooms * area / total`.  It is only consulted
for multi-block footprints where the source computes the value in floats;
every concrete run below either has a single block (the value is unused) or
has `remaining` so small that any value of `fround` yields the same room
distribution. -/
def fround_rat (n a t : Int) : Int := if t = 0 then 0 else pyRoundDiv (n * a) t

-- ---------------------------------------------------------------------------
-- Concrete runs at real seeds (CPython Mersenne Twister), used by the
-- counterexamples and witnesses below.
-- ---------------------------------------------------------------------------

def params1 : BuildingParams := BuildingParams.mk .house .rectangle .corridor .small 1
def result1 : BuildingResult := generate_building mt_source fround_rat mt_init params1

def params2 : BuildingParams := BuildingParams.mk .house .rectangle .open_plan .small 1
def result2 : BuildingResult := generate_building mt_source fround_rat mt_init params2

def params3 : BuildingParams := BuildingParams.mk .tavern .rectangle .open_plan .xlarge 19
def result3 : BuildingResult := generate_building mt_source fround_rat mt_init params3

def params4 : BuildingParams := BuildingParams.mk .inn .cross .open_plan .small 8
def result4 : BuildingResult := generate_building mt_source fround_rat mt_init params4

def params5 : BuildingParams := BuildingParams.mk .house .rectangle .corridor .small 0
def result5 : BuildingResult := generate_building mt_source fround_rat mt_init params5

-- ---------------------------------------------------------------------------
-- C3: determinism.  The embedding is a pure function of the parameters and
-- of the seed-indexed random source; the source owns no other state (the
-- Python generator builds a fresh `random.Random(seed)` per attempt), so two
-- field-wise equal parameter records give identical results.
-- ---------------------------------------------------------------------------

/-- C3.  Two calls of `generate_building` on field-by-field equal
`BuildingParams` (same archetype, footprint, layout, size, seed) return
identical room lists, door lists and occupancy grids. -/
theorem c3_determinism {σ : Type} (src : RandomSource σ)
    (fround : Int → Int → Int → Int) (init : Int → σ) (p q : BuildingParams)
    (h1 : p.archetype = q.archetype) (h2 : p.footprint = q.footprint)
    (h3 : p.layout = q.layout) (h4 : p.size = q.size) (h5 : p.seed = q.seed) :
    (generate_building src fround init p).rooms = (generate_building src fround init q).rooms ∧
    (generate_building src fround init p).doors = (generate_building src fround init q).doors ∧
    (generate_building src fround init p).grid = (generate_building src fround init q).grid := by
  have hpq : p = q := by
    cases p; cases q
    simp only at h1 h2 h3 h4 h5
    simp [h1, h2, h3, h4, h5]
  subst hpq
  exact ⟨rfl, rfl, rfl⟩

theorem c3_determinism_witness :
    params1.archetype = params1.archetype ∧
    (generate_building mt_source fround_rat mt_init params1).rooms =
      (generate_building mt_source fround_rat mt_init params1).rooms :=
  ⟨rfl, (c3_determinism mt_source fround_rat mt_init params1 params1 rfl rfl rfl rfl rfl).1⟩

-- ---------------------------------------------------------------------------
-- C8: canvas cap.  The source *clamps* (`W = min(_MAX_CANVAS_CELLS, ...)`)
-- and contains no rejection path: a request whose derived canvas exceeds the
-- 62-cell cap is silently clamped and generation proceeds.
-- ---------------------------------------------------------------------------

theorem attempt_canvas_le {σ : Type} (src : RandomSource σ)
    (params : BuildingParams) (n_rooms : Int) (s : σ) :
    (attempt_canvas src params n_rooms s).1.1 ≤ MAX_CANVAS_CELLS ∧
    (attempt_canvas src params n_rooms s).1.2 ≤ MAX_CANVAS_CELLS := by
  unfold attempt_canvas
  exact ⟨min_le_left _ _, min_le_left _ _⟩

theorem try_generate_canvas_le {σ : Type} (src : RandomSource σ)
    (fround : Int → Int → Int → Int) (params : BuildingParams) (s : σ) :
    ∀ r, (try_generate src fround params s).1 = some r →
      r.2.2.2.1 ≤ MAX_CANVAS_CELLS ∧ r.2.2.2.2 ≤ MAX_CANVAS_CELLS := by
  intro r h
  unfold try_generate at h
  simp only at h
  split at h <;> simp only [Option.some.injEq] at h
  · subst h
    simp only [build_layout]
    exact attempt_canvas_le src params _ _
  · exact absurd h (by simp)

/-- C8 (amended).  The derived canvas is clamped into the 62-cell cap and
used; generation always returns a result whose width and height are at most
62 cells — no caller-visible rejection exists. -/
theorem c8_canvas_clamped_not_rejected {σ : Type} (src : RandomSource σ)
    (fround : Int → Int → Int → Int) (init : Int → σ) (params : BuildingParams) :
    (generate_building src fround init params).width ≤ MAX_CANVAS_CELLS ∧
    (generate_building src fround init params).height ≤ MAX_CANVAS_CELLS := by
  unfold generate_building
  cases hfs : (List.range 20).findSome? (attempt src fround init params) with
  | none =>
      simp only [finalize, fallback_layout, build_layout]
      exact ⟨min_le_left _ _, min_le_left _ _⟩
  | some layout =>
      obtain ⟨i, _, hi⟩ := List.exists_of_findSome?_eq_some hfs
      have := try_generate_canvas_le src fround params (init (params.seed + (i : Int))) layout hi
      simp only [finalize]
      exact this

set_option maxRecDepth 40000

/-- The number of rooms drawn by attempt 0 of `params3` (the first
`randint(10, 15)` of `random.Random(19)`; `_SIZE_ROOMS[XLARGE] = (10, 15)`). -/
def c8_pn : Int × MTState := randint mt_source 10 15 (mt_init 19)

/-- The width jitter draw of that attempt (`rng.randint(-1, 2)`). -/
def c8_pj1 : Int × MTState := randint mt_source (-1) 2 c8_pn.2

/-- C8 counterexample.  For `params3` (tavern, rectangle, xlarge, seed 19),
attempt 0 draws `n_rooms = 15`, so `min_w = _min_block_size(15) + 4 = 63`
(`rooms_per_block = 15` with one block) and the derived canvas width
`max(min_w, scaled_w + jitter)` — `raw_canvas_w` in the model, the exact
expression `_try_generate` clamps — is 63, exceeding the 62-cell cap.  The
claim says such a request is rejected before generation with a validation
error; instead `generate_building` returns a 15-room result of width
exactly 62: the canvas was silently clamped and used for layout. -/
theorem c8_counterexample :
    c8_pn.1 = 15 ∧
    min_block_size (max 1 ((c8_pn.1 + n_blocks_est params3.footprint - 1) /
        n_blocks_est params3.footprint)) + 4 = 63 ∧
    raw_canvas_w 63 (max 8 (scaled_canvas params3.archetype params3.size).1) c8_pj1.1 = 63 ∧
    MAX_CANVAS_CELLS < 63 ∧
    result3.width = MAX_CANVAS_CELLS ∧
    result3.rooms.length = 15 := by
  refine ⟨by decide, by decide, by decide, by decide, by decide, by decide⟩

-- ---------------------------------------------------------------------------
-- C7: the exterior entrance and door types.
-- ---------------------------------------------------------------------------

/-- Any door returned by `_find_entrance` carries the default type
`"normal"` and sits on a cell that is outside every footprint block and at
most one cell beyond the canvas. -/
theorem find_entrance_spec {σ : Type} (src : RandomSource σ) (r : Room)
    (blocks : List Rect) (W H : Int) (avoid : Option Room) (s : σ) :
    ∀ e, (find_entrance src r blocks W H avoid s).1 = some e →
      e.door_type = "normal" ∧ gap_is_free_exterior blocks W H e.x e.y = true := by
  intro e h
  unfold find_entrance at h
  simp only at h
  obtain ⟨side, _, hs⟩ := List.exists_of_findSome?_eq_some h
  split at hs
  · obtain ⟨x, _, hx⟩ := List.exists_of_findSome?_eq_some hs
    split at hx
    · injection hx with hx; subst hx; exact ⟨rfl, by assumption⟩
    · exact absurd hx (by simp)
  · split at hs
    · obtain ⟨x, _, hx⟩ := List.exists_of_findSome?_eq_some hs
      split at hx
      · injection hx with hx; subst hx; exact ⟨rfl, by assumption⟩
      · exact absurd hx (by simp)
    · split at hs
      · obtain ⟨y, _, hy⟩ := List.exists_of_findSome?_eq_some hs
        split at hy
        · injection hy with hy; subst hy; exact ⟨rfl, by assumption⟩
        · exact absurd hy (by simp)
      · obtain ⟨y, _, hy⟩ := List.exists_of_findSome?_eq_some hs
        split at hy
        · injection hy with hy; subst hy; exact ⟨rfl, by assumption⟩
        · exact absurd hy (by simp)

/-- `add_door` only ever appends doors of type `"normal"`. -/
theorem add_door_ext (doors : List Door) (a b : Room) :
    ∃ ext, (add_door doors a b).1 = doors ++ ext ∧ ∀ d ∈ ext, d.door_type = "normal" := by
  unfold add_door
  cases gap_between a b with
  | none => exact ⟨[], by simp⟩
  | some g =>
      simp only
      split
      · exact ⟨[], by simp⟩
      · exact ⟨[Door.mk g.1 g.2.1 g.2.2 "normal"], rfl, by simp⟩

theorem try_connect_ext (rooms : List Room) (room : Room) :
    ∀ acc doors, ∃ ext, (try_connect rooms room doors acc).1 = doors ++ ext ∧
      ∀ d ∈ ext, d.door_type = "normal" := by
  intro acc
  induction acc with
  | nil => intro doors; exact ⟨[], by simp [try_connect]⟩
  | cons aid rest ih =>
      intro doors
      obtain ⟨e1, he1, hn1⟩ := add_door_ext doors (rooms.getD aid default) room
      unfold try_connect
      split
      · next hb => exact ⟨e1, by rw [← he1], hn1⟩
      · next hb =>
          obtain ⟨e2, he2, hn2⟩ := ih (add_door doors (rooms.getD aid default) room).1
          refine ⟨e1 ++ e2, ?_, ?_⟩
          · rw [he2, he1, List.append_assoc]
          · intro d hd
            rcases List.mem_append.mp hd with h | h
            · exact hn1 d h
            · exact hn2 d h

theorem bfs_pass_ext (rooms : List Room) :
    ∀ pending acc doors, ∃ ext, (bfs_pass rooms pending acc doors).2.1 = doors ++ ext ∧
      ∀ d ∈ ext, d.door_type = "normal" := by
  intro pending
  induction pending with
  | nil => intro acc doors; exact ⟨[], by simp [bfs_pass]⟩
  | cons room rest ih =>
      intro acc doors
      obtain ⟨e1, he1, hn1⟩ := try_connect_ext rooms room (sortAsc acc) doors
      unfold bfs_pass
      simp only
      obtain ⟨e2, he2, hn2⟩ := ih
        (if (try_connect rooms room doors (sortAsc acc)).2 then setAdd acc room.id else acc)
        (try_connect rooms room doors (sortAsc acc)).1
      refine ⟨e1 ++ e2, ?_, ?_⟩
      · rw [he2, he1, List.append_assoc]
      · intro d hd
        rcases List.mem_append.mp hd with h | h
        · exact hn1 d h
        · exact hn2 d h

theorem bfs_connect_ext (rooms : List Room) :
    ∀ fuel acc pending doors, ∃ ext,
      (bfs_connect rooms fuel acc pending doors).2.1 = doors ++ ext ∧
      ∀ d ∈ ext, d.door_type = "normal" := by
  intro fuel
  induction fuel with
  | zero => intro acc pending doors; exact ⟨[], by simp [bfs_connect]⟩
  | succ m ih =>
      intro acc pending doors
      obtain ⟨e1, he1, hn1⟩ := bfs_pass_ext rooms pending acc doors
      unfold bfs_connect
      simp only
      split
      · exact ⟨e1, he1, hn1⟩
      · obtain ⟨e2, he2, hn2⟩ := ih (bfs_pass rooms pending acc doors).1
          (bfs_pass rooms pending acc doors).2.2 (bfs_pass rooms pending acc doors).2.1
        refine ⟨e1 ++ e2, ?_, ?_⟩
        · rw [he2, he1, List.append_assoc]
        · intro d hd
          rcases List.mem_append.mp hd with h | h
          · exact hn1 d h
          · exact hn2 d h

/-- C7 (amended).  Every door produced by `place_doors` carries the sole
type value `"normal"` (the `door_type` field is never set to anything else,
so the exterior entrance is *not* marked with a distinct
exterior-entrance type); when the entrance search succeeds, its door is the
first element of the returned list, and it lies on a cell outside every
footprint block, at most one cell beyond the canvas. -/
theorem c7_door_types_and_first_door {σ : Type} (src : RandomSource σ)
    (rooms : List Room) (blocks : List Rect) (layout : LayoutPlan) (W H : Int) (s : σ) :
    (∀ d ∈ (place_doors src rooms blocks layout W H s).1, d.door_type = "normal") ∧
    (∀ e, (find_entrance src (rooms.headD default) blocks W H
        (if layout = LayoutPlan.corridor then rooms.find? (fun r => r.kind = "corridor") else none)
        s).1 = some e →
      (place_doors src rooms blocks layout W H s).1.headD default = e ∧
      e.door_type = "normal" ∧ gap_is_free_exterior blocks W H e.x e.y = true) := by
  have spec := find_entrance_spec src (rooms.headD default) blocks W H
    (if layout = LayoutPlan.corridor then rooms.find? (fun r => r.kind = "corridor") else none) s
  -- characterize the full door list as doors0 ++ extension of normal doors
  have main : ∃ d0 ext, (place_doors src rooms blocks layout W H s).1 = d0 ++ ext ∧
      (∀ d ∈ ext, d.door_type = "normal") ∧
      d0 = (match (find_entrance src (rooms.headD default) blocks W H
        (if layout = LayoutPlan.corridor then rooms.find? (fun r => r.kind = "corridor") else none)
        s).1 with
        | some e => [e]
        | none => []) := by
    unfold place_doors
    simp only
    split
    · obtain ⟨ext, he, hn⟩ := bfs_connect_ext rooms _ _ _ _
      exact ⟨_, ext, he, hn, rfl⟩
    · split
      · next corridor hc =>
          obtain ⟨e1, he1, hn1⟩ := add_door_ext
            (match (find_entrance src (rooms.headD default) blocks W H
              (if layout = LayoutPlan.corridor then rooms.find? (fun r => r.kind = "corridor") else none)
              s).1 with
              | some e => [e]
              | none => []) (rooms.headD default) corridor
          obtain ⟨e2, he2, hn2⟩ := bfs_connect_ext rooms _ _ _ _
          refine ⟨_, e1 ++ e2, ?_, ?_, rfl⟩
          · rw [he2, he1, List.append_assoc]
          · intro d hd
            rcases List.mem_append.mp hd with h | h
            · exact hn1 d h
            · exact hn2 d h
      · obtain ⟨ext, he, hn⟩ := bfs_connect_ext rooms _ _ _ _
        exact ⟨_, ext, he, hn, rfl⟩
  obtain ⟨d0, ext, hsplit, hnext, hd0⟩ := main
  constructor
  · intro d hd
    rw [hsplit] at hd
    rcases List.mem_append.mp hd with h | h
    · subst hd0
      cases hfe : (find_entrance src (rooms.headD default) blocks W H
        (if layout = LayoutPlan.corridor then rooms.find? (fun r => r.kind = "corridor") else none)
        s).1 with
      | none => rw [hfe] at h; cases h
      | some e =>
          rw [hfe] at h
          have hde : d = e := by simpa using h
          rw [hde]
          exact (spec e hfe).1
    · exact hnext d h
  · intro e hfe
    subst hd0
    rw [hsplit, hfe]
    refine ⟨rfl, (spec e hfe).1, (spec e hfe).2⟩

-- ---------------------------------------------------------------------------
-- The canvas bounds and the shape of every `generate_building` result
-- (both the validated-attempt path and the fallback path run
-- `build_layout` on a canvas with 8 ≤ W ≤ 62 and 7 ≤ H ≤ 62).
-- ---------------------------------------------------------------------------

theorem min_block_size_ge_of_pos (n : Int) (h : 1 ≤ n) : 3 ≤ min_block_size n := by
  unfold min_block_size MIN_ROOM GAP
  omega

theorem randint_bounds {σ : Type} (src : RandomSource σ) (lo hi : Int) (s : σ)
    (h : lo ≤ hi) : lo ≤ (randint src lo hi s).1 ∧ (randint src lo hi s).1 ≤ hi := by
  unfold randint
  simp only
  have hpos : 0 < (hi - lo + 1).toNat := by omega
  have hlt := src.randbelow_lt (hi - lo + 1).toNat s hpos
  omega

theorem scaled_canvas_ge : ∀ (a : BuildingArchetype) (sz : BuildingSize),
    10 ≤ (scaled_canvas a sz).1 ∧ 8 ≤ (scaled_canvas a sz).2 := by
  intro a sz
  cases a <;> cases sz <;> exact ⟨by decide, by decide⟩

theorem archetype_cfg_wide : ∀ a : BuildingArchetype,
    (archetype_cfg a).2 ≤ (archetype_cfg a).1 := by
  intro a
  cases a <;> decide

theorem attempt_canvas_bounds {σ : Type} (src : RandomSource σ)
    (params : BuildingParams) (n_rooms : Int) (s : σ) :
    8 ≤ (attempt_canvas src params n_rooms s).1.1 ∧
    7 ≤ (attempt_canvas src params n_rooms s).1.2 := by
  unfold attempt_canvas
  simp only
  have hj1 := randint_bounds src (-1) 2 s (by decide)
  have hsc := scaled_canvas_ge params.archetype params.size
  constructor
  · refine le_min (by decide) ?_
    unfold raw_canvas_w
    have : 9 ≤ max 8 (scaled_canvas params.archetype params.size).1 +
        (randint src (-1) 2 s).1 := by omega
    omega
  · refine le_min (by decide) ?_
    unfold raw_canvas_w
    have hmins : 7 ≤ (if (archetype_cfg params.archetype).1 ≥ (archetype_cfg params.archetype).2
        then (min_block_size (max 1 ((n_rooms + n_blocks_est params.footprint - 1) /
            n_blocks_est params.footprint)) + 4, MIN_ROOM + 4)
        else (MIN_ROOM + 4, min_block_size (max 1 ((n_rooms + n_blocks_est params.footprint - 1) /
            n_blocks_est params.footprint)) + 4)).2 := by
      have hmb := min_block_size_ge_of_pos
        (max 1 ((n_rooms + n_blocks_est params.footprint - 1) / n_blocks_est params.footprint))
        (le_max_left 1 _)
      split
      · simp only [MIN_ROOM]
        omega
      · simp only
        omega
    omega

/-- Every `generate_building` result is `finalize` of a `build_layout` run
on kinds drawn by `build_kinds` and a canvas within the stated bounds. -/
theorem generate_building_shape {σ : Type} (src : RandomSource σ)
    (fround : Int → Int → Int → Int) (init : Int → σ) (params : BuildingParams) :
    ∃ (n_rooms W H : Int) (s : σ),
      generate_building src fround init params =
        finalize params
          (build_layout src fround params (build_kinds params.archetype n_rooms) W H s).1 ∧
      8 ≤ W ∧ W ≤ MAX_CANVAS_CELLS ∧ 7 ≤ H ∧ H ≤ MAX_CANVAS_CELLS := by
  unfold generate_building
  cases hfs : (List.range 20).findSome? (attempt src fround init params) with
  | some layout =>
      obtain ⟨i, _, hi⟩ := List.exists_of_findSome?_eq_some hfs
      unfold attempt try_generate at hi
      simp only at hi
      split at hi <;> simp only [Option.some.injEq] at hi
      · subst hi
        refine ⟨_, _, _, _, rfl, ?_, ?_, ?_, ?_⟩
        · exact (attempt_canvas_bounds src params _ _).1
        · exact (attempt_canvas_le src params _ _).1
        · exact (attempt_canvas_bounds src params _ _).2
        · exact (attempt_canvas_le src params _ _).2
      · exact absurd hi (by simp)
  | none =>
      unfold fallback_layout
      simp only
      refine ⟨_, _, _, _, rfl, ?_, min_le_left _ _, ?_, min_le_left _ _⟩
      · refine le_min (by decide) ?_
        have := (scaled_canvas_ge params.archetype params.size).1
        omega
      · refine le_min (by decide) ?_
        have := (scaled_canvas_ge params.archetype params.size).2
        simp only [MIN_ROOM]
        omega

-- ---------------------------------------------------------------------------
-- C6: the corridor room.
-- ---------------------------------------------------------------------------

theorem getD_default_or_mem {α : Type} (l : List α) (i : Nat) (d : α) :
    l.getD i d = d ∨ l.getD i d ∈ l := by
  induction l generalizing i with
  | nil => left; rfl
  | cons a t ih =>
      cases i with
      | zero => right; exact List.mem_cons_self _ _
      | succ j =>
          rcases ih j with h | h
          · left; exact h
          · right; exact List.mem_cons_of_mem a h

theorem archetype_kinds_no_corridor : ∀ (a : BuildingArchetype) (k : String),
    k ∈ archetype_kinds a → k ≠ "corridor" := by
  intro a k hk
  cases a <;> (simp only [archetype_kinds] at hk; fin_cases hk <;> decide)

theorem build_kinds_no_corridor (a : BuildingArchetype) (n : Int) :
    ∀ k ∈ build_kinds a n, k ≠ "corridor" := by
  intro k hk
  unfold build_kinds at hk
  obtain ⟨i, _, rfl⟩ := List.mem_map.mp hk
  rcases getD_default_or_mem (archetype_kinds a) (min i ((archetype_kinds a).length - 1)) ""
    with h | h
  · rw [h]; decide
  · exact archetype_kinds_no_corridor a _ h

theorem mem_mk_rooms {l : List (Rect × String)} {r : Room} :
    ∀ {i : Nat}, r ∈ mk_rooms i l →
      ∃ p ∈ l, r.x = p.1.x ∧ r.y = p.1.y ∧ r.w = p.1.w ∧ r.h = p.1.h ∧ r.kind = p.2 := by
  induction l with
  | nil => intro i h; cases h
  | cons p rest ih =>
      intro i h
      rcases List.mem_cons.mp h with h | h
      · subst h
        exact ⟨p, List.mem_cons_self _ _, rfl, rfl, rfl, rfl, rfl⟩
      · obtain ⟨q, hq, hh⟩ := ih h
        exact ⟨q, List.mem_cons_of_mem _ hq, hh⟩

theorem filter_corridor_mk_rooms :
    ∀ (l : List (Rect × String)) (i : Nat),
      ((mk_rooms i l).filter (fun r => r.kind = "corridor")).length =
        (l.filter (fun p => p.2 = "corridor")).length := by
  intro l
  induction l with
  | nil => intro i; rfl
  | cons p rest ih =>
      intro i
      simp only [mk_rooms, List.filter]
      cases hq : decide (p.2 = "corridor") <;> simp [hq, ih]

theorem mem_of_head?_eq_some {α : Type} {l : List α} {a : α} (h : l.head? = some a) :
    a ∈ l := by
  cases l with
  | nil => cases h
  | cons x t =>
      injection h with h
      subst h
      exact List.mem_cons_self _ _

/-- Kind bookkeeping for `assemble_rooms`: at most one room is labelled
`"corridor"`, and any such room carries the rect of the corridor slot. -/
theorem assemble_rooms_corridor (p : Rect) (cO : Option Rect) (os : List Rect)
    (kinds : List String) (hk : ∀ k ∈ kinds, k ≠ "corridor") :
    (((assemble_rooms p cO os kinds).filter (fun r => r.kind = "corridor")).length ≤ 1) ∧
    (∀ r ∈ assemble_rooms p cO os kinds, r.kind = "corridor" →
      ∃ c, cO = some c ∧ r.w = c.w ∧ r.h = c.h) := by
  have hos : ∀ q ∈ os.enum.map
      (fun p => ((p.2 : Rect),
        if 1 + p.1 < kinds.length then kinds.getD (1 + p.1) "" else "secondary")),
      q.2 ≠ "corridor" := by
    intro q hq
    obtain ⟨e, _, rfl⟩ := List.mem_map.mp hq
    simp only
    split
    · rcases getD_default_or_mem kinds (1 + e.1) "" with h | h
      · rw [h]; decide
      · exact hk _ h
    · decide
  constructor
  · unfold assemble_rooms
    simp only
    rw [filter_corridor_mk_rooms]
    simp only [List.filter_append, List.length_append]
    have h3 : ((os.enum.map (fun p => ((p.2 : Rect),
        if 1 + p.1 < kinds.length then kinds.getD (1 + p.1) "" else "secondary"))).filter
          (fun q => q.2 = "corridor")).length = 0 := by
      rw [List.length_eq_zero, List.filter_eq_nil]
      intro q hq
      simpa using hos q hq
    have h2 : (List.filter (fun q => decide (q.2 = "corridor")) (corrPairs cO)).length ≤ 1 := by
      cases cO with
      | none => simp [corrPairs]
      | some c => simp [corrPairs]
    have h1 : (([((p : Rect), "primary")]).filter (fun q => q.2 = "corridor")).length = 0 := by
      simp
    omega
  · intro r hr hcorr
    unfold assemble_rooms at hr
    obtain ⟨q, hq, hx, hy, hw, hh, hkind⟩ := mem_mk_rooms hr
    rcases List.mem_append.mp hq with hq1 | hq2
    · rcases List.mem_append.mp hq1 with hp | hc
      · simp only [List.mem_singleton] at hp
        subst hp
        rw [hkind] at hcorr
        simp at hcorr
      · cases cO with
        | none => cases hc
        | some c =>
            simp only [corrPairs, List.mem_singleton] at hc
            subst hc
            exact ⟨c, rfl, hw, hh⟩
    · exact absurd hcorr (by rw [hkind]; exact hos q hq2)

/-- The corridor slot `partition_rooms` picks (the first rect, other than
the primary, of thickness `MIN_ROOM` on some axis) indeed has that
thickness. -/
theorem corridor_pick_spec (all_raw2 : List Rect) (pidx2 : Nat) (layout : LayoutPlan) :
    ∀ c, ((if layout = LayoutPlan.corridor then
        ((List.range all_raw2.length).filter
          (fun i => i ≠ pidx2 ∧
            ((all_raw2.getD i default).w = MIN_ROOM ∨
             (all_raw2.getD i default).h = MIN_ROOM))).head?
      else none).map (fun c => all_raw2.getD c default)) = some c →
      c.w = MIN_ROOM ∨ c.h = MIN_ROOM := by
  intro c hc
  rcases Option.map_eq_some'.mp hc with ⟨i, hi, rfl⟩
  split at hi
  · have hm := List.mem_filter.mp (mem_of_head?_eq_some hi)
    have := hm.2
    simp only [decide_eq_true_eq] at this
    exact this.2
  · cases hi

theorem partition_rooms_corridor {σ : Type} (src : RandomSource σ) (blocks : List Rect)
    (W H : Int) (kinds : List String) (layout : LayoutPlan)
    (fround : Int → Int → Int → Int) (s : σ) (hk : ∀ k ∈ kinds, k ≠ "corridor") :
    (((partition_rooms src blocks W H kinds layout fround s).1.filter
        (fun r => r.kind = "corridor")).length ≤ 1) ∧
    (∀ r ∈ (partition_rooms src blocks W H kinds layout fround s).1,
      r.kind = "corridor" → r.w = MIN_ROOM ∨ r.h = MIN_ROOM) := by
  unfold partition_rooms
  simp only
  obtain ⟨h1, h2⟩ := assemble_rooms_corridor _ _ _ _ hk
  refine ⟨h1, ?_⟩
  intro r hr hc
  obtain ⟨c, hcO, hw, hh⟩ := h2 r hr hc
  have := corridor_pick_spec _ _ layout c hcO
  rcases this with h | h
  · left; rw [hw]; exact h
  · right; rw [hh]; exact h

/-- C6 (amended).  For every generation, the returned room list contains at
most one room with kind `"corridor"`, and any such room has thickness
exactly `MIN_ROOM = 3` on one axis.  (The original claim's "exactly one,
spanning the full canvas" fails: when no side of the primary room fits a
corridor strip, none is inserted and no room is labelled corridor — see the
counterexample — and the label goes to the *first* thickness-3 rect, which
need not be the inserted full-span strip.) -/
theorem c6_corridor_rooms {σ : Type} (src : RandomSource σ)
    (fround : Int → Int → Int → Int) (init : Int → σ) (params : BuildingParams) :
    (((generate_building src fround init params).rooms.filter
        (fun r => r.kind = "corridor")).length ≤ 1) ∧
    (∀ r ∈ (generate_building src fround init params).rooms,
      r.kind = "corridor" → r.w = MIN_ROOM ∨ r.h = MIN_ROOM) := by
  obtain ⟨n, W, H, s, heq, _⟩ := generate_building_shape src fround init params
  rw [heq]
  have hfin : (finalize params
      (build_layout src fround params (build_kinds params.archetype n) W H s).1).rooms
      = (partition_rooms src (make_blocks src params.footprint W H s).1 W H
          (build_kinds params.archetype n) params.layout fround
          (make_blocks src params.footprint W H s).2).1 := rfl
  rw [hfin]
  exact partition_rooms_corridor src _ W H _ params.layout fround _
    (build_kinds_no_corridor params.archetype n)

/-- C6 counterexample.  `params1` requests `layout = corridor`, yet the
returned room list of the seed-1 run contains *no* room of kind corridor
(the single drawn room fills the whole canvas, so no corridor strip fits on
any side and `_insert_corridor` returns the layout unchanged), refuting
"exactly one room with kind corridor spanning the full canvas". -/
theorem c6_counterexample :
    params1.layout = LayoutPlan.corridor ∧
    (result1.rooms.filter (fun r => r.kind = "corridor")).length = 0 ∧
    ¬ ((result1.rooms.filter (fun r => r.kind = "corridor")).length = 1 ∧
       ∀ r ∈ result1.rooms, r.kind = "corridor" →
         ((r.w = MIN_ROOM ∧ r.h = result1.height) ∨
          (r.h = MIN_ROOM ∧ r.w = result1.width))) := by
  refine ⟨by decide, by decide, ?_⟩
  intro h
  have h0 : (result1.rooms.filter (fun r => r.kind = "corridor")).length = 0 := by decide
  exact absurd (h0.symm.trans h.1) (by decide)

theorem c6_witness :
    ((result5.rooms.filter (fun r => r.kind = "corridor")).length ≤ 1) ∧
    (Room.mk 1 7 0 3 7 "corridor") ∈ result5.rooms ∧
    ((Room.mk 1 7 0 3 7 "corridor").w = MIN_ROOM ∨
     (Room.mk 1 7 0 3 7 "corridor").h = MIN_ROOM) :=
  ⟨(c6_corridor_rooms mt_source fround_rat mt_init params5).1, by decide,
   (c6_corridor_rooms mt_source fround_rat mt_init params5).2 _ (by decide) (by decide)⟩

-- ---------------------------------------------------------------------------
-- C10: the occupancy grid is exactly the union of the room rectangles.
-- ---------------------------------------------------------------------------

/-- Grid cell access: `grid[y][x]`, `EMPTY` out of bounds. -/
def gridCell (g : List (List CellKind)) (x y : Int) : CellKind :=
  (g.getD y.toNat []).getD x.toNat CellKind.empty

/-- All rows have width `Wn`. -/
def regular (g : List (List CellKind)) (Wn : Nat) : Prop := ∀ row ∈ g, row.length = Wn

theorem set_oob {α : Type} (l : List α) (a : α) : ∀ i, l.length ≤ i → l.set i a = l := by
  induction l with
  | nil => intro i _; rfl
  | cons b t ih =>
      intro i hi
      cases i with
      | zero => simp at hi
      | succ j => simp only [List.set, List.length_cons] at hi ⊢; rw [ih j (by omega)]

theorem getD_set_self {α : Type} (l : List α) (a d : α) :
    ∀ i, i < l.length → (l.set i a).getD i d = a := by
  induction l with
  | nil => intro i hi; simp at hi
  | cons b t ih =>
      intro i hi
      cases i with
      | zero => rfl
      | succ j => exact ih j (by simpa using hi)

theorem getD_set_ne {α : Type} (l : List α) (a d : α) :
    ∀ i j, i ≠ j → (l.set i a).getD j d = l.getD j d := by
  induction l with
  | nil => intro i j _; cases i <;> rfl
  | cons b t ih =>
      intro i j hne
      cases i with
      | zero =>
          cases j with
          | zero => exact absurd rfl hne
          | succ k => rfl
      | succ i2 =>
          cases j with
          | zero => rfl
          | succ k => exact ih i2 k (by omega)

theorem setCell_length (g : List (List CellKind)) (r c : Nat) :
    (setCell g r c).length = g.length := by
  unfold setCell
  exact List.length_set g r _

theorem getD_mem_of_lt {α : Type} (l : List α) (d : α) :
    ∀ i, i < l.length → l.getD i d ∈ l := by
  induction l with
  | nil => intro i hi; simp at hi
  | cons b t ih =>
      intro i hi
      cases i with
      | zero => exact List.mem_cons_self _ _
      | succ j => exact List.mem_cons_of_mem _ (ih j (by simpa using hi))

theorem setCell_regular {g : List (List CellKind)} {Wn : Nat} (hreg : regular g Wn)
    (r c : Nat) : regular (setCell g r c) Wn := by
  intro row hrow
  unfold setCell at hrow
  by_cases hr : r < g.length
  · rcases List.mem_or_eq_of_mem_set hrow with h | h
    · exact hreg row h
    · subst h
      rw [List.length_set]
      exact hreg _ (getD_mem_of_lt g [] r hr)
  · rw [set_oob g _ r (by omega)] at hrow
    exact hreg row hrow

theorem setCell_get_same (g : List (List CellKind)) (r c : Nat)
    (hr : r < g.length) (hc : c < (g.getD r []).length) :
    ((setCell g r c).getD r []).getD c CellKind.empty = CellKind.floor := by
  unfold setCell
  rw [getD_set_self g _ [] r hr, getD_set_self _ _ _ c hc]

theorem setCell_get_other (g : List (List CellKind)) (r c r2 c2 : Nat)
    (hne : r ≠ r2 ∨ c ≠ c2) :
    ((setCell g r c).getD r2 []).getD c2 CellKind.empty =
      (g.getD r2 []).getD c2 CellKind.empty := by
  unfold setCell
  rcases hne with hne | hne
  · rw [getD_set_ne g _ [] r r2 hne]
  · by_cases hrr : r = r2
    · subst hrr
      by_cases hlen : r < g.length
      · rw [getD_set_self g _ [] r hlen, getD_set_ne _ _ _ c c2 hne]
      · rw [set_oob g _ r (by omega)]
    · rw [getD_set_ne g _ [] r r2 hrr]

theorem foldl_preserve {α β : Type} (P : β → Prop) (f : β → α → β)
    (hf : ∀ b a, P b → P (f b a)) : ∀ (l : List α) (b : β), P b → P (l.foldl f b) := by
  intro l
  induction l with
  | nil => intro b hb; exact hb
  | cons a t ih => intro b hb; exact ih _ (hf b a hb)

theorem mem_intRange {lo hi a : Int} : a ∈ intRange lo hi ↔ lo ≤ a ∧ a < hi := by
  unfold intRange
  simp only [List.mem_map, List.mem_range]
  constructor
  · rintro ⟨k, hk, rfl⟩
    omega
  · intro h
    exact ⟨(a - lo).toNat, by omega, by omega⟩

/-- The inner (column) fold of `stamp_room` on one row value. -/
theorem stamp_cols_get (H0 W0 rowI : Int) (Wn Hn : Nat) :
    ∀ (cols : List Int) (g : List (List CellKind)) (x y : Int),
      regular g Wn → g.length = Hn → H0 = (Hn : Int) → W0 = (Wn : Int) →
      0 ≤ x → x.toNat < Wn → 0 ≤ y → y.toNat < Hn →
      (gridCell (cols.foldl (fun g2 col =>
          if 0 ≤ rowI ∧ rowI < H0 ∧ 0 ≤ col ∧ col < W0 then
            setCell g2 rowI.toNat col.toNat else g2) g) x y = CellKind.floor ↔
        ((y = rowI ∧ x ∈ cols) ∨ gridCell g x y = CellKind.floor)) := by
  intro cols
  induction cols with
  | nil =>
      intro g x y _ _ _ _ _ _ _ _
      simp [List.foldl]
  | cons c cs ih =>
      intro g x y hreg hlen hH hW hx hxW hy hyH
      simp only [List.foldl]
      by_cases hguard : 0 ≤ rowI ∧ rowI < H0 ∧ 0 ≤ c ∧ c < W0
      · rw [if_pos hguard]
        have hreg2 := setCell_regular hreg rowI.toNat c.toNat
        have hlen2 : (setCell g rowI.toNat c.toNat).length = Hn := by
          rw [setCell_length]; exact hlen
        rw [ih _ x y hreg2 hlen2 hH hW hx hxW hy hyH]
        by_cases hhit : y = rowI ∧ x = c
        · obtain ⟨hy2, hx2⟩ := hhit
          subst hy2; subst hx2
          have hcell : gridCell (setCell g y.toNat x.toNat) x y = CellKind.floor := by
            unfold gridCell
            apply setCell_get_same
            · omega
            · rw [hreg _ (getD_mem_of_lt g [] _ (by omega))]; exact hxW
          constructor
          · intro _; exact Or.inl ⟨rfl, List.mem_cons_self _ _⟩
          · intro _; exact Or.inr hcell
        · have hother : gridCell (setCell g rowI.toNat c.toNat) x y = gridCell g x y := by
            unfold gridCell
            apply setCell_get_other
            by_cases hyr : y = rowI
            · right
              intro hcc
              exact hhit ⟨hyr, by omega⟩
            · left
              omega
          rw [hother]
          constructor
          · rintro (⟨h1, h2⟩ | h)
            · exact Or.inl ⟨h1, List.mem_cons_of_mem _ h2⟩
            · exact Or.inr h
          · rintro (⟨h1, h2⟩ | h)
            · rcases List.mem_cons.mp h2 with rfl | h3
              · exact absurd ⟨h1, rfl⟩ hhit
              · exact Or.inl ⟨h1, h3⟩
            · exact Or.inr h
      · rw [if_neg hguard]
        rw [ih _ x y hreg hlen hH hW hx hxW hy hyH]
        constructor
        · rintro (⟨h1, h2⟩ | h)
          · exact Or.inl ⟨h1, List.mem_cons_of_mem _ h2⟩
          · exact Or.inr h
        · rintro (⟨h1, h2⟩ | h)
          · rcases List.mem_cons.mp h2 with rfl | h3
            · exfalso
              apply hguard
              subst h1
              refine ⟨by omega, by omega, hx, by omega⟩
            · exact Or.inl ⟨h1, h3⟩
          · exact Or.inr h

/-- The outer (row) fold of `stamp_room`. -/
theorem stamp_rows_get (H0 W0 : Int) (Wn Hn : Nat) (cols : List Int) :
    ∀ (rows : List Int) (g : List (List CellKind)) (x y : Int),
      regular g Wn → g.length = Hn → H0 = (Hn : Int) → W0 = (Wn : Int) →
      0 ≤ x → x.toNat < Wn → 0 ≤ y → y.toNat < Hn →
      (gridCell (rows.foldl (fun g1 row =>
          cols.foldl (fun g2 col =>
            if 0 ≤ row ∧ row < H0 ∧ 0 ≤ col ∧ col < W0 then
              setCell g2 row.toNat col.toNat else g2) g1) g) x y = CellKind.floor ↔
        ((y ∈ rows ∧ x ∈ cols) ∨ gridCell g x y = CellKind.floor)) := by
  intro rows
  induction rows with
  | nil =>
      intro g x y _ _ _ _ _ _ _ _
      simp [List.foldl]
  | cons rw0 rs ih =>
      intro g x y hreg hlen hH hW hx hxW hy hyH
      simp only [List.foldl]
      have hreg2 : regular (cols.foldl (fun g2 col =>
          if 0 ≤ rw0 ∧ rw0 < H0 ∧ 0 ≤ col ∧ col < W0 then
            setCell g2 rw0.toNat col.toNat else g2) g) Wn := by
        apply foldl_preserve (fun g2 => regular g2 Wn)
        · intro b a hb
          split
          · exact setCell_regular hb _ _
          · exact hb
        · exact hreg
      have hlen2 : (cols.foldl (fun g2 col =>
          if 0 ≤ rw0 ∧ rw0 < H0 ∧ 0 ≤ col ∧ col < W0 then
            setCell g2 rw0.toNat col.toNat else g2) g).length = Hn := by
        apply foldl_preserve (fun g2 : List (List CellKind) => g2.length = Hn)
        · intro b a hb
          split
          · rw [setCell_length]; exact hb
          · exact hb
        · exact hlen
      rw [ih _ x y hreg2 hlen2 hH hW hx hxW hy hyH]
      rw [stamp_cols_get H0 W0 rw0 Wn Hn cols g x y hreg hlen hH hW hx hxW hy hyH]
      constructor
      · rintro (⟨h1, h2⟩ | ⟨h1, h2⟩ | h)
        · exact Or.inl ⟨List.mem_cons_of_mem _ h1, h2⟩
        · exact Or.inl ⟨by rw [h1]; exact List.mem_cons_self _ _, h2⟩
        · exact Or.inr h
      · rintro (⟨h1, h2⟩ | h)
        · rcases List.mem_cons.mp h1 with rfl | h3
          · exact Or.inr (Or.inl ⟨rfl, h2⟩)
          · exact Or.inl ⟨h3, h2⟩
        · exact Or.inr (Or.inr h)

theorem stamp_room_get (r : Room) (g : List (List CellKind)) (Wn Hn : Nat) (x y : Int)
    (hreg : regular g Wn) (hlen : g.length = Hn) (hne : g ≠ [])
    (hx : 0 ≤ x) (hxW : x.toNat < Wn) (hy : 0 ≤ y) (hyH : y.toNat < Hn) :
    gridCell (stamp_room g r) x y = CellKind.floor ↔
      ((r.x ≤ x ∧ x < r.x + r.w ∧ r.y ≤ y ∧ y < r.y + r.h) ∨
        gridCell g x y = CellKind.floor) := by
  have hhead : ((g.headD []).length : Int) = (Wn : Int) := by
    cases g with
    | nil => exact absurd rfl hne
    | cons row t =>
        simp only [List.headD]
        rw [hreg row (List.mem_cons_self _ _)]
  unfold stamp_room
  simp only [Room.x2, Room.y2]
  rw [stamp_rows_get (g.length : Int) ((g.headD []).length : Int) Wn Hn
    (intRange r.x (r.x + r.w)) (intRange r.y (r.y + r.h)) g x y hreg hlen
    (by rw [hlen]) hhead hx hxW hy hyH]
  constructor
  · rintro (⟨h1, h2⟩ | h)
    · rw [mem_intRange] at h1 h2
      exact Or.inl ⟨h2.1, h2.2, h1.1, h1.2⟩
    · exact Or.inr h
  · rintro (⟨h1, h2, h3, h4⟩ | h)
    · exact Or.inl ⟨mem_intRange.mpr ⟨h3, h4⟩, mem_intRange.mpr ⟨h1, h2⟩⟩
    · exact Or.inr h

theorem stamp_rooms_get (rooms : List Room) (Wn Hn : Nat) :
    ∀ (g : List (List CellKind)) (x y : Int),
      regular g Wn → g.length = Hn → g ≠ [] →
      0 ≤ x → x.toNat < Wn → 0 ≤ y → y.toNat < Hn →
      (gridCell (stamp_rooms g rooms) x y = CellKind.floor ↔
        ((∃ r ∈ rooms, r.x ≤ x ∧ x < r.x + r.w ∧ r.y ≤ y ∧ y < r.y + r.h) ∨
          gridCell g x y = CellKind.floor)) := by
  induction rooms with
  | nil =>
      intro g x y _ _ _ _ _ _ _
      simp [stamp_rooms]
  | cons r rs ih =>
      intro g x y hreg hlen hne hx hxW hy hyH
      have hreg2 : regular (stamp_room g r) Wn := by
        unfold stamp_room
        simp only
        apply foldl_preserve (fun g2 => regular g2 Wn)
        · intro b a hb
          apply foldl_preserve (fun g2 => regular g2 Wn)
          · intro b2 a2 hb2
            split
            · exact setCell_regular hb2 _ _
            · exact hb2
          · exact hb
        · exact hreg
      have hlen2 : (stamp_room g r).length = Hn := by
        unfold stamp_room
        simp only
        apply foldl_preserve (fun g2 : List (List CellKind) => g2.length = Hn)
        · intro b a hb
          apply foldl_preserve (fun g2 : List (List CellKind) => g2.length = Hn)
          · intro b2 a2 hb2
            split
            · rw [setCell_length]; exact hb2
            · exact hb2
          · exact hb
        · exact hlen
      have hne2 : stamp_room g r ≠ [] := by
        intro hnil
        have h0 := congrArg List.length hnil
        rw [hlen2] at h0
        simp at h0
        omega
      unfold stamp_rooms
      simp only [List.foldl]
      have := ih (stamp_room g r) x y hreg2 hlen2 hne2 hx hxW hy hyH
      unfold stamp_rooms at this
      rw [this, stamp_room_get r g Wn Hn x y hreg hlen hne hx hxW hy hyH]
      constructor
      · rintro (⟨r2, hr2, hcell⟩ | hin | h)
        · exact Or.inl ⟨r2, List.mem_cons_of_mem _ hr2, hcell⟩
        · exact Or.inl ⟨r, List.mem_cons_self _ _, hin⟩
        · exact Or.inr h
      · rintro (⟨r2, hr2, hcell⟩ | h)
        · rcases List.mem_cons.mp hr2 with rfl | h3
          · exact Or.inr (Or.inl hcell)
          · exact Or.inl ⟨r2, h3, hcell⟩
        · exact Or.inr (Or.inr h)

theorem make_grid_regular (W H : Int) : regular (make_grid W H) W.toNat := by
  intro row hrow
  unfold make_grid at hrow
  rw [List.eq_of_mem_replicate hrow]
  exact List.length_replicate _ _

theorem make_grid_empty_cell (W H : Int) (x y : Int) :
    gridCell (make_grid W H) x y = CellKind.empty := by
  unfold gridCell make_grid
  rcases getD_default_or_mem (List.replicate H.toNat (List.replicate W.toNat CellKind.empty))
      y.toNat [] with h | h
  · rw [h]; rfl
  · rw [List.eq_of_mem_replicate h]
    rcases getD_default_or_mem (List.replicate W.toNat CellKind.empty) x.toNat
        CellKind.empty with h2 | h2
    · rw [h2]
    · rw [List.eq_of_mem_replicate h2]

/-- C10.  In every result, an in-bounds grid cell `(x, y)` holds `FLOOR` iff
it lies inside some returned room's rectangle, and `EMPTY` otherwise. -/
theorem c10_grid_is_room_union {σ : Type} (src : RandomSource σ)
    (fround : Int → Int → Int → Int) (init : Int → σ) (params : BuildingParams)
    (x y : Int) (hx0 : 0 ≤ x) (hxW : x < (generate_building src fround init params).width)
    (hy0 : 0 ≤ y) (hyH : y < (generate_building src fround init params).height) :
    gridCell (generate_building src fround init params).grid x y = CellKind.floor ↔
      ∃ r ∈ (generate_building src fround init params).rooms,
        r.x ≤ x ∧ x < r.x + r.w ∧ r.y ≤ y ∧ y < r.y + r.h := by
  obtain ⟨n, W, H, s, heq, hW8, hW62, hH7, hH62⟩ :=
    generate_building_shape src fround init params
  rw [heq] at hxW hyH ⊢
  have hWval : (finalize params
      (build_layout src fround params (build_kinds params.archetype n) W H s).1).width = W := rfl
  have hHval : (finalize params
      (build_layout src fround params (build_kinds params.archetype n) W H s).1).height = H := rfl
  rw [hWval] at hxW
  rw [hHval] at hyH
  have hgrid : (finalize params
      (build_layout src fround params (build_kinds params.archetype n) W H s).1).grid =
      stamp_rooms (make_grid W H)
        (build_layout src fround params (build_kinds params.archetype n) W H s).1.1 := rfl
  have hrooms : (finalize params
      (build_layout src fround params (build_kinds params.archetype n) W H s).1).rooms =
      (build_layout src fround params (build_kinds params.archetype n) W H s).1.1 := rfl
  rw [hgrid, hrooms]
  have hne : make_grid W H ≠ [] := by
    unfold make_grid
    intro hnil
    have := congrArg List.length hnil
    rw [List.length_replicate] at this
    simp at this
    omega
  rw [stamp_rooms_get _ W.toNat H.toNat (make_grid W H) x y (make_grid_regular W H)
    (by unfold make_grid; exact List.length_replicate _ _) hne hx0 (by omega) hy0 (by omega)]
  rw [make_grid_empty_cell]
  simp

theorem c10_witness :
    (0 ≤ (3 : Int)) ∧
    gridCell result1.grid 3 3 = CellKind.floor ∧
    (gridCell result1.grid 3 3 = CellKind.floor ↔
      ∃ r ∈ result1.rooms, r.x ≤ 3 ∧ (3 : Int) < r.x + r.w ∧ r.y ≤ 3 ∧ (3 : Int) < r.y + r.h) :=
  ⟨by decide, by decide,
   c10_grid_is_room_union mt_source fround_rat mt_init params1 3 3
     (by decide) (by decide) (by decide) (by decide)⟩

-- ---------------------------------------------------------------------------
-- C5: minimum room size.
-- ---------------------------------------------------------------------------

theorem Rect_mk_x (a b c d : Int) : (Rect.mk a b c d).x = a := rfl

theorem Rect_mk_y (a b c d : Int) : (Rect.mk a b c d).y = b := rfl

theorem Rect_mk_w (a b c d : Int) : (Rect.mk a b c d).w = c := rfl

theorem Rect_mk_h (a b c d : Int) : (Rect.mk a b c d).h = d := rfl

/-- The randomised guillotine cut, drawn between two values clamped into
`[min_c, max_c]`, stays inside `[min_c, max_c]`. -/
theorem guillotine_cut_bounds {σ : Type} (src : RandomSource σ) (s : σ)
    (a d min_c max_c : Int) (hmm : min_c ≤ max_c) (hd : 0 ≤ d) :
    min_c ≤ (randint src (pyclamp (a - d) min_c max_c) (pyclamp (a + d) min_c max_c) s).1 ∧
    (randint src (pyclamp (a - d) min_c max_c) (pyclamp (a + d) min_c max_c) s).1 ≤ max_c := by
  have h1 : pyclamp (a - d) min_c max_c ≤ pyclamp (a + d) min_c max_c := by
    unfold pyclamp; omega
  have h2 := randint_bounds src _ _ s h1
  unfold pyclamp at h2 ⊢
  omega

/-- Every rect a guillotine run returns keeps both dimensions at least
`MIN_ROOM` when the input block does: a cut piece gets height `cut` with
`min_c ≤ cut` and leaves `bh - cut - GAP ≥ min_block_size n2`. -/
theorem guillotineF_minsize {σ : Type} (src : RandomSource σ) :
    ∀ (fuel : Nat) (x0 y0 bw bh n : Int) (s : σ),
      3 ≤ bw → 3 ≤ bh →
      ∀ r ∈ (guillotineF src fuel x0 y0 bw bh n s).1, 3 ≤ r.w ∧ 3 ≤ r.h := by
  intro fuel
  induction fuel with
  | zero =>
      intro x0 y0 bw bh n s hw hh r hr
      simp only [guillotineF, List.mem_singleton] at hr
      subst hr
      exact ⟨hw, hh⟩
  | succ f ih =>
      intro x0 y0 bw bh n s hw hh r hr
      simp only [guillotineF] at hr
      by_cases h1 : n ≤ 1
      · rw [if_pos h1] at hr
        simp only [List.mem_singleton] at hr
        subst hr
        exact ⟨hw, hh⟩
      · rw [if_neg h1] at hr
        by_cases h2 : ¬bh ≥ min_block_size 2 ∧ ¬bw ≥ min_block_size 2
        · rw [if_pos h2] at hr
          simp only [List.mem_singleton] at hr
          subst hr
          exact ⟨hw, hh⟩
        · rw [if_neg h2] at hr
          have hm1 : (3 : Int) ≤ min_block_size (max 1 (n / 2)) :=
            min_block_size_ge_of_pos _ (by omega)
          have hm2 : (3 : Int) ≤ min_block_size (n - max 1 (n / 2)) :=
            min_block_size_ge_of_pos _ (by omega)
          by_cases huse : if bh ≥ min_block_size 2 ∧ bw ≥ min_block_size 2
              then bh ≥ bw else bh ≥ min_block_size 2
          · rw [if_pos huse] at hr
            by_cases h3 : min_block_size (max 1 (n / 2)) >
                bh - GAP - min_block_size (n - max 1 (n / 2))
            · rw [if_pos h3] at hr
              simp only [List.mem_singleton] at hr
              subst hr
              exact ⟨hw, hh⟩
            · rw [if_neg h3] at hr
              have hcb := guillotine_cut_bounds src s
                (pyclamp (pyRoundDiv (bh * max 1 (n / 2)) n) (min_block_size (max 1 (n / 2)))
                  (bh - GAP - min_block_size (n - max 1 (n / 2))))
                (max 1 (bh / 6)) (min_block_size (max 1 (n / 2)))
                (bh - GAP - min_block_size (n - max 1 (n / 2))) (by omega) (by omega)
              simp only [List.mem_append] at hr
              rcases hr with hr | hr
              · exact ih _ _ _ _ _ _ hw (by omega) r hr
              · exact ih _ _ _ _ _ _ hw (by omega) r hr
          · rw [if_neg huse] at hr
            by_cases h3 : min_block_size (max 1 (n / 2)) >
                bw - GAP - min_block_size (n - max 1 (n / 2))
            · rw [if_pos h3] at hr
              simp only [List.mem_singleton] at hr
              subst hr
              exact ⟨hw, hh⟩
            · rw [if_neg h3] at hr
              have hcb := guillotine_cut_bounds src s
                (pyclamp (pyRoundDiv (bw * max 1 (n / 2)) n) (min_block_size (max 1 (n / 2)))
                  (bw - GAP - min_block_size (n - max 1 (n / 2))))
                (max 1 (bw / 6)) (min_block_size (max 1 (n / 2)))
                (bw - GAP - min_block_size (n - max 1 (n / 2))) (by omega) (by omega)
              simp only [List.mem_append] at hr
              rcases hr with hr | hr
              · exact ih _ _ _ _ _ _ (by omega) hh r hr
              · exact ih _ _ _ _ _ _ (by omega) hh r hr

theorem guillotineF_ne_nil {σ : Type} (src : RandomSource σ) :
    ∀ (fuel : Nat) (x0 y0 bw bh n : Int) (s : σ),
      (guillotineF src fuel x0 y0 bw bh n s).1 ≠ [] := by
  intro fuel
  induction fuel with
  | zero => intro x0 y0 bw bh n s; simp [guillotineF]
  | succ f ih =>
      intro x0 y0 bw bh n s
      simp only [guillotineF]
      split_ifs <;>
        first
          | (intro hnil
             exact ih _ _ _ _ _ _ (List.append_eq_nil.mp (by simpa using hnil)).1)
          | simp

theorem partition_blocks_go_minsize {σ : Type} (src : RandomSource σ) (blocks : List Rect)
    (fround : Int → Int → Int → Int) (n_rooms total_area : Int) :
    ∀ (bs : List Rect) (remaining : Int) (s : σ),
      (∀ b ∈ bs, 3 ≤ (shrink_block b blocks).w ∧ 3 ≤ (shrink_block b blocks).h) →
      ∀ r ∈ (partition_blocks_go src blocks fround n_rooms total_area bs remaining s).1,
        3 ≤ r.w ∧ 3 ≤ r.h := by
  intro bs
  induction bs with
  | nil =>
      intro remaining s _ r hr
      simp [partition_blocks_go] at hr
  | cons b rest ih =>
      intro remaining s hok r hr
      simp only [partition_blocks_go, guillotine, List.mem_append] at hr
      rcases hr with hr | hr
      · have hb := hok b (List.mem_cons_self _ _)
        exact guillotineF_minsize src _ _ _ _ _ _ _ hb.1 hb.2 r hr
      · exact ih _ _ (fun b2 h2 => hok b2 (List.mem_cons_of_mem _ h2)) r hr

theorem partition_blocks_go_ne_nil {σ : Type} (src : RandomSource σ) (blocks : List Rect)
    (fround : Int → Int → Int → Int) (n_rooms total_area : Int) (bs : List Rect)
    (remaining : Int) (s : σ) (hbs : bs ≠ []) :
    (partition_blocks_go src blocks fround n_rooms total_area bs remaining s).1 ≠ [] := by
  cases bs with
  | nil => exact absurd rfl hbs
  | cons b rest =>
      simp only [partition_blocks_go, guillotine]
      intro hnil
      rcases List.append_eq_nil.mp hnil with ⟨h1, _⟩
      exact guillotineF_ne_nil src _ _ _ _ _ _ _ h1

/-- Does `ob` shave the west edge of `b` in `_shrink_block`? -/
def shaveX (b ob : Rect) : Bool :=
  decide (¬ob = b ∧ ob.x + ob.w = b.x ∧ max b.y ob.y < min (b.y + b.h) (ob.y + ob.h))

/-- Does `ob` shave the north edge of `b` in `_shrink_block`? -/
def shaveY (b ob : Rect) : Bool :=
  decide (¬ob = b ∧ ob.y + ob.h = b.y ∧ max b.x ob.x < min (b.x + b.w) (ob.x + ob.w))

/-- Closed form of the `_shrink_block` fold: every neighbour that shares the
west (resp. north) edge shaves one gap cell off the width (resp. height). -/
theorem shrink_fold_spec (b : Rect) : ∀ (blocks : List Rect) (acc : Rect),
    blocks.foldl
      (fun acc ob =>
        if ob = b then acc
        else
          let acc1 :=
            if ob.x + ob.w = b.x ∧ max b.y ob.y < min (b.y + b.h) (ob.y + ob.h) then
              Rect.mk (acc.x + GAP) acc.y (acc.w - GAP) acc.h
            else acc
          if ob.y + ob.h = b.y ∧ max b.x ob.x < min (b.x + b.w) (ob.x + ob.w) then
            Rect.mk acc1.x (acc1.y + GAP) acc1.w (acc1.h - GAP)
          else acc1) acc =
    Rect.mk (acc.x + GAP * (blocks.countP (shaveX b) : Int))
            (acc.y + GAP * (blocks.countP (shaveY b) : Int))
            (acc.w - GAP * (blocks.countP (shaveX b) : Int))
            (acc.h - GAP * (blocks.countP (shaveY b) : Int)) := by
  intro blocks
  induction blocks with
  | nil =>
      intro acc
      simp only [List.foldl, List.countP_nil]
      cases acc
      simp only [Rect.mk.injEq, GAP, and_true, true_and]
      all_goals omega
  | cons ob rest ih =>
      intro acc
      simp only [List.foldl]
      rw [ih]
      by_cases hob : ob = b
      · rw [if_pos hob]
        rw [List.countP_cons_of_neg _ _ (by
          simp only [shaveX, decide_eq_true_eq, not_and]
          intro h1; exact absurd hob h1)]
        rw [List.countP_cons_of_neg _ _ (by
          simp only [shaveY, decide_eq_true_eq, not_and]
          intro h1; exact absurd hob h1)]
      · rw [if_neg hob]
        by_cases hX : ob.x + ob.w = b.x ∧ max b.y ob.y < min (b.y + b.h) (ob.y + ob.h)
        · rw [if_pos hX]
          rw [List.countP_cons_of_pos _ _ (by
            simp only [shaveX, decide_eq_true_eq]; exact ⟨hob, hX⟩)]
          by_cases hY : ob.y + ob.h = b.y ∧ max b.x ob.x < min (b.x + b.w) (ob.x + ob.w)
          · rw [if_pos hY]
            rw [List.countP_cons_of_pos _ _ (by
              simp only [shaveY, decide_eq_true_eq]; exact ⟨hob, hY⟩)]
            all_goals simp only [Rect.mk.injEq, GAP, and_true, true_and]
            all_goals omega
          · rw [if_neg hY]
            rw [List.countP_cons_of_neg _ _ (by
              simp only [shaveY, decide_eq_true_eq, not_and]
              intro _ h2 h3; exact hY ⟨h2, h3⟩)]
            all_goals simp only [Rect.mk.injEq, GAP, and_true, true_and]
            all_goals omega
        · rw [if_neg hX]
          rw [List.countP_cons_of_neg _ _ (by
            simp only [shaveX, decide_eq_true_eq, not_and]
            intro _ h2 h3; exact hX ⟨h2, h3⟩)]
          by_cases hY : ob.y + ob.h = b.y ∧ max b.x ob.x < min (b.x + b.w) (ob.x + ob.w)
          · rw [if_pos hY]
            rw [List.countP_cons_of_pos _ _ (by
              simp only [shaveY, decide_eq_true_eq]; exact ⟨hob, hY⟩)]
            all_goals simp only [Rect.mk.injEq, GAP, and_true, true_and]
            all_goals omega
          · rw [if_neg hY]
            rw [List.countP_cons_of_neg _ _ (by
              simp only [shaveY, decide_eq_true_eq, not_and]
              intro _ h2 h3; exact hY ⟨h2, h3⟩)]
            all_goals simp only [Rect.mk.injEq, GAP, and_true, true_and]
            all_goals omega

theorem shrink_block_spec (b : Rect) (blocks : List Rect) :
    shrink_block b blocks =
      Rect.mk (b.x + GAP * (blocks.countP (shaveX b) : Int))
              (b.y + GAP * (blocks.countP (shaveY b) : Int))
              (b.w - GAP * (blocks.countP (shaveX b) : Int))
              (b.h - GAP * (blocks.countP (shaveY b) : Int)) :=
  shrink_fold_spec b blocks b

theorem shaveX_false_self (b : Rect) : shaveX b b = false := by
  simp only [shaveX, decide_eq_false_iff_not]
  rintro ⟨h1, -⟩
  exact h1 trivial

theorem shaveY_false_self (b : Rect) : shaveY b b = false := by
  simp only [shaveY, decide_eq_false_iff_not]
  rintro ⟨h1, -⟩
  exact h1 trivial

theorem shaveX_false_of (b ob : Rect)
    (h : ¬(ob.x + ob.w = b.x ∧ max b.y ob.y < min (b.y + b.h) (ob.y + ob.h))) :
    shaveX b ob = false := by
  simp only [shaveX, decide_eq_false_iff_not]
  rintro ⟨-, h2⟩
  exact h h2

theorem shaveY_false_of (b ob : Rect)
    (h : ¬(ob.y + ob.h = b.y ∧ max b.x ob.x < min (b.x + b.w) (ob.x + ob.w))) :
    shaveY b ob = false := by
  simp only [shaveY, decide_eq_false_iff_not]
  rintro ⟨-, h2⟩
  exact h h2

theorem countP_single_zero {α : Type} (p : α → Bool) (a : α) (h1 : p a = false) :
    List.countP p [a] = 0 := by
  rw [List.countP_cons_of_neg _ _ (by simp [h1]), List.countP_nil]

theorem countP_pair_zero {α : Type} (p : α → Bool) (a b2 : α)
    (h1 : p a = false) (h2 : p b2 = false) : List.countP p [a, b2] = 0 := by
  rw [List.countP_cons_of_neg _ _ (by simp [h1]), countP_single_zero p b2 h2]

theorem countP_triple_zero {α : Type} (p : α → Bool) (a b2 c : α)
    (h1 : p a = false) (h2 : p b2 = false) (h3 : p c = false) :
    List.countP p [a, b2, c] = 0 := by
  rw [List.countP_cons_of_neg _ _ (by simp [h1]), countP_pair_zero p b2 c h2 h3]

theorem countP_pair_le_one_1 {α : Type} (p : α → Bool) (a b2 : α) (h1 : p a = false) :
    List.countP p [a, b2] ≤ 1 := by
  rw [List.countP_cons_of_neg _ _ (by simp [h1])]
  by_cases hpb : p b2 = true
  · rw [List.countP_cons_of_pos _ _ hpb, List.countP_nil]
  · rw [List.countP_cons_of_neg _ _ hpb, List.countP_nil]
    omega

theorem countP_pair_le_one_2 {α : Type} (p : α → Bool) (a b2 : α) (h2 : p b2 = false) :
    List.countP p [a, b2] ≤ 1 := by
  by_cases hpa : p a = true
  · rw [List.countP_cons_of_pos _ _ hpa, countP_single_zero p b2 h2]
  · rw [List.countP_cons_of_neg _ _ hpa, countP_single_zero p b2 h2]
    omega

theorem countP_triple_le_one_13 {α : Type} (p : α → Bool) (a b2 c : α)
    (h1 : p a = false) (h3 : p c = false) : List.countP p [a, b2, c] ≤ 1 := by
  rw [List.countP_cons_of_neg _ _ (by simp [h1])]
  exact countP_pair_le_one_2 p b2 c h3

theorem countP_triple_le_one_23 {α : Type} (p : α → Bool) (a b2 c : α)
    (h2 : p b2 = false) (h3 : p c = false) : List.countP p [a, b2, c] ≤ 1 := by
  by_cases hpa : p a = true
  · rw [List.countP_cons_of_pos _ _ hpa, countP_pair_zero p b2 c h2 h3]
  · rw [List.countP_cons_of_neg _ _ hpa, countP_pair_zero p b2 c h2 h3]
    omega

/-- Each footprint block, after the gap shave against its neighbours, still
measures at least `MIN_ROOM` on both axes (for any canvas with `W ≥ 8`,
`H ≥ 7`). -/
theorem make_blocks_shrink_ok {σ : Type} (src : RandomSource σ) (shape : FootprintShape)
    (W H : Int) (s : σ) (hW : 8 ≤ W) (hH : 7 ≤ H) :
    ∀ b ∈ (make_blocks src shape W H s).1,
      3 ≤ (shrink_block b (make_blocks src shape W H s).1).w ∧
      3 ≤ (shrink_block b (make_blocks src shape W H s).1).h := by
  have hg : GAP = 1 := rfl
  have hm : MIN_ROOM = 3 := rfl
  cases shape with
  | rectangle =>
      intro b hb
      simp only [make_blocks, List.mem_singleton] at hb ⊢
      subst hb
      rw [shrink_block_spec]
      simp only [Rect_mk_x, Rect_mk_y, Rect_mk_w, Rect_mk_h, GAP]
      have hx0 := countP_single_zero (shaveX (Rect.mk 0 0 W H)) (Rect.mk 0 0 W H)
        (shaveX_false_self _)
      have hy0 := countP_single_zero (shaveY (Rect.mk 0 0 W H)) (Rect.mk 0 0 W H)
        (shaveY_false_self _)
      omega
  | l_shape =>
      intro b hb
      simp only [make_blocks] at hb ⊢
      generalize hSH : pyclamp (randint src (H * 55 / 100) (H * 70 / 100) s).1
        (min_block_size 1) (H - (MIN_ROOM + GAP)) = SH at hb ⊢
      generalize hSW : pyclamp
        (randint src (W * 40 / 100) (W * 60 / 100)
          (randint src (H * 55 / 100) (H * 70 / 100) s).2).1
        (min_block_size 1) (W - min_block_size 1) = SW at hb ⊢
      have hSHb : 3 ≤ SH ∧ SH ≤ H - 4 := by
        rw [← hSH]; unfold pyclamp min_block_size MIN_ROOM GAP; omega
      have hSWb : 3 ≤ SW ∧ SW ≤ W - 3 := by
        rw [← hSW]; unfold pyclamp min_block_size MIN_ROOM GAP; omega
      rcases List.mem_cons.mp hb with rfl | hb2
      · rw [shrink_block_spec]
        simp only [Rect_mk_x, Rect_mk_y, Rect_mk_w, Rect_mk_h, GAP]
        have hx0 := countP_pair_zero (shaveX (Rect.mk 0 0 W SH))
          (Rect.mk 0 0 W SH) (Rect.mk 0 SH SW (H - SH))
          (shaveX_false_self _)
          (shaveX_false_of _ _ (by
            simp only [Rect_mk_x, Rect_mk_y, Rect_mk_w, Rect_mk_h]
            rintro ⟨e1, e2⟩; omega))
        have hy0 := countP_pair_zero (shaveY (Rect.mk 0 0 W SH))
          (Rect.mk 0 0 W SH) (Rect.mk 0 SH SW (H - SH))
          (shaveY_false_self _)
          (shaveY_false_of _ _ (by
            simp only [Rect_mk_x, Rect_mk_y, Rect_mk_w, Rect_mk_h]
            rintro ⟨e1, e2⟩; omega))
        omega
      · rcases List.mem_cons.mp hb2 with rfl | hb3
        · rw [shrink_block_spec]
          simp only [Rect_mk_x, Rect_mk_y, Rect_mk_w, Rect_mk_h, GAP]
          have hx0 := countP_pair_zero (shaveX (Rect.mk 0 SH SW (H - SH)))
            (Rect.mk 0 0 W SH) (Rect.mk 0 SH SW (H - SH))
            (shaveX_false_of _ _ (by
              simp only [Rect_mk_x, Rect_mk_y, Rect_mk_w, Rect_mk_h]
              rintro ⟨e1, e2⟩; omega))
            (shaveX_false_self _)
          have hy1 := countP_pair_le_one_2 (shaveY (Rect.mk 0 SH SW (H - SH)))
            (Rect.mk 0 0 W SH) (Rect.mk 0 SH SW (H - SH))
            (shaveY_false_self _)
          omega
        · cases hb3
  | cross =>
      intro b hb
      simp only [make_blocks] at hb ⊢
      generalize hBH : pyclamp (randint src (H * 30 / 100) (H * 45 / 100) s).1
        (MIN_ROOM + GAP) (H - 2 * (MIN_ROOM + GAP)) = BH at hb ⊢
      generalize hCY : pyclamp ((H - BH) / 2) (MIN_ROOM + GAP)
        (H - BH - (MIN_ROOM + GAP)) = CY at hb ⊢
      generalize hBW : pyclamp
        (randint src (W * 30 / 100) (W * 50 / 100)
          (randint src (H * 30 / 100) (H * 45 / 100) s).2).1
        (min_block_size 1) (W - 2 * min_block_size 1) = BW at hb ⊢
      generalize hCX : pyclamp ((W - BW) / 2) 0 (W - BW) = CX at hb ⊢
      have hBHb : 4 ≤ BH ∧ BH ≤ max 4 (H - 8) := by
        rw [← hBH]; unfold pyclamp MIN_ROOM GAP; omega
      have hCYb : 4 ≤ CY ∧ CY ≤ max 4 (H - BH - 4) := by
        rw [← hCY]; unfold pyclamp MIN_ROOM GAP; omega
      have hBWb : 3 ≤ BW ∧ BW ≤ max 3 (W - 6) := by
        rw [← hBW]; unfold pyclamp min_block_size MIN_ROOM GAP; omega
      have hCXb : 0 ≤ CX ∧ CX ≤ max 0 (W - BW) := by
        rw [← hCX]; unfold pyclamp; omega
      by_cases hg1 : CY ≥ MIN_ROOM + GAP
      · by_cases hg2 : H - CY - BH ≥ MIN_ROOM + GAP
        · rw [if_pos hg1, if_pos hg2] at hb ⊢
          simp only [List.cons_append, List.nil_append] at hb ⊢
          rcases List.mem_cons.mp hb with rfl | hb2
          · rw [shrink_block_spec]
            simp only [Rect_mk_x, Rect_mk_y, Rect_mk_w, Rect_mk_h, GAP]
            have hx0 := countP_triple_zero (shaveX (Rect.mk 0 CY W BH))
              (Rect.mk 0 CY W BH) (Rect.mk CX 0 BW CY)
              (Rect.mk CX (CY + BH) BW (H - CY - BH))
              (shaveX_false_self _)
              (shaveX_false_of _ _ (by
                simp only [Rect_mk_x, Rect_mk_y, Rect_mk_w, Rect_mk_h]
                rintro ⟨e1, e2⟩; omega))
              (shaveX_false_of _ _ (by
                simp only [Rect_mk_x, Rect_mk_y, Rect_mk_w, Rect_mk_h]
                rintro ⟨e1, e2⟩; omega))
            have hy1 := countP_triple_le_one_13 (shaveY (Rect.mk 0 CY W BH))
              (Rect.mk 0 CY W BH) (Rect.mk CX 0 BW CY)
              (Rect.mk CX (CY + BH) BW (H - CY - BH))
              (shaveY_false_self _)
              (shaveY_false_of _ _ (by
                simp only [Rect_mk_x, Rect_mk_y, Rect_mk_w, Rect_mk_h]
                rintro ⟨e1, e2⟩; omega))
            omega
          · rcases List.mem_cons.mp hb2 with rfl | hb3
            · rw [shrink_block_spec]
              simp only [Rect_mk_x, Rect_mk_y, Rect_mk_w, Rect_mk_h, GAP]
              have hx0 := countP_triple_zero (shaveX (Rect.mk CX 0 BW CY))
                (Rect.mk 0 CY W BH) (Rect.mk CX 0 BW CY)
                (Rect.mk CX (CY + BH) BW (H - CY - BH))
                (shaveX_false_of _ _ (by
                  simp only [Rect_mk_x, Rect_mk_y, Rect_mk_w, Rect_mk_h]
                  rintro ⟨e1, e2⟩; omega))
                (shaveX_false_self _)
                (shaveX_false_of _ _ (by
                  simp only [Rect_mk_x, Rect_mk_y, Rect_mk_w, Rect_mk_h]
                  rintro ⟨e1, e2⟩; omega))
              have hy0 := countP_triple_zero (shaveY (Rect.mk CX 0 BW CY))
                (Rect.mk 0 CY W BH) (Rect.mk CX 0 BW CY)
                (Rect.mk CX (CY + BH) BW (H - CY - BH))
                (shaveY_false_of _ _ (by
                  simp only [Rect_mk_x, Rect_mk_y, Rect_mk_w, Rect_mk_h]
                  rintro ⟨e1, e2⟩; omega))
                (shaveY_false_self _)
                (shaveY_false_of _ _ (by
                  simp only [Rect_mk_x, Rect_mk_y, Rect_mk_w, Rect_mk_h]
                  rintro ⟨e1, e2⟩; omega))
              omega
            · rcases List.mem_cons.mp hb3 with rfl | hb4
              · rw [shrink_block_spec]
                simp only [Rect_mk_x, Rect_mk_y, Rect_mk_w, Rect_mk_h, GAP]
                have hx0 := countP_triple_zero
                  (shaveX (Rect.mk CX (CY + BH) BW (H - CY - BH)))
                  (Rect.mk 0 CY W BH) (Rect.mk CX 0 BW CY)
                  (Rect.mk CX (CY + BH) BW (H - CY - BH))
                  (shaveX_false_of _ _ (by
                    simp only [Rect_mk_x, Rect_mk_y, Rect_mk_w, Rect_mk_h]
                    rintro ⟨e1, e2⟩; omega))
                  (shaveX_false_of _ _ (by
                    simp only [Rect_mk_x, Rect_mk_y, Rect_mk_w, Rect_mk_h]
                    rintro ⟨e1, e2⟩; omega))
                  (shaveX_false_self _)
                have hy1 := countP_triple_le_one_23
                  (shaveY (Rect.mk CX (CY + BH) BW (H - CY - BH)))
                  (Rect.mk 0 CY W BH) (Rect.mk CX 0 BW CY)
                  (Rect.mk CX (CY + BH) BW (H - CY - BH))
                  (shaveY_false_of _ _ (by
                    simp only [Rect_mk_x, Rect_mk_y, Rect_mk_w, Rect_mk_h]
                    rintro ⟨e1, e2⟩; omega))
                  (shaveY_false_self _)
                omega
              · cases hb4
        · rw [if_pos hg1, if_neg hg2] at hb ⊢
          simp only [List.cons_append, List.nil_append, List.append_nil] at hb ⊢
          rcases List.mem_cons.mp hb with rfl | hb2
          · rw [shrink_block_spec]
            simp only [Rect_mk_x, Rect_mk_y, Rect_mk_w, Rect_mk_h, GAP]
            have hx0 := countP_pair_zero (shaveX (Rect.mk 0 CY W BH))
              (Rect.mk 0 CY W BH) (Rect.mk CX 0 BW CY)
              (shaveX_false_self _)
              (shaveX_false_of _ _ (by
                simp only [Rect_mk_x, Rect_mk_y, Rect_mk_w, Rect_mk_h]
                rintro ⟨e1, e2⟩; omega))
            have hy1 := countP_pair_le_one_1 (shaveY (Rect.mk 0 CY W BH))
              (Rect.mk 0 CY W BH) (Rect.mk CX 0 BW CY)
              (shaveY_false_self _)
            omega
          · rcases List.mem_cons.mp hb2 with rfl | hb3
            · rw [shrink_block_spec]
              simp only [Rect_mk_x, Rect_mk_y, Rect_mk_w, Rect_mk_h, GAP]
              have hx0 := countP_pair_zero (shaveX (Rect.mk CX 0 BW CY))
                (Rect.mk 0 CY W BH) (Rect.mk CX 0 BW CY)
                (shaveX_false_of _ _ (by
                  simp only [Rect_mk_x, Rect_mk_y, Rect_mk_w, Rect_mk_h]
                  rintro ⟨e1, e2⟩; omega))
                (shaveX_false_self _)
              have hy0 := countP_pair_zero (shaveY (Rect.mk CX 0 BW CY))
                (Rect.mk 0 CY W BH) (Rect.mk CX 0 BW CY)
                (shaveY_false_of _ _ (by
                  simp only [Rect_mk_x, Rect_mk_y, Rect_mk_w, Rect_mk_h]
                  rintro ⟨e1, e2⟩; omega))
                (shaveY_false_self _)
              omega
            · cases hb3
      · by_cases hg2 : H - CY - BH ≥ MIN_ROOM + GAP
        · rw [if_neg hg1, if_pos hg2] at hb ⊢
          simp only [List.cons_append, List.nil_append] at hb ⊢
          rcases List.mem_cons.mp hb with rfl | hb2
          · rw [shrink_block_spec]
            simp only [Rect_mk_x, Rect_mk_y, Rect_mk_w, Rect_mk_h, GAP]
            have hx0 := countP_pair_zero (shaveX (Rect.mk 0 CY W BH))
              (Rect.mk 0 CY W BH) (Rect.mk CX (CY + BH) BW (H - CY - BH))
              (shaveX_false_self _)
              (shaveX_false_of _ _ (by
                simp only [Rect_mk_x, Rect_mk_y, Rect_mk_w, Rect_mk_h]
                rintro ⟨e1, e2⟩; omega))
            have hy0 := countP_pair_zero (shaveY (Rect.mk 0 CY W BH))
              (Rect.mk 0 CY W BH) (Rect.mk CX (CY + BH) BW (H - CY - BH))
              (shaveY_false_self _)
              (shaveY_false_of _ _ (by
                simp only [Rect_mk_x, Rect_mk_y, Rect_mk_w, Rect_mk_h]
                rintro ⟨e1, e2⟩; omega))
            omega
          · rcases List.mem_cons.mp hb2 with rfl | hb3
            · rw [shrink_block_spec]
              simp only [Rect_mk_x, Rect_mk_y, Rect_mk_w, Rect_mk_h, GAP]
              have hx0 := countP_pair_zero
                (shaveX (Rect.mk CX (CY + BH) BW (H - CY - BH)))
                (Rect.mk 0 CY W BH) (Rect.mk CX (CY + BH) BW (H - CY - BH))
                (shaveX_false_of _ _ (by
                  simp only [Rect_mk_x, Rect_mk_y, Rect_mk_w, Rect_mk_h]
                  rintro ⟨e1, e2⟩; omega))
                (shaveX_false_self _)
              have hy1 := countP_pair_le_one_2
                (shaveY (Rect.mk CX (CY + BH) BW (H - CY - BH)))
                (Rect.mk 0 CY W BH) (Rect.mk CX (CY + BH) BW (H - CY - BH))
                (shaveY_false_self _)
              omega
            · cases hb3
        · rw [if_neg hg1, if_neg hg2] at hb ⊢
          simp only [List.cons_append, List.nil_append, List.append_nil] at hb ⊢
          rcases List.mem_cons.mp hb with rfl | hb2
          · rw [shrink_block_spec]
            simp only [Rect_mk_x, Rect_mk_y, Rect_mk_w, Rect_mk_h, GAP]
            have hx0 := countP_single_zero (shaveX (Rect.mk 0 CY W BH))
              (Rect.mk 0 CY W BH) (shaveX_false_self _)
            have hy0 := countP_single_zero (shaveY (Rect.mk 0 CY W BH))
              (Rect.mk 0 CY W BH) (shaveY_false_self _)
            omega
          · cases hb2
  | offset =>
      intro b hb
      simp only [make_blocks] at hb ⊢
      generalize hHW : pyclamp (W / 2) (MIN_ROOM + GAP) (W - (MIN_ROOM + GAP)) = HW at hb ⊢
      generalize hST : pyclamp (randint src (H / 6) (H / 3) s).1 1
        (H - min_block_size 1 * 2) = ST at hb ⊢
      generalize hLH : max (H - ST) (min_block_size 1) = LH at hb ⊢
      have hHWb : 4 ≤ HW ∧ HW ≤ W - 4 := by
        rw [← hHW]; unfold pyclamp MIN_ROOM GAP; omega
      have hSTb : 1 ≤ ST ∧ ST ≤ H - 6 := by
        rw [← hST]; unfold pyclamp min_block_size MIN_ROOM GAP; omega
      have hLHb : LH = H - ST := by
        rw [← hLH]; unfold min_block_size MIN_ROOM GAP; omega
      rcases List.mem_cons.mp hb with rfl | hb2
      · rw [shrink_block_spec]
        simp only [Rect_mk_x, Rect_mk_y, Rect_mk_w, Rect_mk_h, GAP]
        have hx0 := countP_pair_zero (shaveX (Rect.mk 0 0 HW LH))
          (Rect.mk 0 0 HW LH) (Rect.mk HW ST (W - HW) LH)
          (shaveX_false_self _)
          (shaveX_false_of _ _ (by
            simp only [Rect_mk_x, Rect_mk_y, Rect_mk_w, Rect_mk_h]
            rintro ⟨e1, e2⟩; omega))
        have hy0 := countP_pair_zero (shaveY (Rect.mk 0 0 HW LH))
          (Rect.mk 0 0 HW LH) (Rect.mk HW ST (W - HW) LH)
          (shaveY_false_self _)
          (shaveY_false_of _ _ (by
            simp only [Rect_mk_x, Rect_mk_y, Rect_mk_w, Rect_mk_h]
            rintro ⟨e1, e2⟩; omega))
        omega
      · rcases List.mem_cons.mp hb2 with rfl | hb3
        · rw [shrink_block_spec]
          simp only [Rect_mk_x, Rect_mk_y, Rect_mk_w, Rect_mk_h, GAP]
          have hx1 := countP_pair_le_one_2 (shaveX (Rect.mk HW ST (W - HW) LH))
            (Rect.mk 0 0 HW LH) (Rect.mk HW ST (W - HW) LH)
            (shaveX_false_self _)
          have hy1 := countP_pair_le_one_2 (shaveY (Rect.mk HW ST (W - HW) LH))
            (Rect.mk 0 0 HW LH) (Rect.mk HW ST (W - HW) LH)
            (shaveY_false_self _)
          omega
        · cases hb3

theorem mem_swapNth {α : Type} (l : List α) (i j : Nat) (b : α) :
    b ∈ swapNth l i j → b ∈ l := by
  unfold swapNth
  split
  · rename_i a c hgi hgj
    intro h
    rcases List.mem_or_eq_of_mem_set h with h2 | h2
    · rcases List.mem_or_eq_of_mem_set h2 with h3 | h3
      · exact h3
      · subst h3; exact List.get?_mem hgj
    · subst h2; exact List.get?_mem hgi
  · intro h; exact h

theorem shuffleGo_mem {α : Type} {σ : Type} (src : RandomSource σ) :
    ∀ (fuel : Nat) (l : List α) (s : σ) (b : α),
      b ∈ (shuffleGo src fuel l s).1 → b ∈ l := by
  intro fuel
  induction fuel with
  | zero => intro l s b h; exact h
  | succ k ih =>
      intro l s b h
      exact mem_swapNth _ _ _ _ (ih _ _ b h)

theorem pyshuffle_mem {α : Type} {σ : Type} (src : RandomSource σ) (l : List α) (s : σ)
    (b : α) (h : b ∈ (pyshuffle src l s).1) : b ∈ l :=
  shuffleGo_mem src _ l s b h

theorem mem_ite_singleton {α : Type} {c : Prop} [inst : Decidable c] {x b : α}
    (h : b ∈ (if c then [x] else [])) : b = x := by
  split at h
  · simpa using h
  · cases h

theorem trim_rooms_horizontal_minsize (primary_raw : Rect) (cy : Int) :
    ∀ (rooms_raw : List Rect), (∀ r ∈ rooms_raw, 3 ≤ r.w ∧ 3 ≤ r.h) →
      ∀ r ∈ trim_rooms_horizontal rooms_raw primary_raw cy, 3 ≤ r.w ∧ 3 ≤ r.h := by
  have hg : GAP = 1 := rfl
  have hm : MIN_ROOM = 3 := rfl
  intro rooms_raw
  induction rooms_raw with
  | nil => intro _ r hr; simp [trim_rooms_horizontal] at hr
  | cons a t ih =>
      intro hall r hr
      have ha := hall a (List.mem_cons_self _ _)
      have ht := fun r2 h2 => hall r2 (List.mem_cons_of_mem a h2)
      simp only [trim_rooms_horizontal, List.foldr] at hr
      rw [List.mem_append] at hr
      rcases hr with hr | hr
      · split at hr
        · simp only [List.mem_singleton] at hr; subst hr; exact ha
        · split at hr
          · simp only [List.mem_singleton] at hr; subst hr; exact ha
          · rw [List.mem_append] at hr
            rcases hr with hr | hr
            · split at hr
              · rename_i hcond
                simp only [List.mem_singleton] at hr
                subst hr
                constructor
                · simp only [Rect_mk_w]; exact ha.1
                · simp only [Rect_mk_h]; omega
              · cases hr
            · split at hr
              · rename_i hcond
                simp only [List.mem_singleton] at hr
                subst hr
                constructor
                · simp only [Rect_mk_w]; exact ha.1
                · simp only [Rect_mk_h]; omega
              · cases hr
      · exact ih ht r hr

theorem trim_rooms_vertical_minsize (primary_raw : Rect) (cx : Int) :
    ∀ (rooms_raw : List Rect), (∀ r ∈ rooms_raw, 3 ≤ r.w ∧ 3 ≤ r.h) →
      ∀ r ∈ trim_rooms_vertical rooms_raw primary_raw cx, 3 ≤ r.w ∧ 3 ≤ r.h := by
  have hg : GAP = 1 := rfl
  have hm : MIN_ROOM = 3 := rfl
  intro rooms_raw
  induction rooms_raw with
  | nil => intro _ r hr; simp [trim_rooms_vertical] at hr
  | cons a t ih =>
      intro hall r hr
      have ha := hall a (List.mem_cons_self _ _)
      have ht := fun r2 h2 => hall r2 (List.mem_cons_of_mem a h2)
      simp only [trim_rooms_vertical, List.foldr] at hr
      rw [List.mem_append] at hr
      rcases hr with hr | hr
      · split at hr
        · simp only [List.mem_singleton] at hr; subst hr; exact ha
        · split at hr
          · simp only [List.mem_singleton] at hr; subst hr; exact ha
          · rw [List.mem_append] at hr
            rcases hr with hr | hr
            · split at hr
              · rename_i hcond
                simp only [List.mem_singleton] at hr
                subst hr
                constructor
                · simp only [Rect_mk_w]; omega
                · simp only [Rect_mk_h]; exact ha.2
              · cases hr
            · split at hr
              · rename_i hcond
                simp only [List.mem_singleton] at hr
                subst hr
                constructor
                · simp only [Rect_mk_w]; omega
                · simp only [Rect_mk_h]; exact ha.2
              · cases hr
      · exact ih ht r hr

theorem insert_corridor_minsize {σ : Type} (src : RandomSource σ) (rooms_raw : List Rect)
    (W H : Int) (primary_raw : Rect) (s : σ) (hW : 3 ≤ W) (hH : 3 ≤ H)
    (hall : ∀ r ∈ rooms_raw, 3 ≤ r.w ∧ 3 ≤ r.h) :
    ∀ r ∈ (insert_corridor src rooms_raw W H primary_raw s).1, 3 ≤ r.w ∧ 3 ≤ r.h := by
  have hg : GAP = 1 := rfl
  have hm : MIN_ROOM = 3 := rfl
  intro r hr
  simp only [insert_corridor] at hr
  generalize hcl :
    (if primary_raw.y - GAP - MIN_ROOM ≥ 0 then
        [("north", Rect.mk 0 (primary_raw.y - GAP - MIN_ROOM) W MIN_ROOM)] else []) ++
      (if primary_raw.y + primary_raw.h + GAP + MIN_ROOM ≤ H then
        [("south", Rect.mk 0 (primary_raw.y + primary_raw.h + GAP) W MIN_ROOM)] else []) ++
      (if primary_raw.x - GAP - MIN_ROOM ≥ 0 then
        [("west", Rect.mk (primary_raw.x - GAP - MIN_ROOM) 0 MIN_ROOM H)] else []) ++
      (if primary_raw.x + primary_raw.w + GAP + MIN_ROOM ≤ W then
        [("east", Rect.mk (primary_raw.x + primary_raw.w + GAP) 0 MIN_ROOM H)] else []) =
      cands at hr
  have hcands_ok : ∀ p ∈ cands, 3 ≤ (p : String × Rect).2.w ∧ 3 ≤ p.2.h := by
    intro p hp
    rw [← hcl] at hp
    rcases List.mem_append.mp hp with h4 | h4
    · rcases List.mem_append.mp h4 with h5 | h5
      · rcases List.mem_append.mp h5 with h6 | h6
        · have h7 := mem_ite_singleton h6
          subst h7
          simp only [Rect_mk_w, Rect_mk_h]
          omega
        · have h7 := mem_ite_singleton h6
          subst h7
          simp only [Rect_mk_w, Rect_mk_h]
          omega
      · have h7 := mem_ite_singleton h5
        subst h7
        simp only [Rect_mk_w, Rect_mk_h]
        omega
    · have h7 := mem_ite_singleton h4
      subst h7
      simp only [Rect_mk_w, Rect_mk_h]
      omega
  split at hr
  · exact hall r hr
  · split at hr
    · exact hall r hr
    · rename_i side corr tail heq
      have hco := hcands_ok (side, corr)
        (pyshuffle_mem src _ _ _ (by rw [heq]; exact List.mem_cons_self _ _))
      split at hr
      · rw [List.mem_append] at hr
        rcases hr with hr | hr
        · exact trim_rooms_horizontal_minsize primary_raw corr.y rooms_raw hall r hr
        · simp only [List.mem_singleton] at hr
          subst hr
          exact hco
      · rw [List.mem_append] at hr
        rcases hr with hr | hr
        · exact trim_rooms_vertical_minsize primary_raw corr.x rooms_raw hall r hr
        · simp only [List.mem_singleton] at hr
          subst hr
          exact hco

theorem insert_corridor_ne_nil {σ : Type} (src : RandomSource σ) (rooms_raw : List Rect)
    (W H : Int) (primary_raw : Rect) (s : σ) (hne : rooms_raw ≠ []) :
    (insert_corridor src rooms_raw W H primary_raw s).1 ≠ [] := by
  simp only [insert_corridor]
  generalize (if primary_raw.y - GAP - MIN_ROOM ≥ 0 then
      [("north", Rect.mk 0 (primary_raw.y - GAP - MIN_ROOM) W MIN_ROOM)] else []) ++
    (if primary_raw.y + primary_raw.h + GAP + MIN_ROOM ≤ H then
      [("south", Rect.mk 0 (primary_raw.y + primary_raw.h + GAP) W MIN_ROOM)] else []) ++
    (if primary_raw.x - GAP - MIN_ROOM ≥ 0 then
      [("west", Rect.mk (primary_raw.x - GAP - MIN_ROOM) 0 MIN_ROOM H)] else []) ++
    (if primary_raw.x + primary_raw.w + GAP + MIN_ROOM ≤ W then
      [("east", Rect.mk (primary_raw.x + primary_raw.w + GAP) 0 MIN_ROOM H)] else []) =
    cands
  split
  · exact hne
  · split
    · exact hne
    · split <;> simp

theorem foldl_preserve_mem {α β : Type} (P : β → Prop) (f : β → α → β) :
    ∀ (l : List α), (∀ a ∈ l, ∀ b, P b → P (f b a)) → ∀ b, P b → P (l.foldl f b) := by
  intro l
  induction l with
  | nil => intro _ b hb; exact hb
  | cons a t ih =>
      intro hl b hb
      exact ih (fun a2 h2 b2 hb2 => hl a2 (List.mem_cons_of_mem _ h2) b2 hb2) _
        (hl a (List.mem_cons_self _ _) b hb)

theorem primary_idx_lt (l : List Rect) (blocks : List Rect) (hne : l ≠ []) :
    primary_idx l blocks < l.length := by
  have hlen : 0 < l.length := List.length_pos.mpr hne
  simp only [primary_idx]
  split
  · exact hlen
  · rename_i i0 rest heq
    have hsub : ∀ i ∈ i0 :: rest, i < l.length := by
      intro i hi
      rw [← heq] at hi
      split at hi
      · exact List.mem_range.mp hi
      · exact List.mem_range.mp (List.mem_filter.mp hi).1
    refine foldl_preserve_mem (fun i => i < l.length) _ rest ?_ i0
      (hsub i0 (List.mem_cons_self _ _))
    intro a ha b hb
    split
    · exact hsub a (List.mem_cons_of_mem _ ha)
    · exact hb

theorem mem_insertAreaDesc {r b : Rect} {l : List Rect} (h : b ∈ insertAreaDesc r l) :
    b = r ∨ b ∈ l := by
  induction l with
  | nil => simpa [insertAreaDesc] using h
  | cons a t ih =>
      unfold insertAreaDesc at h
      split at h
      · rcases List.mem_cons.mp h with rfl | h2
        · right; exact List.mem_cons_self _ _
        · rcases ih h2 with h3 | h3
          · left; exact h3
          · right; exact List.mem_cons_of_mem _ h3
      · rcases List.mem_cons.mp h with rfl | h2
        · left; rfl
        · right; exact h2

theorem mem_enumFrom_snd {α : Type} {p : Nat × α} {l : List α} :
    ∀ {n : Nat}, p ∈ List.enumFrom n l → p.2 ∈ l := by
  induction l with
  | nil => intro n h; cases h
  | cons a t ih =>
      intro n h
      rcases List.mem_cons.mp h with rfl | h2
      · exact List.mem_cons_self _ _
      · exact List.mem_cons_of_mem _ (ih h2)

theorem mem_sortAreaDesc {b : Rect} : ∀ {l : List Rect}, b ∈ sortAreaDesc l → b ∈ l := by
  intro l
  induction l with
  | nil => intro h; simp [sortAreaDesc] at h
  | cons a t ih =>
      intro h
      unfold sortAreaDesc at h
      rcases mem_insertAreaDesc h with rfl | h2
      · exact List.mem_cons_self _ _
      · exact List.mem_cons_of_mem _ (ih h2)

theorem assemble_rooms_minsize (p : Rect) (cO : Option Rect) (os : List Rect)
    (kinds : List String) (hp : 3 ≤ p.w ∧ 3 ≤ p.h)
    (hc : ∀ c, cO = some c → 3 ≤ c.w ∧ 3 ≤ c.h)
    (hos : ∀ r ∈ os, 3 ≤ r.w ∧ 3 ≤ r.h) :
    ∀ room ∈ assemble_rooms p cO os kinds, 3 ≤ room.w ∧ 3 ≤ room.h := by
  intro room hroom
  simp only [assemble_rooms] at hroom
  obtain ⟨pr, hpr, _, _, hw, hh2, _⟩ := mem_mk_rooms hroom
  rw [hw, hh2]
  rcases List.mem_append.mp hpr with h1 | h1
  · rcases List.mem_append.mp h1 with h2 | h2
    · simp only [List.mem_singleton] at h2
      subst h2
      exact hp
    · cases cO with
      | none => simp [corrPairs] at h2
      | some c =>
          simp only [corrPairs, List.mem_singleton] at h2
          subst h2
          exact hc c rfl
  · obtain ⟨q, hq, hq2⟩ := List.mem_map.mp h1
    have hq3 : q.2 ∈ os := mem_enumFrom_snd hq
    rw [← hq2]
    exact hos q.2 hq3

theorem select_rooms_minsize (all2 blocks : List Rect) (kinds : List String)
    (cidx : Option Nat) (hne : all2 ≠ [])
    (hall : ∀ r ∈ all2, 3 ≤ r.w ∧ 3 ≤ r.h)
    (hcidx : ∀ i, cidx = some i → i < all2.length) :
    ∀ room ∈ assemble_rooms (all2.getD (primary_idx all2 blocks) default)
        (cidx.map (fun c => all2.getD c default))
        (sortAreaDesc (((List.range all2.length).filter
          (fun i => i ≠ primary_idx all2 blocks ∧ cidx ≠ some i)).map
          (fun i => all2.getD i default))) kinds,
      3 ≤ room.w ∧ 3 ≤ room.h := by
  apply assemble_rooms_minsize
  · exact hall _ (getD_mem_of_lt all2 default _ (primary_idx_lt all2 blocks hne))
  · intro c hcEq
    cases cidx with
    | none => cases hcEq
    | some i =>
        injection hcEq with hcEq
        subst hcEq
        exact hall _ (getD_mem_of_lt all2 default i (hcidx i rfl))
  · intro r hr
    obtain ⟨i, hi, hEq⟩ := List.mem_map.mp (mem_sortAreaDesc hr)
    have hilt : i < all2.length := List.mem_range.mp (List.mem_filter.mp hi).1
    rw [← hEq]
    exact hall _ (getD_mem_of_lt all2 default i hilt)

theorem partition_rooms_minsize {σ : Type} (src : RandomSource σ) (blocks : List Rect)
    (W H : Int) (kinds : List String) (layout : LayoutPlan)
    (fround : Int → Int → Int → Int) (s : σ) (hW : 3 ≤ W) (hH : 3 ≤ H)
    (hblocks : blocks ≠ [])
    (hok : ∀ b ∈ blocks, 3 ≤ (shrink_block b blocks).w ∧ 3 ≤ (shrink_block b blocks).h) :
    ∀ room ∈ (partition_rooms src blocks W H kinds layout fround s).1,
      3 ≤ room.w ∧ 3 ≤ room.h := by
  intro room hroom
  simp only [partition_rooms] at hroom
  by_cases hlay : layout = LayoutPlan.corridor
  · simp only [if_pos hlay] at hroom
    refine select_rooms_minsize _ blocks kinds _ ?_ ?_ ?_ room hroom
    · exact insert_corridor_ne_nil src _ W H _ _
        (partition_blocks_go_ne_nil src blocks fround _ _ blocks _ s hblocks)
    · exact insert_corridor_minsize src _ W H _ _ hW hH
        (partition_blocks_go_minsize src blocks fround _ _ blocks _ s hok)
    · intro i hi
      exact List.mem_range.mp (List.mem_filter.mp (mem_of_head?_eq_some hi)).1
  · simp only [if_neg hlay] at hroom
    refine select_rooms_minsize _ blocks kinds none ?_ ?_ ?_ room hroom
    · exact partition_blocks_go_ne_nil src blocks fround _ _ blocks _ s hblocks
    · exact partition_blocks_go_minsize src blocks fround _ _ blocks _ s hok
    · intro i hi; cases hi

theorem make_blocks_ne_nil {σ : Type} (src : RandomSource σ) (shape : FootprintShape)
    (W H : Int) (s : σ) : (make_blocks src shape W H s).1 ≠ [] := by
  cases shape <;> simp [make_blocks]

/-- C5.  Every room generate_building returns measures at least `MIN_ROOM`
(3 cells) on each axis, for every parameter set and random stream. -/
theorem c5_min_room_size {σ : Type} (src : RandomSource σ)
    (fround : Int → Int → Int → Int) (init : Int → σ) (params : BuildingParams) :
    ∀ room ∈ (generate_building src fround init params).rooms,
      MIN_ROOM ≤ room.w ∧ MIN_ROOM ≤ room.h := by
  obtain ⟨n, W, H, s, heq, hW8, hW62, hH7, hH62⟩ :=
    generate_building_shape src fround init params
  rw [heq]
  intro room hroom
  have hrooms : (finalize params
      (build_layout src fround params (build_kinds params.archetype n) W H s).1).rooms =
      (partition_rooms src (make_blocks src params.footprint W H s).1 W H
        (build_kinds params.archetype n) params.layout fround
        (make_blocks src params.footprint W H s).2).1 := rfl
  rw [hrooms] at hroom
  exact partition_rooms_minsize src _ W H _ params.layout fround _ (by omega) (by omega)
    (make_blocks_ne_nil src params.footprint W H s)
    (make_blocks_shrink_ok src params.footprint W H s (by omega) (by omega)) room hroom

-- ---------------------------------------------------------------------------
-- C2: soundness of the connectivity validator.
--
-- The claim states the adjacency rule declaratively: a door with direction
-- east/west connects the room whose right edge meets its gap column to the
-- room starting one cell beyond it, and symmetrically for north/south.  The
-- definitions below write that rule down directly (they follow the claim, to
-- be related to the validator code); the theorem shows that whenever
-- `all_rooms_connected` returns `True`, every room is reachable from the
-- primary room through a chain of interior doors under that rule.
-- ---------------------------------------------------------------------------

/-- The room on the near side of the door under the claim's gap-adjacency
rule (right edge at the gap column for east/west doors, bottom edge at the
gap row for north/south doors). -/
def leftSide (d : Door) (r : Room) : Prop :=
  if d.direction = "east" ∨ d.direction = "west" then
    r.x2 = d.x ∧ r.y ≤ d.y ∧ d.y < r.y2
  else
    r.y2 = d.y ∧ r.x ≤ d.x ∧ d.x < r.x2

/-- The room on the far side of the door (starting one gap cell beyond). -/
def rightSide (d : Door) (r : Room) : Prop :=
  if d.direction = "east" ∨ d.direction = "west" then
    r.x = d.x + GAP ∧ r.y ≤ d.y ∧ d.y < r.y2
  else
    r.y = d.y + GAP ∧ r.x ≤ d.x ∧ d.x < r.x2

/-- `d` connects room `a` to room `b` under the claim's adjacency rule. -/
def door_connects (d : Door) (a b : Room) : Prop :=
  leftSide d a ∧ rightSide d b

/-- One hop between member rooms through some door of the list. -/
def door_step (rooms : List Room) (doors : List Door) (a b : Room) : Prop :=
  a ∈ rooms ∧ b ∈ rooms ∧ ∃ d ∈ doors, door_connects d a b ∨ door_connects d b a

/-- Reachability from the primary room (the first room of the list) through
a chain of doors. -/
def reachable (rooms : List Room) (doors : List Door) (r : Room) : Prop :=
  Relation.ReflTransGen (door_step rooms doors) (rooms.headD default) r

/-- The same hop relation on room ids (the validator works on ids). -/
def idstep (rooms : List Room) (doors : List Door) (i j : Nat) : Prop :=
  ∃ ra ∈ rooms, ∃ rb ∈ rooms, ra.id = i ∧ rb.id = j ∧
    ∃ d ∈ doors, door_connects d ra rb ∨ door_connects d rb ra

theorem headD_mem {α : Type} [Inhabited α] {l : List α} (h : l ≠ []) :
    l.headD default ∈ l := by
  cases l with
  | nil => exact absurd rfl h
  | cons a t => exact List.mem_cons_self _ _

/-- Soundness invariant of the room scan of `_all_rooms_connected`: a
recorded id on the a-side (resp. b-side) belongs to a member room on the
near (resp. far) side of the door. -/
theorem door_rooms_fold_sound (rooms : List Room) (d : Door) :
    ∀ (l : List Room) (acc : Option Nat × Option Nat),
      (∀ r ∈ l, r ∈ rooms) →
      (∀ i, acc.1 = some i → ∃ ra ∈ rooms, ra.id = i ∧ leftSide d ra) →
      (∀ j, acc.2 = some j → ∃ rb ∈ rooms, rb.id = j ∧ rightSide d rb) →
      (∀ i, (l.foldl
          (fun acc r =>
            if d.direction = "east" ∨ d.direction = "west" then
              if r.x2 = d.x ∧ r.y ≤ d.y ∧ d.y < r.y2 then (some r.id, acc.2)
              else if r.x = d.x + GAP ∧ r.y ≤ d.y ∧ d.y < r.y2 then (acc.1, some r.id)
              else acc
            else
              if r.y2 = d.y ∧ r.x ≤ d.x ∧ d.x < r.x2 then (some r.id, acc.2)
              else if r.y = d.y + GAP ∧ r.x ≤ d.x ∧ d.x < r.x2 then (acc.1, some r.id)
              else acc) acc).1 = some i →
        ∃ ra ∈ rooms, ra.id = i ∧ leftSide d ra) ∧
      (∀ j, (l.foldl
          (fun acc r =>
            if d.direction = "east" ∨ d.direction = "west" then
              if r.x2 = d.x ∧ r.y ≤ d.y ∧ d.y < r.y2 then (some r.id, acc.2)
              else if r.x = d.x + GAP ∧ r.y ≤ d.y ∧ d.y < r.y2 then (acc.1, some r.id)
              else acc
            else
              if r.y2 = d.y ∧ r.x ≤ d.x ∧ d.x < r.x2 then (some r.id, acc.2)
              else if r.y = d.y + GAP ∧ r.x ≤ d.x ∧ d.x < r.x2 then (acc.1, some r.id)
              else acc) acc).2 = some j →
        ∃ rb ∈ rooms, rb.id = j ∧ rightSide d rb) := by
  intro l
  induction l with
  | nil =>
      intro acc _ hL hR
      exact ⟨hL, hR⟩
  | cons r t ih =>
      intro acc hsub hL hR
      simp only [List.foldl]
      refine ih _ (fun r2 h2 => hsub r2 (List.mem_cons_of_mem _ h2)) ?_ ?_
      · intro i hi
        by_cases hdir : d.direction = "east" ∨ d.direction = "west"
        · rw [if_pos hdir] at hi
          by_cases hc1 : r.x2 = d.x ∧ r.y ≤ d.y ∧ d.y < r.y2
          · rw [if_pos hc1] at hi
            have hri : r.id = i := by injection hi
            refine ⟨r, hsub r (List.mem_cons_self _ _), hri, ?_⟩
            unfold leftSide
            rw [if_pos hdir]
            exact hc1
          · rw [if_neg hc1] at hi
            by_cases hc2 : r.x = d.x + GAP ∧ r.y ≤ d.y ∧ d.y < r.y2
            · rw [if_pos hc2] at hi
              exact hL i hi
            · rw [if_neg hc2] at hi
              exact hL i hi
        · rw [if_neg hdir] at hi
          by_cases hc3 : r.y2 = d.y ∧ r.x ≤ d.x ∧ d.x < r.x2
          · rw [if_pos hc3] at hi
            have hri : r.id = i := by injection hi
            refine ⟨r, hsub r (List.mem_cons_self _ _), hri, ?_⟩
            unfold leftSide
            rw [if_neg hdir]
            exact hc3
          · rw [if_neg hc3] at hi
            by_cases hc4 : r.y = d.y + GAP ∧ r.x ≤ d.x ∧ d.x < r.x2
            · rw [if_pos hc4] at hi
              exact hL i hi
            · rw [if_neg hc4] at hi
              exact hL i hi
      · intro j hj
        by_cases hdir : d.direction = "east" ∨ d.direction = "west"
        · rw [if_pos hdir] at hj
          by_cases hc1 : r.x2 = d.x ∧ r.y ≤ d.y ∧ d.y < r.y2
          · rw [if_pos hc1] at hj
            exact hR j hj
          · rw [if_neg hc1] at hj
            by_cases hc2 : r.x = d.x + GAP ∧ r.y ≤ d.y ∧ d.y < r.y2
            · rw [if_pos hc2] at hj
              have hrj : r.id = j := by injection hj
              refine ⟨r, hsub r (List.mem_cons_self _ _), hrj, ?_⟩
              unfold rightSide
              rw [if_pos hdir]
              exact hc2
            · rw [if_neg hc2] at hj
              exact hR j hj
        · rw [if_neg hdir] at hj
          by_cases hc3 : r.y2 = d.y ∧ r.x ≤ d.x ∧ d.x < r.x2
          · rw [if_pos hc3] at hj
            exact hR j hj
          · rw [if_neg hc3] at hj
            by_cases hc4 : r.y = d.y + GAP ∧ r.x ≤ d.x ∧ d.x < r.x2
            · rw [if_pos hc4] at hj
              have hrj : r.id = j := by injection hj
              refine ⟨r, hsub r (List.mem_cons_self _ _), hrj, ?_⟩
              unfold rightSide
              rw [if_neg hdir]
              exact hc4
            · rw [if_neg hc4] at hj
              exact hR j hj

theorem door_rooms_lr_sound (rooms : List Room) (d : Door) (a b : Nat)
    (h : door_rooms_lr rooms d = (some a, some b)) :
    ∃ ra ∈ rooms, ∃ rb ∈ rooms, ra.id = a ∧ rb.id = b ∧ door_connects d ra rb := by
  have main := door_rooms_fold_sound rooms d rooms (none, none) (fun r hr => hr)
    (fun i hi => by cases hi) (fun j hj => by cases hj)
  unfold door_rooms_lr at h
  obtain ⟨ra, hra, hida, hLa⟩ := main.1 a (by rw [h])
  obtain ⟨rb, hrb, hidb, hRb⟩ := main.2 b (by rw [h])
  exact ⟨ra, hra, rb, hrb, hida, hidb, hLa, hRb⟩

/-- Every edge the validator builds is a sound id-hop. -/
theorem build_edges_fold_sound (rooms : List Room) (interior : List Door) :
    ∀ (l : List Door) (es : List (Nat × Nat)),
      (∀ d ∈ l, d ∈ interior) →
      (∀ p ∈ es, idstep rooms interior p.1 p.2) →
      ∀ p ∈ l.foldl
          (fun es d =>
            match door_rooms_lr rooms d with
            | (some a, some b) => es ++ [(a, b), (b, a)]
            | _ => es) es,
        idstep rooms interior p.1 p.2 := by
  intro l
  induction l with
  | nil => intro es _ hes p hp; exact hes p hp
  | cons d t ih =>
      intro es hsub hes p hp
      simp only [List.foldl] at hp
      refine ih _ (fun d2 h2 => hsub d2 (List.mem_cons_of_mem _ h2)) ?_ p hp
      intro q hq
      rcases hdr : door_rooms_lr rooms d with ⟨oa, ob⟩
      rw [hdr] at hq
      cases oa with
      | none => exact hes q hq
      | some a2 =>
          cases ob with
          | none => exact hes q hq
          | some b2 =>
              rcases List.mem_append.mp hq with hq2 | hq2
              · exact hes q hq2
              · obtain ⟨ra, hra, rb, hrb, hida, hidb, hconn⟩ :=
                  door_rooms_lr_sound rooms d a2 b2 hdr
                rcases List.mem_cons.mp hq2 with rfl | hq3
                · exact ⟨ra, hra, rb, hrb, hida, hidb, d,
                    hsub d (List.mem_cons_self _ _), Or.inl hconn⟩
                · rcases List.mem_cons.mp hq3 with rfl | hq4
                  · exact ⟨rb, hrb, ra, hra, hidb, hida, d,
                      hsub d (List.mem_cons_self _ _), Or.inr hconn⟩
                  · cases hq4

theorem build_edges_sound (rooms : List Room) (interior : List Door) :
    ∀ p ∈ build_edges rooms interior, idstep rooms interior p.1 p.2 := by
  intro p hp
  unfold build_edges at hp
  exact build_edges_fold_sound rooms interior interior [] (fun d hd => hd)
    (fun q hq => by cases hq) p hp

theorem nodup_concat {α : Type} {l : List α} {a : α} (h : l.Nodup) (ha : a ∉ l) :
    (l ++ [a]).Nodup := by
  induction l with
  | nil => simp
  | cons b t ih =>
      rcases List.nodup_cons.mp h with ⟨hb, ht⟩
      simp only [List.cons_append, List.nodup_cons]
      constructor
      · intro hmem
        rcases List.mem_append.mp hmem with h2 | h2
        · exact hb h2
        · rcases List.mem_singleton.mp h2 with rfl
          exact ha (List.mem_cons_self _ _)
      · exact ih ht (fun h2 => ha (List.mem_cons_of_mem _ h2))

/-- Soundness of the BFS of the validator: whatever the fuel, every visited
id satisfies any predicate that holds of the start set and propagates along
edges, and the visited list stays duplicate-free. -/
theorem bfs_visited_sound (edges : List (Nat × Nat)) (Q : Nat → Prop)
    (hedge : ∀ p ∈ edges, Q p.1 → Q p.2) :
    ∀ (fuel : Nat) (visited queue : List Nat),
      visited.Nodup → (∀ v ∈ visited, Q v) → (∀ v ∈ queue, Q v) →
      (bfs_visited edges fuel visited queue).Nodup ∧
      (∀ v ∈ bfs_visited edges fuel visited queue, Q v) := by
  intro fuel
  induction fuel with
  | zero =>
      intro visited queue hnd hv _
      exact ⟨hnd, hv⟩
  | succ f ih =>
      intro visited queue hnd hv hq
      cases queue with
      | nil => exact ⟨hnd, hv⟩
      | cons cur qrest =>
          simp only [bfs_visited]
          have hnbrs : ∀ n ∈ (edges.filterMap
              (fun p => if p.1 = cur then some p.2 else none)), Q n := by
            intro n hn
            obtain ⟨p, hp, hpn⟩ := List.mem_filterMap.mp hn
            by_cases hcur : p.1 = cur
            · rw [if_pos hcur] at hpn
              injection hpn with hpn
              subst hpn
              exact hedge p hp (by rw [hcur]; exact hq cur (List.mem_cons_self _ _))
            · rw [if_neg hcur] at hpn
              cases hpn
          have hfold : ∀ (nl : List Nat) (vq : List Nat × List Nat),
              (∀ n ∈ nl, Q n) → vq.1.Nodup → (∀ v ∈ vq.1, Q v) → (∀ v ∈ vq.2, Q v) →
              (nl.foldl (fun vq nid =>
                  if nid ∈ vq.1 then vq else (vq.1 ++ [nid], nid :: vq.2)) vq).1.Nodup ∧
              (∀ v ∈ (nl.foldl (fun vq nid =>
                  if nid ∈ vq.1 then vq else (vq.1 ++ [nid], nid :: vq.2)) vq).1, Q v) ∧
              (∀ v ∈ (nl.foldl (fun vq nid =>
                  if nid ∈ vq.1 then vq else (vq.1 ++ [nid], nid :: vq.2)) vq).2, Q v) := by
            intro nl
            induction nl with
            | nil =>
                intro vq _ h1 h2 h3
                exact ⟨h1, h2, h3⟩
            | cons nid nrest ihn =>
                intro vq hnl h1 h2 h3
                simp only [List.foldl]
                by_cases hmem : nid ∈ vq.1
                · rw [if_pos hmem]
                  exact ihn vq (fun n hn => hnl n (List.mem_cons_of_mem _ hn)) h1 h2 h3
                · rw [if_neg hmem]
                  refine ihn _ (fun n hn => hnl n (List.mem_cons_of_mem _ hn))
                    (nodup_concat h1 hmem) ?_ ?_
                  · intro v hvv
                    rcases List.mem_append.mp hvv with h4 | h4
                    · exact h2 v h4
                    · rcases List.mem_singleton.mp h4 with rfl
                      exact hnl _ (List.mem_cons_self _ _)
                  · intro v hvv
                    rcases List.mem_cons.mp hvv with rfl | h4
                    · exact hnl v (List.mem_cons_self _ _)
                    · exact h3 v h4
          obtain ⟨hnd2, hv2, hq2⟩ := hfold _ (visited, ([] : List Nat)) hnbrs hnd hv
            (fun v hvv => by cases hvv)
          refine ih _ _ hnd2 hv2 ?_
          intro v hvv
          rcases List.mem_append.mp hvv with h4 | h4
          · exact hq2 v h4
          · exact hq v (List.mem_cons_of_mem _ h4)

theorem filter_length_lt {α : Type} (p : α → Bool) :
    ∀ (l : List α) (a : α), a ∈ l → p a = false → (l.filter p).length < l.length := by
  intro l
  induction l with
  | nil => intro a ha; cases ha
  | cons b t ih =>
      intro a ha hpa
      rcases List.mem_cons.mp ha with rfl | ha2
      · simp only [List.filter, hpa, List.length_cons]
        have := List.length_filter_le p t
        omega
      · cases hpb : p b with
        | true =>
            simp only [List.filter, hpb, List.length_cons]
            have := ih a ha2 hpa
            omega
        | false =>
            simp only [List.filter, hpb, List.length_cons]
            have := ih a ha2 hpa
            omega

/-- If the duplicate-free visited list covers as many ids as there are
rooms, every room's id was visited. -/
theorem all_ids_visited (rooms : List Room) (visited : List Nat)
    (hnd : visited.Nodup) (hsub : ∀ v ∈ visited, v ∈ rooms.map Room.id)
    (hlen : visited.length = rooms.length) :
    ∀ r ∈ rooms, r.id ∈ visited := by
  intro r hr
  by_contra hnot
  have hsub2 : visited ⊆ (rooms.map Room.id).filter (fun i => i ≠ r.id) := by
    intro v hv
    refine List.mem_filter.mpr ⟨hsub v hv, ?_⟩
    simp only [ne_eq, decide_eq_true_eq]
    intro heq
    exact hnot (heq ▸ hv)
  have h1 : visited.length ≤ ((rooms.map Room.id).filter (fun i => i ≠ r.id)).length :=
    (hnd.subperm hsub2).length_le
  have h2 : ((rooms.map Room.id).filter (fun i => i ≠ r.id)).length <
      (rooms.map Room.id).length := by
    refine filter_length_lt _ _ r.id (List.mem_map_of_mem Room.id hr) ?_
    simp
  rw [List.length_map] at h2
  omega

/-- A duplicate-free visited list as large as the room list forces the room
ids themselves to be pairwise distinct. -/
theorem ids_nodup_of_count (rooms : List Room) (visited : List Nat)
    (hnd : visited.Nodup) (hsub : ∀ v ∈ visited, v ∈ rooms.map Room.id)
    (hlen : visited.length = rooms.length) :
    (rooms.map Room.id).Nodup := by
  by_contra hdup
  have hsl := List.dedup_sublist (rooms.map Room.id)
  have hle := hsl.length_le
  have hne : (rooms.map Room.id).dedup.length ≠ (rooms.map Room.id).length := by
    intro heq
    have := hsl.eq_of_length heq
    exact hdup (this ▸ List.nodup_dedup (rooms.map Room.id))
  have hsub2 : visited ⊆ (rooms.map Room.id).dedup :=
    fun v hv => List.mem_dedup.mpr (hsub v hv)
  have h1 : visited.length ≤ (rooms.map Room.id).dedup.length :=
    (hnd.subperm hsub2).length_le
  rw [List.length_map] at hle hne
  omega

theorem nodup_map_inj {l : List Room} (h : (l.map Room.id).Nodup) :
    ∀ r1 ∈ l, ∀ r2 ∈ l, r1.id = r2.id → r1 = r2 := by
  induction l with
  | nil => intro r1 h1; cases h1
  | cons a t ih =>
      intro r1 h1 r2 h2 hid
      rw [List.map_cons, List.nodup_cons] at h
      rcases List.mem_cons.mp h1 with rfl | h1b
      · rcases List.mem_cons.mp h2 with rfl | h2b
        · rfl
        · rw [hid] at h
          exact absurd (List.mem_map_of_mem Room.id h2b) h.1
      · rcases List.mem_cons.mp h2 with rfl | h2b
        · rw [← hid] at h
          exact absurd (List.mem_map_of_mem Room.id h1b) h.1
        · exact ih h.2 r1 h1b r2 h2b hid

/-- An id-level path transfers to a room-level path when room ids are
pairwise distinct. -/
theorem id_path_to_room_path (rooms : List Room) (doors : List Door)
    (hinj : ∀ r1 ∈ rooms, ∀ r2 ∈ rooms, r1.id = r2.id → r1 = r2)
    {a b : Nat} (hpath : Relation.ReflTransGen (idstep rooms doors) a b) :
    ∀ ra ∈ rooms, ra.id = a → ∀ rb ∈ rooms, rb.id = b →
      Relation.ReflTransGen (door_step rooms doors) ra rb := by
  induction hpath with
  | refl =>
      intro ra hra hida rb hrb hidb
      have : ra = rb := hinj ra hra rb hrb (by rw [hida, hidb])
      subst this
      exact Relation.ReflTransGen.refl
  | tail hab hstep ih =>
      intro ra hra hida rb hrb hidb
      obtain ⟨rc1, hc1, rc2, hc2, hid1, hid2, d, hd, hconn⟩ := hstep
      have hmid := ih ra hra hida rc1 hc1 hid1
      have : rc2 = rb := hinj rc2 hc2 rb hrb (by rw [hid2, hidb])
      subst this
      exact hmid.tail ⟨hc1, hc2, d, hd, hconn⟩

/-- C2.  Whenever the connectivity validator returns `True`, every room in
the list is reachable from the primary room through a chain of doors from
the interior door list (the doors after the exterior entrance), under the
claim's gap-adjacency rule. -/
theorem c2_validator_sound (rooms : List Room) (doors : List Door)
    (h : all_rooms_connected rooms doors = true) :
    ∀ r ∈ rooms, reachable rooms (doors.drop 1) r := by
  intro r hr
  by_cases hlen : rooms.length ≤ 1
  · cases rooms with
    | nil => cases hr
    | cons a t =>
        cases t with
        | nil =>
            rcases List.mem_singleton.mp hr with rfl
            exact Relation.ReflTransGen.refl
        | cons b t2 => simp at hlen
  · unfold all_rooms_connected at h
    rw [if_neg hlen] at h
    have hcount := of_decide_eq_true h
    have hne : rooms ≠ [] := by
      intro hnil
      rw [hnil] at hlen
      simp at hlen
    have hedge : ∀ p ∈ build_edges rooms (doors.drop 1),
        (Relation.ReflTransGen (idstep rooms (doors.drop 1))
            (rooms.headD default).id p.1 ∧ p.1 ∈ rooms.map Room.id) →
        (Relation.ReflTransGen (idstep rooms (doors.drop 1))
            (rooms.headD default).id p.2 ∧ p.2 ∈ rooms.map Room.id) := by
      intro p hp hQ
      have hstep := build_edges_sound rooms (doors.drop 1) p hp
      refine ⟨hQ.1.tail hstep, ?_⟩
      obtain ⟨ra, hra, rb, hrb, hida, hidb, -⟩ := hstep
      exact hidb ▸ List.mem_map_of_mem Room.id hrb
    have hbfs := bfs_visited_sound (build_edges rooms (doors.drop 1))
      (fun v => Relation.ReflTransGen (idstep rooms (doors.drop 1))
          (rooms.headD default).id v ∧ v ∈ rooms.map Room.id)
      hedge rooms.length [(rooms.headD default).id] [(rooms.headD default).id]
      (List.nodup_singleton _)
      (by
        intro v hv
        rcases List.mem_singleton.mp hv with rfl
        exact ⟨Relation.ReflTransGen.refl,
          List.mem_map_of_mem Room.id (headD_mem hne)⟩)
      (by
        intro v hv
        rcases List.mem_singleton.mp hv with rfl
        exact ⟨Relation.ReflTransGen.refl,
          List.mem_map_of_mem Room.id (headD_mem hne)⟩)
    obtain ⟨hnd, hQall⟩ := hbfs
    have hsub : ∀ v ∈ bfs_visited (build_edges rooms (doors.drop 1)) rooms.length
        [(rooms.headD default).id] [(rooms.headD default).id], v ∈ rooms.map Room.id :=
      fun v hv => (hQall v hv).2
    have hidvisit := all_ids_visited rooms _ hnd hsub hcount r hr
    have hidsnd := ids_nodup_of_count rooms _ hnd hsub hcount
    have hinj := nodup_map_inj hidsnd
    have hQr := (hQall _ hidvisit).1
    exact id_path_to_room_path rooms (doors.drop 1) hinj hQr
      (rooms.headD default) (headD_mem hne) rfl r hr rfl

theorem c2_witness :
    all_rooms_connected
      [Room.mk 0 0 0 3 3 "primary", Room.mk 1 4 0 3 3 "secondary"]
      [Door.mk 1 (-1) "north" "normal", Door.mk 3 1 "east" "normal"] = true ∧
    reachable [Room.mk 0 0 0 3 3 "primary", Room.mk 1 4 0 3 3 "secondary"]
      ([Door.mk 1 (-1) "north" "normal", Door.mk 3 1 "east" "normal"].drop 1)
      (Room.mk 1 4 0 3 3 "secondary") :=
  ⟨by decide,
   c2_validator_sound
     [Room.mk 0 0 0 3 3 "primary", Room.mk 1 4 0 3 3 "secondary"]
     [Door.mk 1 (-1) "north" "normal", Door.mk 3 1 "east" "normal"]
     (by decide) (Room.mk 1 4 0 3 3 "secondary") (by decide)⟩

-- ---------------------------------------------------------------------------
-- C1: the attempt loop of the orchestrator.
-- ---------------------------------------------------------------------------

theorem findSome?_append_chain {α β : Type} (f : α → Option β) (l1 l2 : List α) :
    (l1 ++ l2).findSome? f =
      match l1.findSome? f with
      | some b => some b
      | none => l2.findSome? f := by
  induction l1 with
  | nil => rfl
  | cons a t ih =>
      simp only [List.cons_append, List.findSome?]
      cases f a <;> simp [ih]

theorem range_findSome?_of_none {α : Type} (f : Nat → Option α) :
    ∀ n, (∀ i, i < n → f i = none) → (List.range n).findSome? f = none := by
  intro n
  induction n with
  | zero => intro _; rfl
  | succ m ih =>
      intro h
      rw [List.range_succ, findSome?_append_chain]
      rw [ih (fun i hi => h i (Nat.lt_succ_of_lt hi))]
      simp only [List.findSome?]
      rw [h m (Nat.lt_succ_self m)]

theorem range_findSome?_first {α : Type} (f : Nat → Option α) :
    ∀ n i v, i < n → (∀ j, j < i → f j = none) → f i = some v →
      (List.range n).findSome? f = some v := by
  intro n
  induction n with
  | zero => intro i v hi; exact absurd hi (Nat.not_lt_zero i)
  | succ m ih =>
      intro i v hi hprev hsucc
      rw [List.range_succ, findSome?_append_chain]
      rcases Nat.lt_or_ge i m with hlt | hge
      · rw [ih i v hlt hprev hsucc]
      · have him : i = m := by omega
        subst him
        rw [range_findSome?_of_none f i hprev]
        simp only [List.findSome?]
        rw [hsucc]

/-- C1.  `generate_building` runs `_try_generate` for attempt indices
`0..19`, attempt `i` seeding `random.Random(seed + i)` (so attempt 0 uses
the caller's exact seed), returns the first attempt that passes the
connectivity check, and when every attempt fails it returns the layout
rebuilt from the base seed by the fallback branch instead of raising. -/
theorem c1_orchestrator {σ : Type} (src : RandomSource σ)
    (fround : Int → Int → Int → Int) (init : Int → σ) (params : BuildingParams) :
    ((∀ i : Nat, i < 20 → attempt src fround init params i = none) →
      generate_building src fround init params =
        finalize params (fallback_layout src fround init params)) ∧
    (∀ (i : Nat) res, i < 20 →
      (∀ j : Nat, j < i → attempt src fround init params j = none) →
      attempt src fround init params i = some res →
      generate_building src fround init params = finalize params res) := by
  constructor
  · intro hall
    unfold generate_building
    rw [range_findSome?_of_none _ 20 (fun i hi => hall i hi)]
  · intro i res hi hprev hsucc
    unfold generate_building
    rw [range_findSome?_first _ 20 i res hi (fun j hj => hprev j hj) hsucc]

theorem c1_witness :
    (attempt mt_source fround_rat mt_init params2 0).isSome = true ∧
    generate_building mt_source fround_rat mt_init params2 =
      finalize params2 ((attempt mt_source fround_rat mt_init params2 0).getD ([], [], [], 0, 0)) := by
  have hs : (attempt mt_source fround_rat mt_init params2 0).isSome = true := by decide
  obtain ⟨res, hres⟩ := Option.isSome_iff_exists.mp hs
  refine ⟨hs, ?_⟩
  rw [(c1_orchestrator mt_source fround_rat mt_init params2).2 0 res (by decide)
    (fun j hj => absurd hj (Nat.not_lt_zero j)) hres, hres]
  rfl

-- ---------------------------------------------------------------------------
-- C9: kinds of the remaining rooms.
-- ---------------------------------------------------------------------------

theorem insertAreaDesc_pairwise (r : Rect) (l : List Rect)
    (h : l.Pairwise (fun a b => rectArea b ≤ rectArea a)) :
    (insertAreaDesc r l).Pairwise (fun a b => rectArea b ≤ rectArea a) := by
  induction l with
  | nil => exact List.pairwise_singleton _ _
  | cons a t ih =>
      rcases List.pairwise_cons.mp h with ⟨ha, ht⟩
      unfold insertAreaDesc
      split
      · next hgt =>
          refine List.pairwise_cons.mpr ⟨?_, ih ht⟩
          intro b hb
          rcases mem_insertAreaDesc hb with rfl | hbt
          · omega
          · exact ha b hbt
      · next hle =>
          refine List.pairwise_cons.mpr ⟨?_, h⟩
          intro b hb
          rcases List.mem_cons.mp hb with rfl | hbt
          · omega
          · exact le_trans (ha b hbt) (by omega)

theorem sortAreaDesc_pairwise (l : List Rect) :
    (sortAreaDesc l).Pairwise (fun a b => rectArea b ≤ rectArea a) := by
  induction l with
  | nil => exact List.Pairwise.nil
  | cons a t ih => exact insertAreaDesc_pairwise a _ ih

theorem mk_rooms_append (l1 l2 : List (Rect × String)) :
    ∀ i, mk_rooms i (l1 ++ l2) = mk_rooms i l1 ++ mk_rooms (i + l1.length) l2 := by
  induction l1 with
  | nil => intro i; simp [mk_rooms]
  | cons p rest ih =>
      intro i
      have h2 : i + (rest.length + 1) = i + 1 + rest.length := by omega
      simp only [List.cons_append, mk_rooms, List.append_eq, ih (i + 1), List.length_cons, h2]

theorem mk_rooms_get? (l : List (Rect × String)) :
    ∀ i j, (mk_rooms i l).get? j =
      (l.get? j).map (fun q => Room.mk (i + j) q.1.x q.1.y q.1.w q.1.h q.2) := by
  induction l with
  | nil => intro i j; cases j <;> rfl
  | cons p rest ih =>
      intro i j
      cases j with
      | zero => rfl
      | succ k =>
          simp only [mk_rooms, List.get?, ih (i + 1) k]
          have : i + 1 + k = i + (k + 1) := by omega
          rw [this]

theorem mk_rooms_pairwise_area (l : List (Rect × String))
    (h : l.Pairwise (fun p q => rectArea q.1 ≤ rectArea p.1)) :
    ∀ i, (mk_rooms i l).Pairwise (fun a b => b.w * b.h ≤ a.w * a.h) := by
  induction l with
  | nil => intro i; exact List.Pairwise.nil
  | cons p rest ih =>
      intro i
      rcases List.pairwise_cons.mp h with ⟨hp, ht⟩
      refine List.pairwise_cons.mpr ⟨?_, ih ht (i + 1)⟩
      intro b hb
      obtain ⟨q, hq, _, _, hw, hh, _⟩ := mem_mk_rooms hb
      have := hp q hq
      unfold rectArea at this
      rw [hw, hh]
      exact this

theorem get?_enumFrom {α : Type} (l : List α) :
    ∀ (n j : Nat), (List.enumFrom n l).get? j = (l.get? j).map (fun a => (n + j, a)) := by
  induction l with
  | nil => intro n j; cases j <;> rfl
  | cons a t ih =>
      intro n j
      cases j with
      | zero => rfl
      | succ k =>
          simp only [List.enumFrom, List.get?, ih (n + 1) k]
          have : n + 1 + k = n + (k + 1) := by omega
          rw [this]

theorem pairwise_enumFrom_snd {α : Type} {R : α → α → Prop} (l : List α)
    (h : l.Pairwise R) : ∀ n, (List.enumFrom n l).Pairwise (fun p q => R p.2 q.2) := by
  induction l with
  | nil => intro n; exact List.Pairwise.nil
  | cons a t ih =>
      intro n
      rcases List.pairwise_cons.mp h with ⟨ha, ht⟩
      refine List.pairwise_cons.mpr ⟨?_, ih ht (n + 1)⟩
      intro q hq
      exact ha q.2 (mem_enumFrom_snd hq)

/-- The rooms after the primary (and corridor slot, if any) in an
`assemble_rooms` result: sorted by area descending (given sorted input) and
kinds assigned positionally from `kinds`, with `"secondary"` past its end. -/
theorem assemble_rooms_remaining (p : Rect) (cO : Option Rect) (os : List Rect)
    (kinds : List String) (hk : ∀ k ∈ kinds, k ≠ "corridor")
    (hs : os.Pairwise (fun a b => rectArea b ≤ rectArea a)) :
    (((assemble_rooms p cO os kinds).drop 1).filter
        (fun r => r.kind ≠ "corridor")).Pairwise (fun a b => b.w * b.h ≤ a.w * a.h) ∧
    (∀ j r, (((assemble_rooms p cO os kinds).drop 1).filter
        (fun r => r.kind ≠ "corridor")).get? j = some r →
      r.kind = if 1 + j < kinds.length then kinds.getD (1 + j) "" else "secondary") := by
  have hko : ∀ j, (if 1 + j < kinds.length then kinds.getD (1 + j) "" else "secondary") ≠ "corridor" := by
    intro j
    split
    · rcases getD_default_or_mem kinds (1 + j) "" with h | h
      · rw [h]; decide
      · exact hk _ h
    · decide
  have hrem : ((assemble_rooms p cO os kinds).drop 1).filter (fun r => r.kind ≠ "corridor") =
      mk_rooms (1 + (corrPairs cO).length)
        (os.enum.map (fun e => ((e.2 : Rect),
          if 1 + e.1 < kinds.length then kinds.getD (1 + e.1) "" else "secondary"))) := by
    have hstep : (assemble_rooms p cO os kinds).drop 1 =
        mk_rooms 1 (corrPairs cO ++
          os.enum.map (fun e => ((e.2 : Rect),
            if 1 + e.1 < kinds.length then kinds.getD (1 + e.1) "" else "secondary"))) := rfl
    have hcorr : (mk_rooms 1 (corrPairs cO)).filter (fun r => r.kind ≠ "corridor") = [] := by
      cases cO with
      | none => rfl
      | some c => rfl
    rw [hstep, mk_rooms_append, List.filter_append, hcorr, List.nil_append]
    apply List.filter_eq_self.mpr
    intro r hr
    obtain ⟨q, hq, _, _, _, _, hkind⟩ := mem_mk_rooms hr
    obtain ⟨e, _, rfl⟩ := List.mem_map.mp hq
    simp only [decide_eq_true_eq, ne_eq]
    rw [hkind]
    exact hko e.1
  rw [hrem]
  constructor
  · apply mk_rooms_pairwise_area
    have := pairwise_enumFrom_snd os hs 0
    exact (List.pairwise_map.mpr (by
      refine this.imp ?_
      intro a b hab
      exact hab))
  · intro j r hj
    rw [mk_rooms_get?] at hj
    rcases Option.map_eq_some'.mp hj with ⟨q, hq, rfl⟩
    rcases Option.map_eq_some'.mp (by
        have : (os.enum.map (fun e => ((e.2 : Rect),
            if 1 + e.1 < kinds.length then kinds.getD (1 + e.1) "" else "secondary"))).get? j
            = some q := hq
        rwa [List.get?_map] at this) with ⟨e, he, rfl⟩
    have : (List.enumFrom 0 os).get? j = some e := he
    rw [get?_enumFrom] at this
    rcases Option.map_eq_some'.mp this with ⟨a, _, rfl⟩
    simp only [Nat.zero_add]

/-- C9 (amended).  In every generation, the rooms after the primary (and the
corridor slot, if present) are ordered by area descending, and the `j`-th of
them is given kind `kinds[1+j]` from the kind list built for the drawn room
count (`_build_kinds`: the archetype pool with its last entry repeated up to
`n_rooms` entries) — but rooms beyond that list receive the literal
`"secondary"`, not the pool's last entry.  (The original claim fails exactly
on that fallback; see the counterexample, where an inn run hands out
`"secondary"` where the pool order dictates `"bedroom"`.) -/
theorem c9_remaining_kinds {σ : Type} (src : RandomSource σ)
    (fround : Int → Int → Int → Int) (init : Int → σ) (params : BuildingParams) :
    ∃ n_rooms : Int,
      ((((generate_building src fround init params).rooms.drop 1).filter
          (fun r => r.kind ≠ "corridor")).Pairwise (fun a b => b.w * b.h ≤ a.w * a.h)) ∧
      (∀ j r, (((generate_building src fround init params).rooms.drop 1).filter
          (fun r => r.kind ≠ "corridor")).get? j = some r →
        r.kind = if 1 + j < (build_kinds params.archetype n_rooms).length
                 then (build_kinds params.archetype n_rooms).getD (1 + j) ""
                 else "secondary") := by
  obtain ⟨n, W, H, s, heq, _⟩ := generate_building_shape src fround init params
  refine ⟨n, ?_⟩
  rw [heq]
  have hfin : (finalize params
      (build_layout src fround params (build_kinds params.archetype n) W H s).1).rooms
      = (partition_rooms src (make_blocks src params.footprint W H s).1 W H
          (build_kinds params.archetype n) params.layout fround
          (make_blocks src params.footprint W H s).2).1 := rfl
  rw [hfin]
  unfold partition_rooms
  simp only
  exact assemble_rooms_remaining _ _ _ _
    (build_kinds_no_corridor params.archetype n) (sortAreaDesc_pairwise _)

/-- C9 counterexample.  `result4` (inn, cross, small, seed 8) draws a single
room for its count, yet the cross footprint forces three rooms; the two
remaining rooms both get kind `"secondary"`, whereas the claim's rule —
kinds from the inn pool in order, repeating its last entry — dictates
`["secondary", "bedroom"]` for them. -/
theorem c9_counterexample :
    (((result4.rooms.drop 1).filter (fun r => r.kind ≠ "corridor")).map (fun r => r.kind)
      = ["secondary", "secondary"]) ∧
    ((List.range 2).map (fun j => (archetype_kinds params4.archetype).getD
        (min (1 + j) ((archetype_kinds params4.archetype).length - 1)) "")
      = ["secondary", "bedroom"]) ∧
    ¬ (((result4.rooms.drop 1).filter (fun r => r.kind ≠ "corridor")).map (fun r => r.kind)
      = (List.range (((result4.rooms.drop 1).filter (fun r => r.kind ≠ "corridor")).length)).map
          (fun j => (archetype_kinds params4.archetype).getD
            (min (1 + j) ((archetype_kinds params4.archetype).length - 1)) "")) := by
  exact ⟨by decide, by decide, by decide⟩

theorem c9_witness :
    ((((result4.rooms.drop 1).filter (fun r => r.kind ≠ "corridor")).Pairwise
        (fun a b => b.w * b.h ≤ a.w * a.h))) ∧
    (∃ n_rooms : Int, (Room.mk 2 5 9 5 3 "secondary").kind =
      if 1 + 1 < (build_kinds params4.archetype n_rooms).length
      then (build_kinds params4.archetype n_rooms).getD (1 + 1) ""
      else "secondary") := by
  obtain ⟨n, h1, h2⟩ := c9_remaining_kinds mt_source fround_rat mt_init params4
  exact ⟨h1, n, h2 1 (Room.mk 2 5 9 5 3 "secondary") (by decide)⟩

theorem c7_witness :
    ((find_entrance (stream_source (fun _ => 0)) (([Room.mk 0 0 0 5 4 "primary"]).headD default)
        [Rect.mk 0 0 5 4] 5 4
        (if LayoutPlan.open_plan = LayoutPlan.corridor
         then ([Room.mk 0 0 0 5 4 "primary"]).find? (fun r => r.kind = "corridor") else none)
        0).1 = some (Door.mk 2 (-1) "north" "normal")) ∧
    ((place_doors (stream_source (fun _ => 0)) [Room.mk 0 0 0 5 4 "primary"] [Rect.mk 0 0 5 4]
        LayoutPlan.open_plan 5 4 0).1.headD default = Door.mk 2 (-1) "north" "normal" ∧
     (Door.mk 2 (-1) "north" "normal").door_type = "normal" ∧
     gap_is_free_exterior [Rect.mk 0 0 5 4] 5 4 (Door.mk 2 (-1) "north" "normal").x
       (Door.mk 2 (-1) "north" "normal").y = true) :=
  ⟨by decide,
   (c7_door_types_and_first_door (stream_source (fun _ => 0)) [Room.mk 0 0 0 5 4 "primary"]
      [Rect.mk 0 0 5 4] LayoutPlan.open_plan 5 4 0).2
     (Door.mk 2 (-1) "north" "normal") (by decide)⟩

/-- C7 counterexample input: the door list of `result1` is nonempty (it has
the entrance found by `_find_entrance`) and its first door's `door_type` is
`"normal"` — the same value interior doors carry — not a distinct
exterior-entrance marking as the claim requires. -/
theorem c7_counterexample :
    result1.doors ≠ [] ∧ (result1.doors.headD default).door_type = "normal" ∧
    ¬ (result1.doors ≠ [] → (result1.doors.headD default).door_type ≠ "normal") := by
  refine ⟨by decide, by decide, ?_⟩
  intro hclaim
  exact hclaim (by decide) (by decide)

theorem c5_witness :
    Room.mk 0 0 0 9 9 "primary" ∈ result1.rooms ∧
    MIN_ROOM ≤ (Room.mk 0 0 0 9 9 "primary").w ∧
    MIN_ROOM ≤ (Room.mk 0 0 0 9 9 "primary").h :=
  ⟨by decide,
   c5_min_room_size mt_source fround_rat mt_init params1
     (Room.mk 0 0 0 9 9 "primary") (by decide)⟩

-- ---------------------------------------------------------------------------
-- C4: no two rooms overlap.
-- ---------------------------------------------------------------------------

/-- Half-open rectangle separation (no shared cell). -/
def rectDisjoint (a b : Rect) : Prop :=
  a.x + a.w ≤ b.x ∨ b.x + b.w ≤ a.x ∨ a.y + a.h ≤ b.y ∨ b.y + b.h ≤ a.y

/-- `a` lies inside `b`. -/
def rectInside (a b : Rect) : Prop :=
  b.x ≤ a.x ∧ a.x + a.w ≤ b.x + b.w ∧ b.y ≤ a.y ∧ a.y + a.h ≤ b.y + b.h

/-- The same separation on the `Room` fields. -/
def roomDisjoint (a b : Room) : Prop :=
  a.x + a.w ≤ b.x ∨ b.x + b.w ≤ a.x ∨ a.y + a.h ≤ b.y ∨ b.y + b.h ≤ a.y

theorem rectInside_refl (a : Rect) : rectInside a a := by
  unfold rectInside
  omega

theorem rectDisjoint_symm {a b : Rect} (h : rectDisjoint a b) : rectDisjoint b a := by
  unfold rectDisjoint at *
  omega

theorem rectInside_trans {a b c : Rect} (h1 : rectInside a b) (h2 : rectInside b c) :
    rectInside a c := by
  unfold rectInside at *
  omega

theorem rectDisjoint_mono {a b a2 b2 : Rect} (h1 : rectInside a b) (h2 : rectInside a2 b2)
    (h : rectDisjoint b b2) : rectDisjoint a a2 := by
  unfold rectInside rectDisjoint at *
  omega

/-- Every rect a guillotine run returns stays inside the input block. -/
theorem guillotineF_in_block {σ : Type} (src : RandomSource σ) :
    ∀ (fuel : Nat) (x0 y0 bw bh n : Int) (s : σ),
      ∀ r ∈ (guillotineF src fuel x0 y0 bw bh n s).1,
        rectInside r (Rect.mk x0 y0 bw bh) := by
  have hg : GAP = 1 := rfl
  intro fuel
  induction fuel with
  | zero =>
      intro x0 y0 bw bh n s r hr
      simp only [guillotineF, List.mem_singleton] at hr
      subst hr
      exact rectInside_refl _
  | succ f ih =>
      intro x0 y0 bw bh n s r hr
      simp only [guillotineF] at hr
      by_cases h1 : n ≤ 1
      · rw [if_pos h1] at hr
        simp only [List.mem_singleton] at hr
        subst hr
        exact rectInside_refl _
      · rw [if_neg h1] at hr
        by_cases h2 : ¬bh ≥ min_block_size 2 ∧ ¬bw ≥ min_block_size 2
        · rw [if_pos h2] at hr
          simp only [List.mem_singleton] at hr
          subst hr
          exact rectInside_refl _
        · rw [if_neg h2] at hr
          have hm1 : (3 : Int) ≤ min_block_size (max 1 (n / 2)) :=
            min_block_size_ge_of_pos _ (by omega)
          have hm2 : (3 : Int) ≤ min_block_size (n - max 1 (n / 2)) :=
            min_block_size_ge_of_pos _ (by omega)
          by_cases huse : if bh ≥ min_block_size 2 ∧ bw ≥ min_block_size 2
              then bh ≥ bw else bh ≥ min_block_size 2
          · rw [if_pos huse] at hr
            by_cases h3 : min_block_size (max 1 (n / 2)) >
                bh - GAP - min_block_size (n - max 1 (n / 2))
            · rw [if_pos h3] at hr
              simp only [List.mem_singleton] at hr
              subst hr
              exact rectInside_refl _
            · rw [if_neg h3] at hr
              have hcb := guillotine_cut_bounds src s
                (pyclamp (pyRoundDiv (bh * max 1 (n / 2)) n) (min_block_size (max 1 (n / 2)))
                  (bh - GAP - min_block_size (n - max 1 (n / 2))))
                (max 1 (bh / 6)) (min_block_size (max 1 (n / 2)))
                (bh - GAP - min_block_size (n - max 1 (n / 2))) (by omega) (by omega)
              simp only [List.mem_append] at hr
              rcases hr with hr | hr
              · refine rectInside_trans (ih _ _ _ _ _ _ r hr) ?_
                unfold rectInside
                simp only [Rect_mk_x, Rect_mk_y, Rect_mk_w, Rect_mk_h]
                omega
              · refine rectInside_trans (ih _ _ _ _ _ _ r hr) ?_
                unfold rectInside
                simp only [Rect_mk_x, Rect_mk_y, Rect_mk_w, Rect_mk_h]
                omega
          · rw [if_neg huse] at hr
            by_cases h3 : min_block_size (max 1 (n / 2)) >
                bw - GAP - min_block_size (n - max 1 (n / 2))
            · rw [if_pos h3] at hr
              simp only [List.mem_singleton] at hr
              subst hr
              exact rectInside_refl _
            · rw [if_neg h3] at hr
              have hcb := guillotine_cut_bounds src s
                (pyclamp (pyRoundDiv (bw * max 1 (n / 2)) n) (min_block_size (max 1 (n / 2)))
                  (bw - GAP - min_block_size (n - max 1 (n / 2))))
                (max 1 (bw / 6)) (min_block_size (max 1 (n / 2)))
                (bw - GAP - min_block_size (n - max 1 (n / 2))) (by omega) (by omega)
              simp only [List.mem_append] at hr
              rcases hr with hr | hr
              · refine rectInside_trans (ih _ _ _ _ _ _ r hr) ?_
                unfold rectInside
                simp only [Rect_mk_x, Rect_mk_y, Rect_mk_w, Rect_mk_h]
                omega
              · refine rectInside_trans (ih _ _ _ _ _ _ r hr) ?_
                unfold rectInside
                simp only [Rect_mk_x, Rect_mk_y, Rect_mk_w, Rect_mk_h]
                omega

/-- The rects of one guillotine run are pairwise separated: the two halves
of a cut are separated by the gap column/row. -/
theorem guillotineF_pairwise {σ : Type} (src : RandomSource σ) :
    ∀ (fuel : Nat) (x0 y0 bw bh n : Int) (s : σ),
      ((guillotineF src fuel x0 y0 bw bh n s).1).Pairwise rectDisjoint := by
  have hg : GAP = 1 := rfl
  intro fuel
  induction fuel with
  | zero =>
      intro x0 y0 bw bh n s
      simp only [guillotineF]
      exact List.pairwise_singleton _ _
  | succ f ih =>
      intro x0 y0 bw bh n s
      simp only [guillotineF]
      by_cases h1 : n ≤ 1
      · rw [if_pos h1]
        exact List.pairwise_singleton _ _
      · rw [if_neg h1]
        by_cases h2 : ¬bh ≥ min_block_size 2 ∧ ¬bw ≥ min_block_size 2
        · rw [if_pos h2]
          exact List.pairwise_singleton _ _
        · rw [if_neg h2]
          have hm1 : (3 : Int) ≤ min_block_size (max 1 (n / 2)) :=
            min_block_size_ge_of_pos _ (by omega)
          have hm2 : (3 : Int) ≤ min_block_size (n - max 1 (n / 2)) :=
            min_block_size_ge_of_pos _ (by omega)
          by_cases huse : if bh ≥ min_block_size 2 ∧ bw ≥ min_block_size 2
              then bh ≥ bw else bh ≥ min_block_size 2
          · rw [if_pos huse]
            by_cases h3 : min_block_size (max 1 (n / 2)) >
                bh - GAP - min_block_size (n - max 1 (n / 2))
            · rw [if_pos h3]
              exact List.pairwise_singleton _ _
            · rw [if_neg h3]
              refine List.pairwise_append.mpr ⟨ih _ _ _ _ _ _, ih _ _ _ _ _ _, ?_⟩
              intro a ha b hb
              have hia := guillotineF_in_block src f _ _ _ _ _ _ a ha
              have hib := guillotineF_in_block src f _ _ _ _ _ _ b hb
              refine rectDisjoint_mono hia hib ?_
              unfold rectDisjoint
              simp only [Rect_mk_x, Rect_mk_y, Rect_mk_w, Rect_mk_h]
              omega
          · rw [if_neg huse]
            by_cases h3 : min_block_size (max 1 (n / 2)) >
                bw - GAP - min_block_size (n - max 1 (n / 2))
            · rw [if_pos h3]
              exact List.pairwise_singleton _ _
            · rw [if_neg h3]
              refine List.pairwise_append.mpr ⟨ih _ _ _ _ _ _, ih _ _ _ _ _ _, ?_⟩
              intro a ha b hb
              have hia := guillotineF_in_block src f _ _ _ _ _ _ a ha
              have hib := guillotineF_in_block src f _ _ _ _ _ _ b hb
              refine rectDisjoint_mono hia hib ?_
              unfold rectDisjoint
              simp only [Rect_mk_x, Rect_mk_y, Rect_mk_w, Rect_mk_h]
              omega

theorem shrink_block_inside (b : Rect) (blocks : List Rect) :
    rectInside (shrink_block b blocks) b := by
  rw [shrink_block_spec]
  unfold rectInside
  simp only [Rect_mk_x, Rect_mk_y, Rect_mk_w, Rect_mk_h, GAP]
  omega

/-- Every rect produced by the per-block partition loop lies inside one of
the processed blocks. -/
theorem partition_blocks_go_sources {σ : Type} (src : RandomSource σ) (blocks : List Rect)
    (fround : Int → Int → Int → Int) (n_rooms total_area : Int) :
    ∀ (bs : List Rect) (remaining : Int) (s : σ),
      ∀ r ∈ (partition_blocks_go src blocks fround n_rooms total_area bs remaining s).1,
        ∃ b ∈ bs, rectInside r b := by
  intro bs
  induction bs with
  | nil =>
      intro remaining s r hr
      simp [partition_blocks_go] at hr
  | cons b rest ih =>
      intro remaining s r hr
      simp only [partition_blocks_go, guillotine, List.mem_append] at hr
      rcases hr with hr | hr
      · have h1 := guillotineF_in_block src _ _ _ _ _ _ _ r hr
        exact ⟨b, List.mem_cons_self _ _,
          rectInside_trans h1 (shrink_block_inside b blocks)⟩
      · obtain ⟨b2, hb2, h2⟩ := ih _ _ r hr
        exact ⟨b2, List.mem_cons_of_mem _ hb2, h2⟩

theorem partition_blocks_go_pairwise {σ : Type} (src : RandomSource σ) (blocks : List Rect)
    (fround : Int → Int → Int → Int) (n_rooms total_area : Int) :
    ∀ (bs : List Rect) (remaining : Int) (s : σ), bs.Pairwise rectDisjoint →
      ((partition_blocks_go src blocks fround n_rooms total_area bs remaining s).1).Pairwise
        rectDisjoint := by
  intro bs
  induction bs with
  | nil =>
      intro remaining s _
      simp [partition_blocks_go]
  | cons b rest ih =>
      intro remaining s hpw
      rcases List.pairwise_cons.mp hpw with ⟨hhead, htail⟩
      simp only [partition_blocks_go, guillotine]
      refine List.pairwise_append.mpr ⟨guillotineF_pairwise src _ _ _ _ _ _ _,
        ih _ _ htail, ?_⟩
      intro a ha r2 hr2
      have h1 := guillotineF_in_block src _ _ _ _ _ _ _ a ha
      have h1b := rectInside_trans h1 (shrink_block_inside b blocks)
      obtain ⟨b2, hb2, h2⟩ := partition_blocks_go_sources src blocks fround _ _ rest _ _ r2 hr2
      exact rectDisjoint_mono h1b h2 (hhead b2 hb2)

/-- The footprint blocks themselves are pairwise separated. -/
theorem make_blocks_pairwise {σ : Type} (src : RandomSource σ) (shape : FootprintShape)
    (W H : Int) (s : σ) (hW : 8 ≤ W) (hH : 7 ≤ H) :
    ((make_blocks src shape W H s).1).Pairwise rectDisjoint := by
  have hg : GAP = 1 := rfl
  have hm : MIN_ROOM = 3 := rfl
  cases shape with
  | rectangle =>
      simp only [make_blocks]
      exact List.pairwise_singleton _ _
  | l_shape =>
      simp only [make_blocks]
      refine List.pairwise_cons.mpr ⟨?_, List.pairwise_singleton _ _⟩
      intro b hb
      rcases List.mem_singleton.mp hb with rfl
      unfold rectDisjoint
      simp only [Rect_mk_x, Rect_mk_y, Rect_mk_w, Rect_mk_h]
      omega
  | cross =>
      simp only [make_blocks]
      generalize hBH : pyclamp (randint src (H * 30 / 100) (H * 45 / 100) s).1
        (MIN_ROOM + GAP) (H - 2 * (MIN_ROOM + GAP)) = BH
      generalize hCY : pyclamp ((H - BH) / 2) (MIN_ROOM + GAP)
        (H - BH - (MIN_ROOM + GAP)) = CY
      generalize hBW : pyclamp
        (randint src (W * 30 / 100) (W * 50 / 100)
          (randint src (H * 30 / 100) (H * 45 / 100) s).2).1
        (min_block_size 1) (W - 2 * min_block_size 1) = BW
      generalize hCX : pyclamp ((W - BW) / 2) 0 (W - BW) = CX
      have hBHb : 4 ≤ BH := by
        rw [← hBH]; unfold pyclamp MIN_ROOM GAP; omega
      by_cases hg1 : CY ≥ MIN_ROOM + GAP
      · by_cases hg2 : H - CY - BH ≥ MIN_ROOM + GAP
        · rw [if_pos hg1, if_pos hg2]
          simp only [List.cons_append, List.nil_append]
          refine List.pairwise_cons.mpr ⟨?_, List.pairwise_cons.mpr ⟨?_,
            List.pairwise_singleton _ _⟩⟩
          · intro b hb
            rcases List.mem_cons.mp hb with rfl | hb2
            · unfold rectDisjoint
              simp only [Rect_mk_x, Rect_mk_y, Rect_mk_w, Rect_mk_h]
              omega
            · rcases List.mem_singleton.mp hb2 with rfl
              unfold rectDisjoint
              simp only [Rect_mk_x, Rect_mk_y, Rect_mk_w, Rect_mk_h]
              omega
          · intro b hb
            rcases List.mem_singleton.mp hb with rfl
            unfold rectDisjoint
            simp only [Rect_mk_x, Rect_mk_y, Rect_mk_w, Rect_mk_h]
            omega
        · rw [if_pos hg1, if_neg hg2]
          simp only [List.cons_append, List.nil_append, List.append_nil]
          refine List.pairwise_cons.mpr ⟨?_, List.pairwise_singleton _ _⟩
          intro b hb
          rcases List.mem_singleton.mp hb with rfl
          unfold rectDisjoint
          simp only [Rect_mk_x, Rect_mk_y, Rect_mk_w, Rect_mk_h]
          omega
      · by_cases hg2 : H - CY - BH ≥ MIN_ROOM + GAP
        · rw [if_neg hg1, if_pos hg2]
          simp only [List.cons_append, List.nil_append]
          refine List.pairwise_cons.mpr ⟨?_, List.pairwise_singleton _ _⟩
          intro b hb
          rcases List.mem_singleton.mp hb with rfl
          unfold rectDisjoint
          simp only [Rect_mk_x, Rect_mk_y, Rect_mk_w, Rect_mk_h]
          omega
        · rw [if_neg hg1, if_neg hg2]
          simp only [List.cons_append, List.nil_append, List.append_nil]
          exact List.pairwise_singleton _ _
  | offset =>
      simp only [make_blocks]
      refine List.pairwise_cons.mpr ⟨?_, List.pairwise_singleton _ _⟩
      intro b hb
      rcases List.mem_singleton.mp hb with rfl
      unfold rectDisjoint
      simp only [Rect_mk_x, Rect_mk_y, Rect_mk_w, Rect_mk_h]
      omega

/-- Every rect a horizontal trim returns lies inside one of the input rects. -/
theorem trim_horizontal_inside (primary_raw : Rect) (cy : Int) :
    ∀ (l : List Rect), ∀ q ∈ trim_rooms_horizontal l primary_raw cy,
      ∃ r ∈ l, rectInside q r := by
  intro l
  induction l with
  | nil => intro q hq; simp [trim_rooms_horizontal] at hq
  | cons a t ih =>
      intro q hq
      simp only [trim_rooms_horizontal, List.foldr] at hq
      rw [List.mem_append] at hq
      rcases hq with hq | hq
      · refine ⟨a, List.mem_cons_self _ _, ?_⟩
        split at hq
        · rcases List.mem_singleton.mp hq with rfl
          exact rectInside_refl _
        · split at hq
          · rcases List.mem_singleton.mp hq with rfl
            exact rectInside_refl _
          · rename_i hp hband
            rw [List.mem_append] at hq
            rcases hq with hq | hq
            · split at hq
              · rename_i hc
                rcases List.mem_singleton.mp hq with rfl
                unfold rectInside
                simp only [Rect_mk_x, Rect_mk_y, Rect_mk_w, Rect_mk_h]
                push_neg at hband
                omega
              · cases hq
            · split at hq
              · rename_i hc
                rcases List.mem_singleton.mp hq with rfl
                unfold rectInside
                simp only [Rect_mk_x, Rect_mk_y, Rect_mk_w, Rect_mk_h]
                push_neg at hband
                omega
              · cases hq
      · obtain ⟨r, hr, h2⟩ := ih q hq
        exact ⟨r, List.mem_cons_of_mem _ hr, h2⟩

/-- Every rect a horizontal trim returns is the untouched primary or avoids
the corridor band. -/
theorem trim_horizontal_avoid (primary_raw : Rect) (cy : Int) :
    ∀ (l : List Rect), ∀ q ∈ trim_rooms_horizontal l primary_raw cy,
      q = primary_raw ∨ (q.y + q.h ≤ cy - GAP ∨ cy + MIN_ROOM + GAP ≤ q.y) := by
  intro l
  induction l with
  | nil => intro q hq; simp [trim_rooms_horizontal] at hq
  | cons a t ih =>
      intro q hq
      simp only [trim_rooms_horizontal, List.foldr] at hq
      rw [List.mem_append] at hq
      rcases hq with hq | hq
      · split at hq
        · rename_i hp
          rcases List.mem_singleton.mp hq with rfl
          exact Or.inl hp
        · split at hq
          · rename_i hp hband
            rcases List.mem_singleton.mp hq with rfl
            exact Or.inr hband
          · rw [List.mem_append] at hq
            rcases hq with hq | hq
            · split at hq
              · rcases List.mem_singleton.mp hq with rfl
                right
                left
                simp only [Rect_mk_y, Rect_mk_h]
                omega
              · cases hq
            · split at hq
              · rcases List.mem_singleton.mp hq with rfl
                right
                right
                simp only [Rect_mk_y]
                omega
              · cases hq
      · exact ih q hq

theorem trim_horizontal_pairwise (primary_raw : Rect) (cy : Int) :
    ∀ (l : List Rect), l.Pairwise rectDisjoint →
      (trim_rooms_horizontal l primary_raw cy).Pairwise rectDisjoint := by
  have hg : GAP = 1 := rfl
  have hm : MIN_ROOM = 3 := rfl
  intro l
  induction l with
  | nil => intro _; simp [trim_rooms_horizontal]
  | cons a t ih =>
      intro hpw
      rcases List.pairwise_cons.mp hpw with ⟨hhead, htail⟩
      simp only [trim_rooms_horizontal, List.foldr]
      have hbranch_inside : ∀ q ∈
          (if a = primary_raw then [a]
           else if a.y + a.h ≤ cy - GAP ∨ a.y ≥ cy + MIN_ROOM + GAP then [a]
           else
             (if a.y < cy - GAP ∧ cy - GAP - a.y ≥ MIN_ROOM then
                [Rect.mk a.x a.y a.w (cy - GAP - a.y)] else []) ++
             (if a.y + a.h > cy + MIN_ROOM + GAP ∧ (a.y + a.h) - (cy + MIN_ROOM + GAP) ≥ MIN_ROOM then
                [Rect.mk a.x (cy + MIN_ROOM + GAP) a.w ((a.y + a.h) - (cy + MIN_ROOM + GAP))] else [])),
          rectInside q a := by
        intro q hq
        split at hq
        · rcases List.mem_singleton.mp hq with rfl
          exact rectInside_refl _
        · split at hq
          · rcases List.mem_singleton.mp hq with rfl
            exact rectInside_refl _
          · rename_i hp hband
            rw [List.mem_append] at hq
            push_neg at hband
            rcases hq with hq | hq
            · split at hq
              · rcases List.mem_singleton.mp hq with rfl
                unfold rectInside
                simp only [Rect_mk_x, Rect_mk_y, Rect_mk_w, Rect_mk_h]
                omega
              · cases hq
            · split at hq
              · rcases List.mem_singleton.mp hq with rfl
                unfold rectInside
                simp only [Rect_mk_x, Rect_mk_y, Rect_mk_w, Rect_mk_h]
                omega
              · cases hq
      refine List.pairwise_append.mpr ⟨?_, ih htail, ?_⟩
      · split
        · exact List.pairwise_singleton _ _
        · split
          · exact List.pairwise_singleton _ _
          · refine List.pairwise_append.mpr ⟨?_, ?_, ?_⟩
            · split
              · exact List.pairwise_singleton _ _
              · exact List.Pairwise.nil
            · split
              · exact List.pairwise_singleton _ _
              · exact List.Pairwise.nil
            · intro q1 hq1 q2 hq2
              split at hq1
              · rcases List.mem_singleton.mp hq1 with rfl
                split at hq2
                · rcases List.mem_singleton.mp hq2 with rfl
                  unfold rectDisjoint
                  simp only [Rect_mk_x, Rect_mk_y, Rect_mk_w, Rect_mk_h]
                  omega
                · cases hq2
              · cases hq1
      · intro q1 hq1 q2 hq2
        obtain ⟨r2, hr2, hin2⟩ := trim_horizontal_inside primary_raw cy t q2 hq2
        exact rectDisjoint_mono (hbranch_inside q1 hq1) hin2 (hhead r2 hr2)

/-- Vertical versions of the three trim lemmas. -/
theorem trim_vertical_inside (primary_raw : Rect) (cx : Int) :
    ∀ (l : List Rect), ∀ q ∈ trim_rooms_vertical l primary_raw cx,
      ∃ r ∈ l, rectInside q r := by
  intro l
  induction l with
  | nil => intro q hq; simp [trim_rooms_vertical] at hq
  | cons a t ih =>
      intro q hq
      simp only [trim_rooms_vertical, List.foldr] at hq
      rw [List.mem_append] at hq
      rcases hq with hq | hq
      · refine ⟨a, List.mem_cons_self _ _, ?_⟩
        split at hq
        · rcases List.mem_singleton.mp hq with rfl
          exact rectInside_refl _
        · split at hq
          · rcases List.mem_singleton.mp hq with rfl
            exact rectInside_refl _
          · rename_i hp hband
            rw [List.mem_append] at hq
            push_neg at hband
            rcases hq with hq | hq
            · split at hq
              · rcases List.mem_singleton.mp hq with rfl
                unfold rectInside
                simp only [Rect_mk_x, Rect_mk_y, Rect_mk_w, Rect_mk_h]
                omega
              · cases hq
            · split at hq
              · rcases List.mem_singleton.mp hq with rfl
                unfold rectInside
                simp only [Rect_mk_x, Rect_mk_y, Rect_mk_w, Rect_mk_h]
                omega
              · cases hq
      · obtain ⟨r, hr, h2⟩ := ih q hq
        exact ⟨r, List.mem_cons_of_mem _ hr, h2⟩

theorem trim_vertical_avoid (primary_raw : Rect) (cx : Int) :
    ∀ (l : List Rect), ∀ q ∈ trim_rooms_vertical l primary_raw cx,
      q = primary_raw ∨ (q.x + q.w ≤ cx - GAP ∨ cx + MIN_ROOM + GAP ≤ q.x) := by
  intro l
  induction l with
  | nil => intro q hq; simp [trim_rooms_vertical] at hq
  | cons a t ih =>
      intro q hq
      simp only [trim_rooms_vertical, List.foldr] at hq
      rw [List.mem_append] at hq
      rcases hq with hq | hq
      · split at hq
        · rename_i hp
          rcases List.mem_singleton.mp hq with rfl
          exact Or.inl hp
        · split at hq
          · rename_i hp hband
            rcases List.mem_singleton.mp hq with rfl
            exact Or.inr hband
          · rw [List.mem_append] at hq
            rcases hq with hq | hq
            · split at hq
              · rcases List.mem_singleton.mp hq with rfl
                right
                left
                simp only [Rect_mk_x, Rect_mk_w]
                omega
              · cases hq
            · split at hq
              · rcases List.mem_singleton.mp hq with rfl
                right
                right
                simp only [Rect_mk_x]
                omega
              · cases hq
      · exact ih q hq

theorem trim_vertical_pairwise (primary_raw : Rect) (cx : Int) :
    ∀ (l : List Rect), l.Pairwise rectDisjoint →
      (trim_rooms_vertical l primary_raw cx).Pairwise rectDisjoint := by
  have hg : GAP = 1 := rfl
  have hm : MIN_ROOM = 3 := rfl
  intro l
  induction l with
  | nil => intro _; simp [trim_rooms_vertical]
  | cons a t ih =>
      intro hpw
      rcases List.pairwise_cons.mp hpw with ⟨hhead, htail⟩
      simp only [trim_rooms_vertical, List.foldr]
      have hbranch_inside : ∀ q ∈
          (if a = primary_raw then [a]
           else if a.x + a.w ≤ cx - GAP ∨ a.x ≥ cx + MIN_ROOM + GAP then [a]
           else
             (if a.x < cx - GAP ∧ cx - GAP - a.x ≥ MIN_ROOM then
                [Rect.mk a.x a.y (cx - GAP - a.x) a.h] else []) ++
             (if a.x + a.w > cx + MIN_ROOM + GAP ∧ (a.x + a.w) - (cx + MIN_ROOM + GAP) ≥ MIN_ROOM then
                [Rect.mk (cx + MIN_ROOM + GAP) a.y ((a.x + a.w) - (cx + MIN_ROOM + GAP)) a.h] else [])),
          rectInside q a := by
        intro q hq
        split at hq
        · rcases List.mem_singleton.mp hq with rfl
          exact rectInside_refl _
        · split at hq
          · rcases List.mem_singleton.mp hq with rfl
            exact rectInside_refl _
          · rename_i hp hband
            rw [List.mem_append] at hq
            push_neg at hband
            rcases hq with hq | hq
            · split at hq
              · rcases List.mem_singleton.mp hq with rfl
                unfold rectInside
                simp only [Rect_mk_x, Rect_mk_y, Rect_mk_w, Rect_mk_h]
                omega
              · cases hq
            · split at hq
              · rcases List.mem_singleton.mp hq with rfl
                unfold rectInside
                simp only [Rect_mk_x, Rect_mk_y, Rect_mk_w, Rect_mk_h]
                omega
              · cases hq
      refine List.pairwise_append.mpr ⟨?_, ih htail, ?_⟩
      · split
        · exact List.pairwise_singleton _ _
        · split
          · exact List.pairwise_singleton _ _
          · refine List.pairwise_append.mpr ⟨?_, ?_, ?_⟩
            · split
              · exact List.pairwise_singleton _ _
              · exact List.Pairwise.nil
            · split
              · exact List.pairwise_singleton _ _
              · exact List.Pairwise.nil
            · intro q1 hq1 q2 hq2
              split at hq1
              · rcases List.mem_singleton.mp hq1 with rfl
                split at hq2
                · rcases List.mem_singleton.mp hq2 with rfl
                  unfold rectDisjoint
                  simp only [Rect_mk_x, Rect_mk_y, Rect_mk_w, Rect_mk_h]
                  omega
                · cases hq2
              · cases hq1
      · intro q1 hq1 q2 hq2
        obtain ⟨r2, hr2, hin2⟩ := trim_vertical_inside primary_raw cx t q2 hq2
        exact rectDisjoint_mono (hbranch_inside q1 hq1) hin2 (hhead r2 hr2)

/-- Inserting the corridor keeps the raw rect list pairwise separated: the
strip sits one gap cell away from the primary and the trims carve the
corridor band (plus gaps) out of every other room. -/
theorem insert_corridor_pairwise {σ : Type} (src : RandomSource σ) (rooms_raw : List Rect)
    (W H : Int) (primary_raw : Rect) (s : σ) (hpw : rooms_raw.Pairwise rectDisjoint) :
    ((insert_corridor src rooms_raw W H primary_raw s).1).Pairwise rectDisjoint := by
  have hg : GAP = 1 := rfl
  have hm : MIN_ROOM = 3 := rfl
  simp only [insert_corridor]
  generalize hcl :
    (if primary_raw.y - GAP - MIN_ROOM ≥ 0 then
        [("north", Rect.mk 0 (primary_raw.y - GAP - MIN_ROOM) W MIN_ROOM)] else []) ++
      (if primary_raw.y + primary_raw.h + GAP + MIN_ROOM ≤ H then
        [("south", Rect.mk 0 (primary_raw.y + primary_raw.h + GAP) W MIN_ROOM)] else []) ++
      (if primary_raw.x - GAP - MIN_ROOM ≥ 0 then
        [("west", Rect.mk (primary_raw.x - GAP - MIN_ROOM) 0 MIN_ROOM H)] else []) ++
      (if primary_raw.x + primary_raw.w + GAP + MIN_ROOM ≤ W then
        [("east", Rect.mk (primary_raw.x + primary_raw.w + GAP) 0 MIN_ROOM H)] else []) =
      cands
  have hgeo : ∀ p ∈ cands, rectDisjoint (p : String × Rect).2 primary_raw ∧
      ((p.1 = "north" ∨ p.1 = "south") → p.2.h = MIN_ROOM) ∧
      (¬(p.1 = "north" ∨ p.1 = "south") → p.2.w = MIN_ROOM) := by
    intro p hp
    rw [← hcl] at hp
    rcases List.mem_append.mp hp with h4 | h4
    · rcases List.mem_append.mp h4 with h5 | h5
      · rcases List.mem_append.mp h5 with h6 | h6
        · have h7 := mem_ite_singleton h6
          subst h7
          refine ⟨?_, fun _ => rfl, fun hns => absurd (Or.inl rfl) hns⟩
          unfold rectDisjoint
          simp only [Rect_mk_x, Rect_mk_y, Rect_mk_w, Rect_mk_h]
          omega
        · have h7 := mem_ite_singleton h6
          subst h7
          refine ⟨?_, fun _ => rfl, fun hns => absurd (Or.inr rfl) hns⟩
          unfold rectDisjoint
          simp only [Rect_mk_x, Rect_mk_y, Rect_mk_w, Rect_mk_h]
          omega
      · have h7 := mem_ite_singleton h5
        subst h7
        refine ⟨?_, fun hns => by simp at hns, fun _ => rfl⟩
        unfold rectDisjoint
        simp only [Rect_mk_x, Rect_mk_y, Rect_mk_w, Rect_mk_h]
        omega
    · have h7 := mem_ite_singleton h4
      subst h7
      refine ⟨?_, fun hns => by simp at hns, fun _ => rfl⟩
      unfold rectDisjoint
      simp only [Rect_mk_x, Rect_mk_y, Rect_mk_w, Rect_mk_h]
      omega
  split
  · exact hpw
  · split
    · exact hpw
    · rename_i side corr tail heq
      have hp := hgeo (side, corr)
        (pyshuffle_mem src _ _ _ (by rw [heq]; exact List.mem_cons_self _ _))
      split
      · rename_i hside
        refine List.pairwise_append.mpr ⟨trim_horizontal_pairwise _ _ _ hpw,
          List.pairwise_singleton _ _, ?_⟩
        intro q hq c hc
        rcases List.mem_singleton.mp hc with rfl
        have hch : c.h = MIN_ROOM := hp.2.1 hside
        rcases trim_horizontal_avoid primary_raw c.y rooms_raw q hq with hqp | havoid
        · subst hqp
          exact rectDisjoint_symm hp.1
        · unfold rectDisjoint
          omega
      · rename_i hside
        refine List.pairwise_append.mpr ⟨trim_vertical_pairwise _ _ _ hpw,
          List.pairwise_singleton _ _, ?_⟩
        intro q hq c hc
        rcases List.mem_singleton.mp hc with rfl
        have hcw : c.w = MIN_ROOM := hp.2.2 hside
        rcases trim_vertical_avoid primary_raw c.x rooms_raw q hq with hqp | havoid
        · subst hqp
          exact rectDisjoint_symm hp.1
        · unfold rectDisjoint
          omega

theorem rectDisjoint_symmetric : Symmetric rectDisjoint := by
  intro a b h
  exact rectDisjoint_symm h

theorem getD_eq_get_of_lt (l : List Rect) (d : Rect) :
    ∀ (i : Nat) (h : i < l.length), l.getD i d = l.get ⟨i, h⟩ := by
  induction l with
  | nil => intro i h; exact absurd h (Nat.not_lt_zero i)
  | cons a t ih =>
      intro i h
      cases i with
      | zero => rfl
      | succ k => exact ih k (Nat.lt_of_succ_lt_succ h)

/-- Two distinct positions of a pairwise-separated list hold separated
rects. -/
theorem pairwise_getD (l : List Rect) (hpw : l.Pairwise rectDisjoint) (i j : Nat)
    (hi : i < l.length) (hj : j < l.length) (hij : i ≠ j) :
    rectDisjoint (l.getD i default) (l.getD j default) := by
  rw [getD_eq_get_of_lt l default i hi, getD_eq_get_of_lt l default j hj]
  have hpg := List.pairwise_iff_get.mp hpw
  rcases Nat.lt_or_ge i j with h | h
  · exact hpg ⟨i, hi⟩ ⟨j, hj⟩ (Fin.mk_lt_mk.mpr h)
  · have h2 : j < i := by omega
    exact rectDisjoint_symm (hpg ⟨j, hj⟩ ⟨i, hi⟩ (Fin.mk_lt_mk.mpr h2))

theorem pairwise_map_getD (l : List Rect) (hpw : l.Pairwise rectDisjoint) :
    ∀ (idxs : List Nat), idxs.Nodup → (∀ i ∈ idxs, i < l.length) →
      (idxs.map (fun i => l.getD i default)).Pairwise rectDisjoint := by
  intro idxs
  induction idxs with
  | nil => intro _ _; exact List.Pairwise.nil
  | cons i t ih =>
      intro hnd hlt
      rw [List.map_cons]
      rcases List.nodup_cons.mp hnd with ⟨hni, hndt⟩
      refine List.pairwise_cons.mpr
        ⟨?_, ih hndt (fun j hj => hlt j (List.mem_cons_of_mem _ hj))⟩
      intro y hy
      obtain ⟨j, hj, rfl⟩ := List.mem_map.mp hy
      exact pairwise_getD l hpw i j (hlt i (List.mem_cons_self _ _))
        (hlt j (List.mem_cons_of_mem _ hj)) (fun he => hni (he ▸ hj))

theorem insertAreaDesc_perm (r : Rect) :
    ∀ (l : List Rect), List.Perm (insertAreaDesc r l) (r :: l) := by
  intro l
  induction l with
  | nil => exact List.Perm.refl _
  | cons a t ih =>
      unfold insertAreaDesc
      split
      · exact (ih.cons a).trans (List.Perm.swap r a t)
      · exact List.Perm.refl _

theorem sortAreaDesc_perm : ∀ (l : List Rect), List.Perm (sortAreaDesc l) l := by
  intro l
  induction l with
  | nil => exact List.Perm.refl _
  | cons a t ih =>
      exact (insertAreaDesc_perm a (sortAreaDesc t)).trans (ih.cons a)

theorem RoomMk_x (i : Nat) (x y w h : Int) (k : String) : (Room.mk i x y w h k).x = x := rfl

theorem RoomMk_y (i : Nat) (x y w h : Int) (k : String) : (Room.mk i x y w h k).y = y := rfl

theorem RoomMk_w (i : Nat) (x y w h : Int) (k : String) : (Room.mk i x y w h k).w = w := rfl

theorem RoomMk_h (i : Nat) (x y w h : Int) (k : String) : (Room.mk i x y w h k).h = h := rfl

/-- Enumerating separated (rect, kind) pairs into rooms keeps them
separated. -/
theorem mk_rooms_pairwise : ∀ (l : List (Rect × String)),
    l.Pairwise (fun p q => rectDisjoint p.1 q.1) →
    ∀ i, (mk_rooms i l).Pairwise roomDisjoint := by
  intro l
  induction l with
  | nil => intro _ _; exact List.Pairwise.nil
  | cons p rest ih =>
      intro h i
      rcases List.pairwise_cons.mp h with ⟨hhead, htail⟩
      simp only [mk_rooms]
      refine List.pairwise_cons.mpr ⟨?_, ih htail (i + 1)⟩
      intro rm hrm
      obtain ⟨q, hq, hx, hy2, hw2, hh2, _⟩ := mem_mk_rooms hrm
      have hd := hhead q hq
      unfold roomDisjoint
      simp only [RoomMk_x, RoomMk_y, RoomMk_w, RoomMk_h]
      rw [hx, hy2, hw2, hh2]
      unfold rectDisjoint at hd
      omega

theorem assemble_rooms_disjoint (p : Rect) (cO : Option Rect) (os : List Rect)
    (kinds : List String)
    (hpc : ∀ c, cO = some c → rectDisjoint p c)
    (hpo : ∀ r ∈ os, rectDisjoint p r)
    (hco : ∀ c, cO = some c → ∀ r ∈ os, rectDisjoint c r)
    (hos : os.Pairwise rectDisjoint) :
    (assemble_rooms p cO os kinds).Pairwise roomDisjoint := by
  simp only [assemble_rooms]
  refine mk_rooms_pairwise _ ?_ 0
  refine List.pairwise_append.mpr ⟨List.pairwise_append.mpr ⟨?_, ?_, ?_⟩, ?_, ?_⟩
  · exact List.pairwise_singleton _ _
  · cases cO with
    | none => exact List.Pairwise.nil
    | some c => exact List.pairwise_singleton _ _
  · intro a ha b hb
    rcases List.mem_singleton.mp ha with rfl
    cases cO with
    | none => simp [corrPairs] at hb
    | some c =>
        simp only [corrPairs, List.mem_singleton] at hb
        subst hb
        exact hpc c rfl
  · refine List.Pairwise.map _ (fun a b hab => hab) ?_
    exact pairwise_enumFrom_snd os hos 0
  · intro a ha b hb
    obtain ⟨ep, hep, hfeq⟩ := List.mem_map.mp hb
    rw [← hfeq]
    have hmem : ep.2 ∈ os := mem_enumFrom_snd hep
    rcases List.mem_append.mp ha with h1 | h1
    · rcases List.mem_singleton.mp h1 with rfl
      exact hpo ep.2 hmem
    · cases cO with
      | none => simp [corrPairs] at h1
      | some c =>
          simp only [corrPairs, List.mem_singleton] at h1
          subst h1
          exact hco c rfl ep.2 hmem

theorem select_rooms_disjoint (all2 blocks : List Rect) (kinds : List String)
    (cidx : Option Nat) (hne : all2 ≠ [])
    (hpw : all2.Pairwise rectDisjoint)
    (hcidx : ∀ i, cidx = some i → i < all2.length ∧ i ≠ primary_idx all2 blocks) :
    (assemble_rooms (all2.getD (primary_idx all2 blocks) default)
        (cidx.map (fun c => all2.getD c default))
        (sortAreaDesc (((List.range all2.length).filter
          (fun i => i ≠ primary_idx all2 blocks ∧ cidx ≠ some i)).map
          (fun i => all2.getD i default))) kinds).Pairwise roomDisjoint := by
  have hplt := primary_idx_lt all2 blocks hne
  apply assemble_rooms_disjoint
  · intro c hcEq
    cases cidx with
    | none => cases hcEq
    | some i =>
        injection hcEq with hcEq
        subst hcEq
        obtain ⟨hilt, hine⟩ := hcidx i rfl
        exact pairwise_getD all2 hpw _ i hplt hilt (fun he => hine he.symm)
  · intro r hr
    obtain ⟨j, hj, hEq⟩ := List.mem_map.mp (mem_sortAreaDesc hr)
    have hjm := List.mem_filter.mp hj
    have hjlt : j < all2.length := List.mem_range.mp hjm.1
    have hjp : j ≠ primary_idx all2 blocks ∧ cidx ≠ some j := by simpa using hjm.2
    rw [← hEq]
    exact pairwise_getD all2 hpw _ j hplt hjlt (fun he => hjp.1 he.symm)
  · intro c hcEq r hr
    cases cidx with
    | none => cases hcEq
    | some i =>
        injection hcEq with hcEq
        subst hcEq
        obtain ⟨hilt, _⟩ := hcidx i rfl
        obtain ⟨j, hj, hEq⟩ := List.mem_map.mp (mem_sortAreaDesc hr)
        have hjm := List.mem_filter.mp hj
        have hjlt : j < all2.length := List.mem_range.mp hjm.1
        have hjp : j ≠ primary_idx all2 blocks ∧ (some i : Option Nat) ≠ some j := by
          simpa using hjm.2
        rw [← hEq]
        refine pairwise_getD all2 hpw i j hilt hjlt ?_
        intro he
        exact hjp.2 (by rw [he])
  · have hX : (((List.range all2.length).filter
        (fun i => i ≠ primary_idx all2 blocks ∧ cidx ≠ some i)).map
        (fun i => all2.getD i default)).Pairwise rectDisjoint := by
      refine pairwise_map_getD all2 hpw _ ?_ ?_
      · exact List.Nodup.filter _ (List.nodup_range _)
      · intro i hi
        exact List.mem_range.mp (List.mem_filter.mp hi).1
    exact ((sortAreaDesc_perm _).pairwise_iff @rectDisjoint_symmetric).mpr hX

/-- The whole room list `partition_rooms` assembles is pairwise separated
whenever the footprint blocks are. -/
theorem partition_rooms_disjoint {σ : Type} (src : RandomSource σ) (blocks : List Rect)
    (W H : Int) (kinds : List String) (layout : LayoutPlan)
    (fround : Int → Int → Int → Int) (s : σ)
    (hblocks : blocks ≠ []) (hbpw : blocks.Pairwise rectDisjoint) :
    ((partition_rooms src blocks W H kinds layout fround s).1).Pairwise roomDisjoint := by
  simp only [partition_rooms]
  by_cases hlay : layout = LayoutPlan.corridor
  · simp only [if_pos hlay]
    refine select_rooms_disjoint _ blocks kinds _ ?_ ?_ ?_
    · exact insert_corridor_ne_nil src _ W H _ _
        (partition_blocks_go_ne_nil src blocks fround _ _ blocks _ s hblocks)
    · exact insert_corridor_pairwise src _ W H _ _
        (partition_blocks_go_pairwise src blocks fround _ _ blocks _ s hbpw)
    · intro i hi
      have hm2 := List.mem_filter.mp (mem_of_head?_eq_some hi)
      refine ⟨List.mem_range.mp hm2.1, ?_⟩
      have hp2 := hm2.2
      simp only [decide_eq_true_eq] at hp2
      exact hp2.1
  · simp only [if_neg hlay]
    refine select_rooms_disjoint _ blocks kinds none ?_ ?_ ?_
    · exact partition_blocks_go_ne_nil src blocks fround _ _ blocks _ s hblocks
    · exact partition_blocks_go_pairwise src blocks fround _ _ blocks _ s hbpw
    · intro i hi
      cases hi

theorem pairwise_mem_rel {R : Room → Room → Prop} (hs : ∀ a b, R a b → R b a) :
    ∀ (l : List Room), l.Pairwise R → ∀ a ∈ l, ∀ b ∈ l, a ≠ b → R a b := by
  intro l
  induction l with
  | nil => intro _ a ha; cases ha
  | cons x t ih =>
      intro hpw a ha b hb hne
      rcases List.pairwise_cons.mp hpw with ⟨hx, ht⟩
      rcases List.mem_cons.mp ha with rfl | ha2
      · rcases List.mem_cons.mp hb with rfl | hb2
        · exact absurd rfl hne
        · exact hx b hb2
      · rcases List.mem_cons.mp hb with rfl | hb2
        · exact hs _ _ (hx a ha2)
        · exact ih ht a ha2 b hb2 hne

/-- C4.  Any two distinct rooms in a `generate_building` result have
non-intersecting rectangles: no grid cell `(cx, cy)` lies inside both. -/
theorem c4_no_overlap {σ : Type} (src : RandomSource σ)
    (fround : Int → Int → Int → Int) (init : Int → σ) (params : BuildingParams) :
    ∀ r1 ∈ (generate_building src fround init params).rooms,
      ∀ r2 ∈ (generate_building src fround init params).rooms, r1 ≠ r2 →
        ∀ cx cy : Int,
          ¬((r1.x ≤ cx ∧ cx < r1.x + r1.w ∧ r1.y ≤ cy ∧ cy < r1.y + r1.h) ∧
            (r2.x ≤ cx ∧ cx < r2.x + r2.w ∧ r2.y ≤ cy ∧ cy < r2.y + r2.h)) := by
  obtain ⟨n, W, H, s, heq, hW8, hW62, hH7, hH62⟩ :=
    generate_building_shape src fround init params
  rw [heq]
  have hrooms : (finalize params
      (build_layout src fround params (build_kinds params.archetype n) W H s).1).rooms =
      (partition_rooms src (make_blocks src params.footprint W H s).1 W H
        (build_kinds params.archetype n) params.layout fround
        (make_blocks src params.footprint W H s).2).1 := rfl
  rw [hrooms]
  have hpw := partition_rooms_disjoint src (make_blocks src params.footprint W H s).1
    W H (build_kinds params.archetype n) params.layout fround
    (make_blocks src params.footprint W H s).2
    (make_blocks_ne_nil src params.footprint W H s)
    (make_blocks_pairwise src params.footprint W H s (by omega) (by omega))
  intro r1 h1 r2 h2 hne cx cy hcontra
  have hd := pairwise_mem_rel (fun a b hab => by unfold roomDisjoint at *; omega) _
    hpw r1 h1 r2 h2 hne
  unfold roomDisjoint at hd
  omega

theorem c4_witness :
    Room.mk 0 0 5 15 3 "primary" ∈ result4.rooms ∧
    Room.mk 1 5 0 5 4 "secondary" ∈ result4.rooms ∧
    Room.mk 0 0 5 15 3 "primary" ≠ Room.mk 1 5 0 5 4 "secondary" ∧
    ¬(((Room.mk 0 0 5 15 3 "primary").x ≤ 6 ∧
        6 < (Room.mk 0 0 5 15 3 "primary").x + (Room.mk 0 0 5 15 3 "primary").w ∧
        (Room.mk 0 0 5 15 3 "primary").y ≤ 1 ∧
        1 < (Room.mk 0 0 5 15 3 "primary").y + (Room.mk 0 0 5 15 3 "primary").h) ∧
      ((Room.mk 1 5 0 5 4 "secondary").x ≤ 6 ∧
        6 < (Room.mk 1 5 0 5 4 "secondary").x + (Room.mk 1 5 0 5 4 "secondary").w ∧
        (Room.mk 1 5 0 5 4 "secondary").y ≤ 1 ∧
        1 < (Room.mk 1 5 0 5 4 "secondary").y + (Room.mk 1 5 0 5 4 "secondary").h)) :=
  ⟨by decide, by decide, by decide,
   c4_no_overlap mt_source fround_rat mt_init params4
     (Room.mk 0 0 5 15 3 "primary") (by decide)
     (Room.mk 1 5 0 5 4 "secondary") (by decide) (by decide) 6 1⟩

end BuildingGen
